import Mathlib

/-!
Package dwarfparser: address-to-source resolution over DWARF

A shallow embedding of the Go package `parser` of quic/dwarfparser
(`debuginfo.go`, `debugline.go`, `dwarf.go`, and of `arch.go`, `symbols.go`,
`text.go`, `rela.go` the call decoders and the scans for coverage call sites),
of the functions `dot` and `percent` of the command `callgraph`, and theorems
about them.

Conventions of the embedding

* A Go call ends in one of three ways: it returns a value, it returns a
  non-nil `error`, or it panics (nil dereference, failed type assertion,
  index out of range).  `Res` has one constructor for each.
* The package keeps five process-wide memo tables (`cmap`).  They are the
  state `Caches`; every function that reads or writes one of them is a state
  transformer `M α = Caches → Res α × Caches`.  The tables survive an error
  return, so the state is returned next to the outcome.
* `uint64`, `dwarf.Offset` are `Nat`, Go `int`/`int64` are `Int`.  The DWARF
  part of the program only compares addresses; the call decoders compute on
  them, and there every `uint64` operation is taken modulo `2^64`.
* The standard library packages `debug/elf` and `debug/dwarf` are not part of
  the repository.  What the program observes of them is taken as data: the
  decoded entry stream of `.debug_info`, the range resolver `Data.Ranges`, and
  the line-program reader `Data.LineReader`.
-/

namespace Dwarfparser

/-! ## Outcomes -/

/-- Run-time panics the Go code can raise. -/
inductive Panic where
  | nilDereference
  | typeAssertion
  | indexOutOfRange
  /-- Message `assignment to entry in nil map`. -/
  | nilMapAssignment
  deriving DecidableEq

/-- The non-nil `error` values.  One constructor for every `fmt.Errorf` site of
the package, carrying the formatted arguments; `lib` stands for an error value
handed up from `debug/elf` or `debug/dwarf`. -/
inductive Err where
  /-- An error of the standard library. -/
  | lib (msg : String)
  /-- Message `not found .debug_info section`. -/
  | notFoundDebugInfo
  /-- Message `found unexpected tag %v on top level`. -/
  | unexpectedTopLevelTag (tag : Nat)
  /-- Message `not find CompileUnit for pc 0x%x`. -/
  | notFindCompileUnit (pc : Nat)
  /-- Message `not found Compile Unit for 0x%x`. -/
  | notFoundCompileUnit (pc : Nat)
  /-- Message `not found 0x%x in .debug_line`. -/
  | notFoundInDebugLine (pc : Nat)
  /-- Message `failed to get line reader for %v 0x%x`. -/
  | failedLineReader (path : String) (offset : Nat)
  /-- Message `files == nil`. -/
  | filesNil
  /-- Message `index (%v) >= len(files) (%v)`. -/
  | indexGeLen (index : Int) (len : Nat)
  /-- Message `no __sanitizer_cov_trace_pc symbol in the object file`. -/
  | noTracePCSymbol
  /-- Message `no .text section in the object file`. -/
  | noTextSection
  /-- Message `no .rela.text section`. -/
  | noRelaTextSection
  deriving DecidableEq

/-- Outcome of a Go call. -/
inductive Res (α : Type) where
  | ok (a : α)
  | error (e : Err)
  | panic (p : Panic)
  deriving DecidableEq

/-- Sequencing of outcomes: an error or a panic ends the computation. -/
def Res.bind {α β : Type} (r : Res α) (f : α → Res β) : Res β :=
  match r with
  | .ok a => f a
  | .error e => .error e
  | .panic p => .panic p

instance : Monad Res where
  pure := Res.ok
  bind := Res.bind

/-! ## What the program sees of `debug/dwarf` -/

/-- Dynamic values of an attribute (`Field.Val`, a Go `any`). -/
inductive Value where
  | str (s : String)
  | int64 (i : Int)
  | uint64 (n : Nat)
  | offset (o : Nat)
  | bool (b : Bool)
  | bytes (bs : List Nat)
  deriving DecidableEq

/-- Type `dwarf.Field`: one attribute/value pair of an entry. -/
structure Field where
  Attr : Nat
  Val : Value
  deriving DecidableEq

/-- Type `dwarf.Entry`.  The null entry that closes a list of children is
decoded by the library as the zero `Entry`, whose `Tag` is 0. -/
structure Entry where
  Offset : Nat
  Tag : Nat
  Children : Bool
  Field : List Field
  deriving DecidableEq

def TagLexDwarfBlock : Nat := 0x0b
def TagCompileUnit : Nat := 0x11
def TagInlinedSubroutine : Nat := 0x1d
def TagSubprogram : Nat := 0x2e

def AttrName : Nat := 0x03
def AttrCompDir : Nat := 0x1b
def AttrInline : Nat := 0x20
def AttrAbstractOrigin : Nat := 0x31
def AttrDeclFile : Nat := 0x3a
def AttrDeclLine : Nat := 0x3b
def AttrCallColumn : Nat := 0x57
def AttrCallFile : Nat := 0x58
def AttrCallLine : Nat := 0x59

/-- Method `(*Entry).Val`: the value of the first field with attribute `a`,
`none` (Go `nil`) when there is none. -/
def Entry.Val (e : Entry) (a : Nat) : Option Value :=
  match e.Field.find? (fun f => f.Attr == a) with
  | some f => some f.Val
  | none => none

/-- Type assertion `v.(string)`; it panics on `nil` and on any other dynamic type. -/
def assertString : Option Value → Res String
  | some (.str s) => .ok s
  | _ => .panic .typeAssertion

/-- Type assertion `v.(int64)`. -/
def assertInt64 : Option Value → Res Int
  | some (.int64 i) => .ok i
  | _ => .panic .typeAssertion

/-- Type assertion `v.(dwarf.Offset)`. -/
def assertOffset : Option Value → Res Nat
  | some (.offset o) => .ok o
  | _ => .panic .typeAssertion

/-- Type `dwarf.LineFile`. -/
structure LineFile where
  Name : String
  Mtime : Nat
  Length : Nat
  deriving DecidableEq

/-- Type `dwarf.LineEntry` (the fields the package reads or copies); `File` is a
pointer and may be nil. -/
structure LineEntry where
  Address : Nat
  File : Option LineFile
  Line : Int
  Column : Int
  EndSequence : Bool
  deriving DecidableEq

/-- A `*dwarf.LineReader` as the package uses it: the file table returned by
`Files()` (`none` is the nil slice, and a slot of the table may hold a nil
pointer) and the rows that successive calls of `Next` deliver before `io.EOF`.
The line program is taken to decode without error. -/
structure LineReader where
  Files : Option (List (Option LineFile))
  rows : List LineEntry
  deriving DecidableEq

/-- A `*dwarf.Data`.  `entries` is the `.debug_info` stream in the order in which
a `dwarf.Reader` delivers it (pre-order, a null entry closing every list of
children); `readErr` is the error `Next` reports when it reads past the last
entry that decodes (`none`: the stream ends cleanly, `Next` returns `nil, nil`).
`Ranges` and `LineReader` are the library methods of the same names. -/
structure Data where
  entries : List Entry
  readErr : Option Err
  Ranges : Entry → Res (List (Nat × Nat))
  LineReader : Entry → Res (Option LineReader)

/-- What `Next` returns once the stream is exhausted. -/
def Data.atEnd (d : Data) : Res Unit :=
  match d.readErr with
  | some e => .error e
  | none => .ok ()

/-- Method `(*Reader).Seek` followed by the reads: the stream from the entry at
offset `off` on (offset 0 is the start of the first unit).  `none` when no entry
has that offset; the next `Next` then reports an error. -/
def Data.Seek (d : Data) (off : Nat) : Option (List Entry) :=
  if off = 0 then some d.entries
  else
    match d.entries.dropWhile (fun e => e.Offset != off) with
    | [] => none
    | l => some l

/-- The error of a read after a `Seek` to an offset outside the section. -/
def seekErr : Err := .lib "offset out of range"

/-! ## Records of the package -/

/-- Modelled from the spec: the declaration of `DWARFCompileUnit` is not among
the sources; the fields are those the functions of `debuginfo.go` set and read
(section 3 of the specification, "Compile unit"). -/
structure DWARFCompileUnit where
  FilePath : String
  Dwarf : Data
  Entry : Entry
  Name : String
  CompDir : String
  Ranges : List (Nat × Nat)

/-- Modelled from the spec: the declaration of `DWARFFunction` is not among the
sources; the fields are those `parseSubprogram` and `parseSubroutine` set
(section 3 of the specification, "Subprogram" and "Inlined subroutine").  The
Go field `Type` is a keyword here and is called `Typ`. -/
structure DWARFFunction where
  DwarfCompileUnit : DWARFCompileUnit
  Typ : Nat
  Name : String
  Ranges : List (Nat × Nat)
  DeclFile : String
  DeclLine : Int
  CallFile : String
  CallLine : Int
  CallColumn : Int
  Inline : Bool
  Offset : Nat
  Depth : Int

/-- Modelled from the spec: the declaration of `Frame` is not among the sources;
the fields are those `FindAllFramesByAddr` sets (section 3 of the specification,
"Frame"). -/
structure Frame where
  PC : Nat
  Func : String
  File : String
  Line : Int
  Inline : Bool
  deriving DecidableEq

/-! ## Memo tables -/

/-- A Go `map[uint64]*dwarf.LineEntry` as a list of key/value pairs; `goMapSet`
keeps the keys distinct. -/
abbrev LineMap := List (Nat × LineEntry)

/-- Assignment `m[k] = v`. -/
def goMapSet (m : LineMap) (k : Nat) (v : LineEntry) : LineMap :=
  match m with
  | [] => [(k, v)]
  | (k1, v1) :: rest => if k1 = k then (k, v) :: rest else (k1, v1) :: goMapSet rest k v

/-- Lookup `v, ok := m[k]`. -/
def goMapGet (m : LineMap) (k : Nat) : Option LineEntry :=
  match m.find? (fun p => p.1 == k) with
  | some p => some p.2
  | none => none

/-- The shape the assignments `lineEntries[ent.Address] = ent` give a map: every
key is the address of its entry, and no key occurs twice. -/
def lineMapOK (m : LineMap) : Prop :=
  (∀ p ∈ m, p.1 = p.2.Address) ∧ (m.map Prod.fst).Nodup

/-- The five concurrent maps of the package, keyed by strings. -/
structure Caches where
  dwarfCMap : String → Option Data
  compileUnitsCMap : String → Option (List DWARFCompileUnit)
  allSubroutinesCMap : String → Option (List DWARFFunction)
  lineFilesCMap : String → Option (Option (List (Option LineFile)))
  lineEntriesCMap : String → Option LineMap

/-- The tables of a fresh process. -/
def Caches.empty : Caches :=
  ⟨fun _ => none, fun _ => none, fun _ => none, fun _ => none, fun _ => none⟩

/-- Method `Set` of a concurrent map. -/
def cmapSet {V : Type} (m : String → Option V) (k : String) (v : V) : String → Option V :=
  fun k1 => if k1 = k then some v else m k1

/-- State transformers over the memo tables. -/
def M (α : Type) : Type := Caches → Res α × Caches

/-- Sequencing in `M`; the tables reached at an error or a panic are kept. -/
def M.bind {α β : Type} (m : M α) (f : α → M β) : M β := fun c =>
  match m c with
  | (.ok a, c1) => f a c1
  | (.error e, c1) => (.error e, c1)
  | (.panic p, c1) => (.panic p, c1)

instance : Monad M where
  pure a := fun c => (.ok a, c)
  bind := M.bind

/-- An outcome that leaves the tables alone. -/
def liftRes {α : Type} (r : Res α) : M α := fun c => (r, c)

/-- The file system as the package sees it: `elf.Open(path)` followed by
`file.DWARF()`; `ok none` is the case `di == nil`. -/
structure World where
  openDWARF : String → Res (Option Data)

/-! ## sort.Slice and sort.Search -/

/-- Function `sort.Slice` with the given `less`.  The Go routine is not stable;
the model is insertion sort, and every theorem below that depends on the order
of the result is about inputs whose keys are pairwise distinct, or whose
elements are their own keys, for which all sorting routines agree. -/
def sortSlice {α : Type} (less : α → α → Bool) (xs : List α) : List α :=
  xs.insertionSort (fun a b => less b a = false)

/-- The loop of `sort.Search`: `for i < j { h := (i+j)/2; if !f(h) { i = h+1 }
else { j = h } }`, the fuel bounding the number of iterations. -/
def searchLoop (f : Nat → Bool) : Nat → Nat → Nat → Nat
  | 0, i, _ => i
  | fuel + 1, i, j =>
    if i < j then
      if !f ((i + j) / 2) then searchLoop f fuel ((i + j) / 2 + 1) j
      else searchLoop f fuel i ((i + j) / 2)
    else i

/-- Function `sort.Search(n, f)`: binary search on `[0, n)`; `n` iterations always suffice. -/
def Search (n : Nat) (f : Nat → Bool) : Nat := searchLoop f n 0 n

/-! ## debuginfo.go: compile units -/

/-- Function `DWARF(path)` of dwarf.go. -/
def DWARF (w : World) (path : String) : M Data := fun c =>
  match c.dwarfCMap path with
  | some e => (.ok e, c)
  | none =>
    match w.openDWARF path with
    | .error e => (.error e, c)
    | .panic p => (.panic p, c)
    | .ok none => (.error .notFoundDebugInfo, c)
    | .ok (some di) => (.ok di, { c with dwarfCMap := cmapSet c.dwarfCMap path di })

/-- The reading loop of `FindAllCompileUnits`.  `skip` is the state of a pending
`r.SkipChildren()`: the number of lists of children still to be closed by a null
entry before the next top-level read (0: the loop body proper runs on the
entry).  `SkipChildren` is followed in its scanning form (read entries up to the
null entry that closes the list, descending into every entry with children);
its shortcuts through `DW_AT_sibling` and the unit table reach the same entry
on a stream in which every list of children is closed.  The branch for a unit
without a name is the `continue` of the source, which does not reach
`r.SkipChildren()`: the next read delivers whatever follows the unit entry. -/
def FindAllCompileUnits.loop (path : String) (di : Data) :
    List Entry → Nat → List DWARFCompileUnit → Res (List DWARFCompileUnit)
  | [], _, cus => do
    di.atEnd
    pure cus
  | ent :: rest, skip + 1, cus =>
    if ent.Tag = 0 then FindAllCompileUnits.loop path di rest skip cus
    else if ent.Children then FindAllCompileUnits.loop path di rest (skip + 2) cus
    else FindAllCompileUnits.loop path di rest (skip + 1) cus
  | ent :: rest, 0, cus =>
    if ent.Tag ≠ TagCompileUnit then .error (.unexpectedTopLevelTag ent.Tag)
    else
      match ent.Val AttrName with
      | none => FindAllCompileUnits.loop path di rest 0 cus
      | some attrName =>
        match di.Ranges ent with
        | .error e => .error e
        | .panic p => .panic p
        | .ok ranges =>
          match assertString (some attrName) with
          | .error e => .error e
          | .panic p => .panic p
          | .ok name =>
            match assertString (ent.Val AttrCompDir) with
            | .error e => .error e
            | .panic p => .panic p
            | .ok compDir =>
              FindAllCompileUnits.loop path di rest (if ent.Children then 1 else 0)
                (cus ++ [⟨path, di, ent, name, compDir, ranges⟩])

/-- Function `FindAllCompileUnits(path)`. -/
def FindAllCompileUnits (w : World) (path : String) : M (List DWARFCompileUnit) := fun c =>
  match c.compileUnitsCMap path with
  | some e => (.ok e, c)
  | none =>
    match DWARF w path c with
    | (.error e, c1) => (.error e, c1)
    | (.panic p, c1) => (.panic p, c1)
    | (.ok di, c1) =>
      match FindAllCompileUnits.loop path di di.entries 0 [] with
      | .error e => (.error e, c1)
      | .panic p => (.panic p, c1)
      | .ok cus =>
        let finalCUs := sortSlice (fun a b => decide (a.Entry.Offset < b.Entry.Offset))
          (cus.filter (fun cu => cu.Ranges.length != 0))
        (.ok finalCUs, { c1 with compileUnitsCMap := cmapSet c1.compileUnitsCMap path finalCUs })

/-- The local type `Range` of `GetCompileUnitByAddr`. -/
structure Range where
  Start : Nat
  End : Nat
  CU : DWARFCompileUnit

/-- The flattening loop of `GetCompileUnitByAddr`: one `Range` per range of every
compile unit, in order. -/
def flattenRanges (cus : List DWARFCompileUnit) : List Range :=
  cus.flatMap (fun cu => cu.Ranges.map (fun r => ⟨r.1, r.2, cu⟩))

/-- The predicate handed to `sort.Search` in `GetCompileUnitByAddr`. -/
def startAfter (ranges : List Range) (pc : Nat) (i : Nat) : Bool :=
  match ranges[i]? with
  | some r => decide (pc < r.Start)
  | none => false

/-- The part of `GetCompileUnitByAddr` after the compile units are known. -/
def lookupCompileUnit (cus : List DWARFCompileUnit) (pc : Nat) : Res DWARFCompileUnit :=
  let ranges := sortSlice (fun a b => decide (a.End < b.End)) (flattenRanges cus)
  let idx := Search ranges.length (startAfter ranges pc)
  if idx = 0 ∨ idx > ranges.length then .error (.notFindCompileUnit pc)
  else
    match ranges[idx - 1]? with
    | some r => .ok r.CU
    | none => .panic .indexOutOfRange

/-- Function `GetCompileUnitByAddr(path, pc)`. -/
def GetCompileUnitByAddr (w : World) (path : String) (pc : Nat) : M DWARFCompileUnit := fun c =>
  match FindAllCompileUnits w path c with
  | (.error e, c1) => (.error e, c1)
  | (.panic p, c1) => (.panic p, c1)
  | (.ok cus, c1) => (lookupCompileUnit cus pc, c1)

/-! ## debugline.go: the line program -/

/-- The key `fmt.Sprintf("%v-%v", path, cuOffset)` of the per-compile-unit tables. -/
def cuKey (path : String) (cuOffset : Nat) : String :=
  path ++ "-" ++ toString cuOffset

/-- The key `fmt.Sprintf("%v-%v-%v", path, cuOffset, spOffset)` of the
per-subprogram table. -/
def spKey (path : String) (cuOffset spOffset : Nat) : String :=
  path ++ "-" ++ toString cuOffset ++ "-" ++ toString spOffset

/-- Method `(*DWARFCompileUnit).getLineFiles`. -/
def getLineFiles (cu : DWARFCompileUnit) : M (Option (List (Option LineFile))) := fun c =>
  match c.lineFilesCMap (cuKey cu.FilePath cu.Entry.Offset) with
  | some e => (.ok e, c)
  | none =>
    match cu.Dwarf.LineReader cu.Entry with
    | .error e => (.error e, c)
    | .panic p => (.panic p, c)
    | .ok none => (.error (.failedLineReader cu.FilePath cu.Entry.Offset), c)
    | .ok (some r) =>
      let k := cuKey cu.FilePath cu.Entry.Offset
      (.ok r.Files, { c with lineFilesCMap := cmapSet c.lineFilesCMap k r.Files })

/-- The row loop of `getLineEntries`: `lineEntries[ent.Address] = ent` for every
row, later rows replacing earlier ones at the same address. -/
def collectLineEntries (rows : List LineEntry) : LineMap :=
  rows.foldl (fun m ent => goMapSet m ent.Address ent) []

/-- Method `(*DWARFCompileUnit).getLineEntries`. -/
def getLineEntries (cu : DWARFCompileUnit) : M LineMap := fun c =>
  match c.lineEntriesCMap (cuKey cu.FilePath cu.Entry.Offset) with
  | some e => (.ok e, c)
  | none =>
    match cu.Dwarf.LineReader cu.Entry with
    | .error e => (.error e, c)
    | .panic p => (.panic p, c)
    | .ok none => (.error (.failedLineReader cu.FilePath cu.Entry.Offset), c)
    | .ok (some r) =>
      let lineEntries := collectLineEntries r.rows
      let k := cuKey cu.FilePath cu.Entry.Offset
      (.ok lineEntries, { c with lineEntriesCMap := cmapSet c.lineEntriesCMap k lineEntries })

/-- The part of `getFilenameByIndex` after the file table is fetched. -/
def filenameAt (files : Option (List (Option LineFile))) (index : Int) : Res String :=
  match files with
  | none => .error .filesNil
  | some fs =>
    if index ≥ (fs.length : Int) then .error (.indexGeLen index fs.length)
    else if index = 0 then .ok ""
    else if index < 0 then .panic .indexOutOfRange
    else
      match fs[index.toNat]? with
      | some (some f) => .ok f.Name
      | some none => .panic .nilDereference
      | none => .panic .indexOutOfRange

/-- Method `(*DWARFCompileUnit).getFilenameByIndex`. -/
def getFilenameByIndex (cu : DWARFCompileUnit) (index : Int) : M String := fun c =>
  match getLineFiles cu c with
  | (.error e, c1) => (.error e, c1)
  | (.panic p, c1) => (.panic p, c1)
  | (.ok files, c1) => (filenameAt files index, c1)

/-- The predicate handed to `sort.Search` in `GetLineEntryByAddr`. -/
def addressAfter (entries : List LineEntry) (pc : Nat) (i : Nat) : Bool :=
  match entries[i]? with
  | some e => decide (e.Address > pc)
  | none => false

/-- The part of `GetLineEntryByAddr` after the address map is fetched.  Ranging
over a Go map visits the values in an unspecified order; here it is the order of
the list, and the sort by address that follows makes the order immaterial when
the addresses are distinct. -/
def nearestLineEntry (les : LineMap) (pc : Nat) : Res LineEntry :=
  match goMapGet les pc with
  | some ent => .ok ent
  | none =>
    let entries := sortSlice (fun a b => decide (a.Address < b.Address)) (les.map Prod.snd)
    let n := Search entries.length (addressAfter entries pc)
    if (n : Int) - 1 ≥ 0 ∧ (n : Int) - 1 < (entries.length : Int) then
      match entries[n - 1]? with
      | some e => .ok e
      | none => .panic .indexOutOfRange
    else .error (.notFoundInDebugLine pc)

/-- Function `GetLineEntryByAddr(path, pc)`.  The test `cu == nil` of the source
cannot succeed: `GetCompileUnitByAddr` returns a non-nil unit whenever it returns
no error. -/
def GetLineEntryByAddr (w : World) (path : String) (pc : Nat) : M LineEntry := fun c =>
  match GetCompileUnitByAddr w path pc c with
  | (.error e, c1) => (.error e, c1)
  | (.panic p, c1) => (.panic p, c1)
  | (.ok cu, c1) =>
    match getLineEntries cu c1 with
    | (.error e, c2) => (.error e, c2)
    | (.panic p, c2) => (.panic p, c2)
    | (.ok les, c2) => (nearestLineEntry les pc, c2)

/-! ## debuginfo.go: subprograms and inlined subroutines -/

/-- Method `(*DWARFCompileUnit).getEntryByOffset`: a fresh reader, `Seek`, one
`Next`.  `ok none` is the return `nil, nil` at the end of the stream. -/
def getEntryByOffset (cu : DWARFCompileUnit) (offset : Nat) : Res (Option Entry) :=
  match cu.Dwarf.Seek offset with
  | none => .error seekErr
  | some [] =>
    match cu.Dwarf.atEnd with
    | .ok _ => .ok none
    | .error e => .error e
    | .panic p => .panic p
  | some (e :: _) => .ok (some e)

/-- The block `if attrAbstractOrigin != nil { ... }` that `parseSubprogram` and
`parseSubroutine` share: follow the origin once and take the name attribute and
the declaration file of the entry found there.  Without an origin the name
stays the one of the concrete entry and the file stays empty. -/
def resolveOrigin (cu : DWARFCompileUnit) (ent : Entry) : M (Option Value × String) :=
  match ent.Val AttrAbstractOrigin with
  | none => pure (ent.Val AttrName, "")
  | some origin => do
    let off ← liftRes (assertOffset (some origin))
    let ent1 ← liftRes (getEntryByOffset cu off)
    match ent1 with
    | none => liftRes (.panic .nilDereference)
    | some ent1 => do
      let index ← liftRes (assertInt64 (ent1.Val AttrDeclFile))
      let decFile ← getFilenameByIndex cu index
      pure (ent1.Val AttrName, decFile)

/-- The statement `if attrName == nil { attrName = ent.Val(dwarf.AttrName) }`. -/
def ownNameIfNil (attrName : Option Value) (ent : Entry) : Option Value :=
  match attrName with
  | none => ent.Val AttrName
  | some v => some v

/-- The statements of `parseSubprogram` and `parseSubroutine` between the origin
block and the construction of the record, for a name already found: the
declaration file of the concrete entry when none was found at the origin, the
declaration line, the ranges, and the assertion `attrName.(string)`. -/
def declAndRanges (cu : DWARFCompileUnit) (ent : Entry) (attrName : Value) (decFile : String) :
    M (String × Int × List (Nat × Nat) × String) := do
  let decFile1 ←
    if decFile = "" ∧ (ent.Val AttrDeclFile).isSome then do
      let index ← liftRes (assertInt64 (ent.Val AttrDeclFile))
      getFilenameByIndex cu index
    else pure decFile
  let decLine ←
    match ent.Val AttrDeclLine with
    | none => pure (0 : Int)
    | some v => liftRes (assertInt64 (some v))
  let ranges ← liftRes (cu.Dwarf.Ranges ent)
  let name ← liftRes (assertString (some attrName))
  pure (decFile1, decLine, ranges, name)

/-- Method `(*DWARFCompileUnit).parseSubprogram`; `ok none` is the return
`nil, nil` for an entry without a name. -/
def parseSubprogram (cu : DWARFCompileUnit) (ent : Entry) (depth : Int) :
    M (Option DWARFFunction) := do
  let (attrName, decFile) ← resolveOrigin cu ent
  match ownNameIfNil attrName ent with
  | none => pure none
  | some v => do
    let (decFile1, decLine, ranges, name) ← declAndRanges cu ent v decFile
    let inline := (ent.Val AttrInline).isSome
    pure (some
      { DwarfCompileUnit := cu, Typ := TagSubprogram, Name := name, Ranges := ranges,
        DeclFile := decFile1, DeclLine := decLine, CallFile := "", CallLine := 0,
        CallColumn := 0, Inline := inline, Offset := ent.Offset, Depth := depth })

/-- Method `(*DWARFCompileUnit).parseSubroutine`.  The call site is read first,
with the unchecked assertions `.(int64)` on `DW_AT_call_file` and
`DW_AT_call_line`. -/
def parseSubroutine (cu : DWARFCompileUnit) (ent : Entry) (depth : Int) :
    M (Option DWARFFunction) := do
  let callFileIndex ← liftRes (assertInt64 (ent.Val AttrCallFile))
  let callFile ← getFilenameByIndex cu callFileIndex
  let callLine ← liftRes (assertInt64 (ent.Val AttrCallLine))
  let callColumn : Int := match ent.Val AttrCallColumn with
    | some (.int64 cc) => cc
    | _ => 0
  let (attrName, decFile) ← resolveOrigin cu ent
  match ownNameIfNil attrName ent with
  | none => pure none
  | some v => do
    let (decFile1, decLine, ranges, name) ← declAndRanges cu ent v decFile
    pure (some
      { DwarfCompileUnit := cu, Typ := TagInlinedSubroutine, Name := name, Ranges := ranges,
        DeclFile := decFile1, DeclLine := decLine, CallFile := callFile, CallLine := callLine,
        CallColumn := callColumn, Inline := true, Offset := ent.Offset, Depth := depth })

/-- The test `pc >= f.Ranges[0][0] && pc < f.Ranges[len(f.Ranges)-1][1]` of
`GetSubprogramByAddr`, for a non-empty range list. -/
def inHull (ranges : List (Nat × Nat)) (pc : Nat) : Bool :=
  match ranges.head?, ranges.getLast? with
  | some a, some b => decide (pc ≥ a.1) && decide (pc < b.2)
  | _, _ => false

/-- The statement `if ent.Children { depth++ }` that ends the loop bodies. -/
def childDepth (ent : Entry) (depth : Int) : Int :=
  if ent.Children then depth + 1 else depth

/-- The loop of `GetSubprogramByAddr` on the entries still to be read, with the
variables `first` and `depth`.  `ok none` on leaving the loop with `sp == nil`. -/
def GetSubprogramByAddr.loop (cu : DWARFCompileUnit) (pc : Nat) :
    List Entry → Bool → Int → M (Option DWARFFunction)
  | [], _, _ => do
    liftRes cu.Dwarf.atEnd
    pure none
  | ent :: rest, first, depth =>
    if ent.Tag = TagCompileUnit then
      if first then GetSubprogramByAddr.loop cu pc rest false (depth + 1)
      else pure none
    else if ent.Tag = TagSubprogram then do
      let f ← parseSubprogram cu ent depth
      match f with
      | none => GetSubprogramByAddr.loop cu pc rest first depth
      | some f =>
        if f.Ranges.length = 0 then GetSubprogramByAddr.loop cu pc rest first depth
        else if inHull f.Ranges pc then pure (some f)
        else GetSubprogramByAddr.loop cu pc rest first (childDepth ent depth)
    else if ent.Tag = 0 then
      GetSubprogramByAddr.loop cu pc rest first (childDepth ent (depth - 1))
    else GetSubprogramByAddr.loop cu pc rest first (childDepth ent depth)

/-- Method `(*DWARFCompileUnit).GetSubprogramByAddr`. -/
def GetSubprogramByAddr (cu : DWARFCompileUnit) (pc : Nat) : M (Option DWARFFunction) :=
  match cu.Dwarf.Seek cu.Entry.Offset with
  | none => liftRes (.error seekErr)
  | some rest => GetSubprogramByAddr.loop cu pc rest true 0

/-- The loop of `GetSubroutinesBySubprogram` on the entries still to be read, with
the variables `first`, `depth` and `funcs`. -/
def GetSubroutinesBySubprogram.loop (sp : DWARFFunction) :
    List Entry → Bool → Int → List DWARFFunction → M (List DWARFFunction)
  | [], _, _, funcs => do
    liftRes sp.DwarfCompileUnit.Dwarf.atEnd
    pure funcs
  | ent :: rest, first, depth, funcs =>
    if ent.Tag = TagSubprogram then
      if first then GetSubroutinesBySubprogram.loop sp rest false sp.Depth funcs
      else pure funcs
    else if ent.Tag = TagInlinedSubroutine then
      match ent.Val AttrAbstractOrigin with
      | none => GetSubroutinesBySubprogram.loop sp rest first depth funcs
      | some _ => do
        let f ← parseSubroutine sp.DwarfCompileUnit ent depth
        match f with
        | none => GetSubroutinesBySubprogram.loop sp rest first depth funcs
        | some f =>
          if f.Ranges.length = 0 then GetSubroutinesBySubprogram.loop sp rest first depth funcs
          else GetSubroutinesBySubprogram.loop sp rest first (childDepth ent depth) (funcs ++ [f])
    else if ent.Tag = 0 then
      GetSubroutinesBySubprogram.loop sp rest first (childDepth ent (depth - 1)) funcs
    else GetSubroutinesBySubprogram.loop sp rest first (childDepth ent depth) funcs

/-- Method `(*DWARFFunction).GetSubroutinesBySubprogram`. -/
def GetSubroutinesBySubprogram (sp : DWARFFunction) : M (List DWARFFunction) :=
  match sp.DwarfCompileUnit.Dwarf.Seek sp.Offset with
  | none => liftRes (.error seekErr)
  | some rest => GetSubroutinesBySubprogram.loop sp rest true 0 []

/-! ## dwarf.go: the frame list -/

/-- The test of the inner loop of `FindAllFramesByAddr`: some range of `f`
contains `pc`. -/
def containsPC (f : DWARFFunction) (pc : Nat) : Bool :=
  f.Ranges.any (fun r => decide (pc ≥ r.1) && decide (pc < r.2))

/-- The frame `FindAllFramesByAddr` appends for the subprogram. -/
def subprogramFrame (sp : DWARFFunction) : Frame :=
  { PC := sp.Offset, Func := sp.Name, File := sp.DeclFile, Line := sp.DeclLine,
    Inline := sp.Inline }

/-- The frame `FindAllFramesByAddr` appends for an inlined subroutine. -/
def subroutineFrame (f : DWARFFunction) : Frame :=
  { PC := f.Offset, Func := f.Name, File := f.CallFile, Line := f.CallLine,
    Inline := f.Inline }

/-- The loop `for i := len(rts); i > 0; i--` of `FindAllFramesByAddr`: the
subroutines from the last to the first, one frame for each that has a range
containing `pc`. -/
def subroutineFrames (rts : List DWARFFunction) (pc : Nat) : List Frame :=
  (rts.reverse.filter (fun f => containsPC f pc)).map subroutineFrame

/-- The loop `frames[i].Func = frames[i+1].Func` for `i < len(frames)-1`. -/
def shiftFuncs : List Frame → List Frame
  | a :: b :: rest => { a with Func := b.Func } :: shiftFuncs (b :: rest)
  | l => l

/-- The frame `FindAllFramesByAddr` prepends for the line entry: `Func` and
`Inline` keep their zero values. -/
def lineFrame (pc : Nat) (file : LineFile) (le : LineEntry) : Frame :=
  { PC := pc, Func := "", File := file.Name, Line := le.Line, Inline := false }

/-- The end of `FindAllFramesByAddr`, from the sort on: `frames` holds the frame
of the subprogram and those of the subroutines, `le` is the line entry, and
`le.File.Name` dereferences the file pointer of the entry. -/
def assembleFrames (frames : List Frame) (pc : Nat) (le : LineEntry) : Res (List Frame) :=
  match le.File with
  | none => .panic .nilDereference
  | some file =>
    let sorted := sortSlice (fun a b => decide (a.PC > b.PC)) frames
    let shifted := shiftFuncs (lineFrame pc file le :: sorted)
    match shifted with
    | [f] => .ok [{ f with Func := "??" }]
    | l => .ok l.dropLast

/-- The lookup of the subroutines of `sp` in `allSubroutinesCMap` under the key
`k`, computing and storing them on a miss. -/
def cachedSubroutines (k : String) (sp : DWARFFunction) : M (List DWARFFunction) := fun c =>
  match c.allSubroutinesCMap k with
  | some rts => (.ok rts, c)
  | none =>
    match GetSubroutinesBySubprogram sp c with
    | (.error e, c1) => (.error e, c1)
    | (.panic p, c1) => (.panic p, c1)
    | (.ok rts, c1) =>
      (.ok rts, { c1 with allSubroutinesCMap := cmapSet c1.allSubroutinesCMap k rts })

/-- Function `FindAllFramesByAddr(path, pc)`.  When `GetSubprogramByAddr` returns
`nil, nil` the expression `sp.Offset` dereferences a nil pointer.  The sort
precedes the call of `GetLineEntryByAddr` in the source; it has no effect on the
tables and is done in `assembleFrames`. -/
def FindAllFramesByAddr (w : World) (path : String) (pc : Nat) : M (List Frame) := do
  let cu ← GetCompileUnitByAddr w path pc
  let sp ← GetSubprogramByAddr cu pc
  match sp with
  | none => liftRes (.panic .nilDereference)
  | some sp => do
    let rts ← cachedSubroutines (spKey path cu.Entry.Offset sp.Offset) sp
    let le ← GetLineEntryByAddr w path pc
    liftRes (assembleFrames (subprogramFrame sp :: subroutineFrames rts pc) pc le)

/-- Function `Addr2line(path, pc)`. -/
def Addr2line (w : World) (path : String) (pc : Nat) : M (List Frame) := fun c =>
  match FindAllFramesByAddr w path pc c with
  | (.error e, c1) => (.error e, c1)
  | (.panic p, c1) => (.panic p, c1)
  | (.ok frames, c1) => (.ok frames, c1)

/-! ## Example inputs

The inline chain of the specification (section 8, scenario 3): a compile unit
`a.c` holding the abstract instances of `middle` and `inner` and the subprogram
`outer` at `[0x1000, 0x1100)`, into which `middle` is inlined at
`[0x1040, 0x1080)` (call site `a.c:10`) and `inner` into `middle` at
`[0x1050, 0x1070)` (call site `a.c:20`); the line table has a row `b.c:42` at
`0x1058`.  The unit itself covers `[0x1000, 0x1200)`. -/

/-- The null entry as the library decodes it. -/
def nullEntry : Entry := ⟨0, 0, false, []⟩

def chainCU : Entry :=
  ⟨11, TagCompileUnit, true, [⟨AttrName, .str "a.c"⟩, ⟨AttrCompDir, .str "/src"⟩]⟩

def chainAbstractMiddle : Entry :=
  ⟨0x20, TagSubprogram, false,
    [⟨AttrName, .str "middle"⟩, ⟨AttrDeclFile, .int64 1⟩, ⟨AttrInline, .int64 1⟩]⟩

def chainAbstractInner : Entry :=
  ⟨0x30, TagSubprogram, false,
    [⟨AttrName, .str "inner"⟩, ⟨AttrDeclFile, .int64 1⟩, ⟨AttrInline, .int64 1⟩]⟩

def chainOuter : Entry :=
  ⟨0x40, TagSubprogram, true,
    [⟨AttrName, .str "outer"⟩, ⟨AttrDeclFile, .int64 1⟩, ⟨AttrDeclLine, .int64 5⟩]⟩

def chainMiddle : Entry :=
  ⟨0x50, TagInlinedSubroutine, true,
    [⟨AttrAbstractOrigin, .offset 0x20⟩, ⟨AttrCallFile, .int64 1⟩, ⟨AttrCallLine, .int64 10⟩]⟩

def chainInner : Entry :=
  ⟨0x60, TagInlinedSubroutine, false,
    [⟨AttrAbstractOrigin, .offset 0x30⟩, ⟨AttrCallFile, .int64 1⟩, ⟨AttrCallLine, .int64 20⟩]⟩

def fileA : LineFile := ⟨"a.c", 0, 0⟩

def fileB : LineFile := ⟨"b.c", 0, 0⟩

def chainLines : LineReader :=
  ⟨some [none, some fileA, some fileB],
    [⟨0x1000, some fileA, 5, 0, false⟩, ⟨0x1058, some fileB, 42, 0, false⟩]⟩

def chainRanges (e : Entry) : Res (List (Nat × Nat)) :=
  if e.Offset = 11 then .ok [(0x1000, 0x1200)]
  else if e.Offset = 0x40 then .ok [(0x1000, 0x1100)]
  else if e.Offset = 0x50 then .ok [(0x1040, 0x1080)]
  else if e.Offset = 0x60 then .ok [(0x1050, 0x1070)]
  else .ok []

def chainData : Data :=
  { entries := [chainCU, chainAbstractMiddle, chainAbstractInner, chainOuter, chainMiddle,
      chainInner, nullEntry, nullEntry, nullEntry],
    readErr := none,
    Ranges := chainRanges,
    LineReader := fun _ => .ok (some chainLines) }

/-- A file system in which every path opens the inline-chain object. -/
def chainWorld : World := ⟨fun _ => .ok (some chainData)⟩

/-- The compile unit record `FindAllCompileUnits` builds for the inline chain. -/
def chainUnit : DWARFCompileUnit := ⟨"a.o", chainData, chainCU, "a.c", "/src", [(0x1000, 0x1200)]⟩

/-- The record `parseSubprogram` builds for `outer`. -/
def chainOuterFunc : DWARFFunction :=
  { DwarfCompileUnit := chainUnit, Typ := TagSubprogram, Name := "outer",
    Ranges := [(0x1000, 0x1100)], DeclFile := "a.c", DeclLine := 5, CallFile := "",
    CallLine := 0, CallColumn := 0, Inline := false, Offset := 0x40, Depth := 1 }

/-- The record `parseSubroutine` builds for the inlined `middle`. -/
def chainMiddleFunc : DWARFFunction :=
  { DwarfCompileUnit := chainUnit, Typ := TagInlinedSubroutine, Name := "middle",
    Ranges := [(0x1040, 0x1080)], DeclFile := "a.c", DeclLine := 0, CallFile := "a.c",
    CallLine := 10, CallColumn := 0, Inline := true, Offset := 0x50, Depth := 1 }

/-- The record `parseSubroutine` builds for the inlined `inner`. -/
def chainInnerFunc : DWARFFunction :=
  { DwarfCompileUnit := chainUnit, Typ := TagInlinedSubroutine, Name := "inner",
    Ranges := [(0x1050, 0x1070)], DeclFile := "a.c", DeclLine := 0, CallFile := "a.c",
    CallLine := 20, CallColumn := 0, Inline := true, Offset := 0x60, Depth := 2 }

/-- A compile unit whose line program has an empty, non-nil file table. -/
def emptyTableUnit : DWARFCompileUnit :=
  { FilePath := "a.o",
    Dwarf := { entries := [chainCU, nullEntry], readErr := none, Ranges := chainRanges,
               LineReader := fun _ => .ok (some ⟨some [], []⟩) },
    Entry := chainCU, Name := "a.c", CompDir := "/src", Ranges := [(0x1000, 0x1200)] }

/-- A `.debug_info` stream whose first compile unit has children and no name
attribute and is followed by the named unit `b.c`. -/
def namelessData : Data :=
  { entries :=
      [⟨11, TagCompileUnit, true, [⟨AttrCompDir, .str "/src"⟩]⟩,
       ⟨0x20, TagSubprogram, false, [⟨AttrName, .str "f"⟩]⟩,
       nullEntry,
       ⟨0x40, TagCompileUnit, false, [⟨AttrName, .str "b.c"⟩, ⟨AttrCompDir, .str "/src"⟩]⟩],
    readErr := none,
    Ranges := fun e => if e.Offset = 0x40 then .ok [(0x2000, 0x2100)] else .ok [],
    LineReader := fun _ => .ok none }

def namelessWorld : World := ⟨fun _ => .ok (some namelessData)⟩

/-! ## debuginfo.go: the function listings -/

/-- The filter `if len(v.Ranges) == 0 { continue }` that ends `findAllFuncs` and
`FindAllFuncsInCUByAddr`. -/
def dropZeroRange (funcs : List DWARFFunction) : List DWARFFunction :=
  funcs.filter (fun f => f.Ranges.length != 0)

/-- The loop of `findAllFuncs` on the entries still to be read, with the variables
`first`, `depth` and `funcs`.  Every `goto loop` and every fall through reaches
the statement `if ent.Children { depth++ }`. -/
def findAllFuncs.loop (cu : DWARFCompileUnit) :
    List Entry → Bool → Int → List DWARFFunction → M (List DWARFFunction)
  | [], _, _, funcs => do
    liftRes cu.Dwarf.atEnd
    pure funcs
  | ent :: rest, first, depth, funcs =>
    if ent.Tag = TagCompileUnit then
      if first then findAllFuncs.loop cu rest false (childDepth ent depth) funcs
      else pure funcs
    else if ent.Tag = TagSubprogram then do
      let f ← parseSubprogram cu ent depth
      match f with
      | none => findAllFuncs.loop cu rest first (childDepth ent depth) funcs
      | some f => findAllFuncs.loop cu rest first (childDepth ent depth) (funcs ++ [f])
    else if ent.Tag = TagInlinedSubroutine then
      match ent.Val AttrAbstractOrigin with
      | none => findAllFuncs.loop cu rest first (childDepth ent depth) funcs
      | some _ => do
        let f ← parseSubroutine cu ent depth
        match f with
        | none => findAllFuncs.loop cu rest first (childDepth ent depth) funcs
        | some f => findAllFuncs.loop cu rest first (childDepth ent depth) (funcs ++ [f])
    else if ent.Tag = 0 then
      findAllFuncs.loop cu rest first (childDepth ent (depth - 1)) funcs
    else findAllFuncs.loop cu rest first (childDepth ent depth) funcs

/-- Method `(*DWARFCompileUnit).findAllFuncs`. -/
def findAllFuncs (cu : DWARFCompileUnit) : M (List DWARFFunction) :=
  match cu.Dwarf.Seek cu.Entry.Offset with
  | none => liftRes (.error seekErr)
  | some rest => do
    let funcs ← findAllFuncs.loop cu rest true 0 []
    pure (dropZeroRange funcs)

/-- Function `FindAllFuncsInCUByAddr(path, pc)`. -/
def FindAllFuncsInCUByAddr (w : World) (path : String) (pc : Nat) : M (List DWARFFunction) := do
  let cu ← GetCompileUnitByAddr w path pc
  fun c =>
    match c.allSubroutinesCMap (cuKey path cu.Entry.Offset) with
    | some e => (.ok e, c)
    | none =>
      match findAllFuncs cu c with
      | (.error e, c1) => (.error e, c1)
      | (.panic p, c1) => (.panic p, c1)
      | (.ok funcs, c1) =>
        let finalFuncs := dropZeroRange funcs
        let k := cuKey path cu.Entry.Offset
        (.ok finalFuncs, { c1 with allSubroutinesCMap := cmapSet c1.allSubroutinesCMap k finalFuncs })

/-- The local type `funcResult` of `FindAllFuncs`: what one worker sends on the
channel. -/
structure funcResult where
  funcs : List DWARFFunction
  err : Option Err

/-- The workers of `FindAllFuncs`, one per compile unit of the given list, each
running `cu.findAllFuncs()` to its end before the next one starts; the list is
the order in which they finish.  The only table a worker touches is
`lineFilesCMap`, under the key of its own unit.  A panic in a goroutine ends the
process. -/
def runWorkers : List DWARFCompileUnit → M (List funcResult)
  | [] => pure []
  | cu :: rest => fun c =>
    match findAllFuncs cu c with
    | (.panic p, c1) => (.panic p, c1)
    | (.error e, c1) =>
      match runWorkers rest c1 with
      | (.ok rs, c2) => (.ok (⟨[], some e⟩ :: rs), c2)
      | (.error e2, c2) => (.error e2, c2)
      | (.panic p, c2) => (.panic p, c2)
    | (.ok funcs, c1) =>
      match runWorkers rest c1 with
      | (.ok rs, c2) => (.ok (⟨funcs, none⟩ :: rs), c2)
      | (.error e2, c2) => (.error e2, c2)
      | (.panic p, c2) => (.panic p, c2)

/-- The receiving loop `for _, cu := range cus { res := <-funcC ... }` of
`FindAllFuncs`: the i-th unit of `cus` is paired with the i-th result that
arrives. -/
def receiveLoop (path : String) :
    List (DWARFCompileUnit × funcResult) → List DWARFFunction → M (List DWARFFunction)
  | [], funcs => pure funcs
  | (cu, res) :: rest, funcs =>
    match res.err with
    | some e => liftRes (.error e)
    | none => fun c =>
      receiveLoop path rest (funcs ++ res.funcs)
        { c with allSubroutinesCMap :=
            cmapSet c.allSubroutinesCMap (cuKey path cu.Entry.Offset) res.funcs }

/-- The compile units in the order in which their workers deliver: `order` lists
positions of `cus`.  A schedule of the goroutines is a permutation of the
positions `0 .. len(cus)-1`. -/
def delivered (cus : List DWARFCompileUnit) (order : List Nat) : List DWARFCompileUnit :=
  order.filterMap (fun i => cus[i]?)

/-- Function `FindAllFuncs(path)` under the schedule `order` of its goroutines:
the workers finish in that order and their results are received in that order.
The tables returned are those reached when every worker has finished. -/
def FindAllFuncs (w : World) (path : String) (order : List Nat) : M (List DWARFFunction) :=
  fun c =>
    match c.allSubroutinesCMap path with
    | some e => (.ok e, c)
    | none =>
      match FindAllCompileUnits w path c with
      | (.error e, c1) => (.error e, c1)
      | (.panic p, c1) => (.panic p, c1)
      | (.ok cus, c1) =>
        match runWorkers (delivered cus order) c1 with
        | (.error e, c2) => (.error e, c2)
        | (.panic p, c2) => (.panic p, c2)
        | (.ok results, c2) =>
          match receiveLoop path (cus.zip results) [] c2 with
          | (.error e, c3) => (.error e, c3)
          | (.panic p, c3) => (.panic p, c3)
          | (.ok funcs, c3) =>
            (.ok funcs, { c3 with allSubroutinesCMap := cmapSet c3.allSubroutinesCMap path funcs })

/-! ## arch.go: the architecture descriptors

Machine integers are `Nat` reduced modulo `2^64` where the Go code computes in
`uint64`; a byte is a `Fin 256`. -/

/-- A Go `byte`. -/
abbrev Byte := Fin 256

/-- The fields of `Arch` other than the function value `target`. -/
structure ArchFields where
  callLen : Int
  relaOffset : Nat
  opcodeOffset : Int
  opcodes : Byte × Byte
  callRelocType : Nat

/-- Type `Arch`.  The function value `target` receives the descriptor it belongs
to (`arch *Arch`), of which it reads `callLen` and `opcodes`; `none` is the nil
function of the zero `Arch`. -/
structure Arch extends ArchFields where
  target : Option (ArchFields → List Byte → Nat → Byte → Res Nat)

/-- The conversion `uint64(n)` of a Go `int`. -/
def uint64OfInt (n : Int) : Nat := (n % (2 ^ 64 : Int)).toNat

/-- Function `binary.LittleEndian.Uint32`: the first four bytes, least significant
first; it panics on a shorter slice. -/
def uint32LE : List Byte → Res Nat
  | b0 :: b1 :: b2 :: b3 :: _ => .ok (b0.val + b1.val * 2 ^ 8 + b2.val * 2 ^ 16 + b3.val * 2 ^ 24)
  | _ => .panic .indexOutOfRange

/-- The conversion `uint64(int64(int32(v)))` of a `uint32`: the bit pattern of the
sign extension to 64 bits. -/
def signExtend32 (v : Nat) : Nat :=
  if v < 2 ^ 31 then v else v + (2 ^ 64 - 2 ^ 32)

/-- The value of `int32(v)` for a `uint32` `v`: the 32-bit pattern read as a
two's-complement number. -/
def int32Value (v : Nat) : Int :=
  if v < 2 ^ 31 then (v : Int) else (v : Int) - 2 ^ 32

/-- The function `target` of `arches[elf.EM_X86_64]`:
`off := uint64(int64(int32(binary.LittleEndian.Uint32(insn[1:]))))` and
`return pc + off + uint64(arch.callLen)`.  The slice expression `insn[1:]` panics
on the empty slice. -/
def x86Target (arch : ArchFields) (insn : List Byte) (pc : Nat) (_opcode : Byte) : Res Nat :=
  match insn with
  | [] => .panic .indexOutOfRange
  | _ :: rest =>
    match uint32LE rest with
    | .ok v => .ok ((pc + signExtend32 v + uint64OfInt arch.callLen) % 2 ^ 64)
    | .error e => .error e
    | .panic p => .panic p

/-- The function `target` of `arches[elf.EM_AARCH64]`:
`off := uint64(binary.LittleEndian.Uint32(insn)) & ((1 << 24) - 1)`, then
`off |= 0xffffffffff000000` when `opcode == arch.opcodes[1]`, and
`return pc + 4*off`. -/
def aarch64Target (arch : ArchFields) (insn : List Byte) (pc : Nat) (opcode : Byte) : Res Nat :=
  match uint32LE insn with
  | .ok v =>
    let off := v &&& ((1 <<< 24) - 1)
    let off1 := if opcode = arch.opcodes.2 then off ||| 0xffffffffff000000 else off
    .ok ((pc + 4 * off1) % 2 ^ 64)
  | .error e => .error e
  | .panic p => .panic p

def EM_X86_64 : Nat := 62
def EM_AARCH64 : Nat := 183
def R_X86_64_PLT32 : Nat := 4
def R_AARCH64_CALL26 : Nat := 283

/-- The entry `arches[elf.EM_X86_64]`. -/
def archX86 : Arch :=
  { callLen := 5, relaOffset := 1, opcodeOffset := 0, opcodes := (0xe8, 0xe8),
    callRelocType := R_X86_64_PLT32, target := some x86Target }

/-- The entry `arches[elf.EM_AARCH64]`. -/
def archAArch64 : Arch :=
  { callLen := 4, relaOffset := 0, opcodeOffset := 3, opcodes := (0x94, 0x97),
    callRelocType := R_AARCH64_CALL26, target := some aarch64Target }

/-- The zero value of `Arch`, which indexing the map with any other machine yields. -/
def archZero : Arch :=
  { callLen := 0, relaOffset := 0, opcodeOffset := 0, opcodes := (0, 0),
    callRelocType := 0, target := none }

/-- The map lookup `arches[machine]`. -/
def arches (machine : Nat) : Arch :=
  if machine = EM_X86_64 then archX86
  else if machine = EM_AARCH64 then archAArch64
  else archZero

/-- The call `arch.target(&arch, insn, pc, opcode)`; calling the nil function of
the zero descriptor panics. -/
def Arch.callTarget (arch : Arch) (insn : List Byte) (pc : Nat) (opcode : Byte) : Res Nat :=
  match arch.target with
  | none => .panic .nilDereference
  | some f => f arch.toArchFields insn pc opcode

/-! ## symbols.go, text.go: coverage points of a linked object -/

/-- Type `elf.Symbol` (the fields the package reads). -/
structure Symbol where
  Name : String
  Value : Nat
  Size : Nat
  Section : Nat
  deriving DecidableEq

/-- Type `elf.Rela64`: one record of a relocation section. -/
structure Rela64 where
  Off : Nat
  Info : Nat
  Addend : Int
  deriving DecidableEq

/-- An `*elf.Section`: its header fields, the outcome of `Data()`, and what the
calls `binary.Read(r, order, rel)` on the reader `s.Open()` deliver when the
section is read as a sequence of `elf.Rela64`: the records `Relas`, followed by
`io.EOF` (`relaErr = none`) or by another error, such as the one for a last
record that is cut short. -/
structure Section where
  Name : String
  Addr : Nat
  Size : Nat
  Data : Res (List Byte)
  Relas : List Rela64 := []
  relaErr : Option Err := none

/-- An `*elf.File` as the package uses it: the machine of the header, the outcome
of `Symbols()` (the table without the null symbol at index 0) and the sections
by name. -/
structure ElfFile where
  Machine : Nat
  Symbols : Res (List Symbol)
  sectionByName : String → Res (Option Section)

/-- The file system as `elf.Open` sees it. -/
structure ElfWorld where
  Open : String → Res ElfFile

/-- Modelled from the spec: `GetSectionByName` is not among the sources.  Section
4.1 of the specification gives the operation `section_by_name(name) → Section?`;
the callers test both the error and a nil section.  It is the lookup of the
file. -/
def GetSectionByName (f : ElfFile) (name : String) : Res (Option Section) :=
  f.sectionByName name

/-- Type `TracePCInfo`.  The Go maps with `bool` values are the lists of the keys
set to `true`; `traceCmp` is `none` while it is the nil map. -/
structure TracePCInfo where
  textAddr : Nat
  tracePC : Nat
  traceCmp : Option (List Nat)
  tracePCIdx : List Nat
  traceCmpIdx : List Nat
  deriving DecidableEq

/-- Function `FindAllSymbols(path)`. -/
def FindAllSymbols (fs : ElfWorld) (path : String) : Res (List Symbol) :=
  match fs.Open path with
  | .ok f => f.Symbols
  | .error e => .error e
  | .panic p => .panic p

/-- Function `strings.HasPrefix`. -/
def startsWith (s pre : String) : Bool :=
  pre.toList.isPrefixOf s.toList

/-- The symbol loop of `GetTracePCInfo`, `i` being the index of the next symbol.
`info.traceCmp` is never made, so the assignment `info.traceCmp[s.Value] = true`
writes to a nil map. -/
def GetTracePCInfo.loop (text : Section) : List Symbol → Nat → TracePCInfo → Res TracePCInfo
  | [], _, info => .ok info
  | s :: rest, i, info =>
    let t : Bool := decide (s.Value ≥ text.Addr) &&
      decide ((s.Value + s.Size) % 2 ^ 64 ≤ (text.Addr + text.Size) % 2 ^ 64)
    if startsWith s.Name "__sanitizer_cov_trace_" then
      if s.Name = "__sanitizer_cov_trace_pc" then
        GetTracePCInfo.loop text rest (i + 1)
          { info with tracePCIdx := info.tracePCIdx ++ [i],
                      tracePC := if t then s.Value else info.tracePC }
      else if t then
        match info.traceCmp with
        | none => .panic .nilMapAssignment
        | some m =>
          GetTracePCInfo.loop text rest (i + 1)
            { info with traceCmpIdx := info.traceCmpIdx ++ [i], traceCmp := some (m ++ [s.Value]) }
      else
        GetTracePCInfo.loop text rest (i + 1) { info with traceCmpIdx := info.traceCmpIdx ++ [i] }
    else GetTracePCInfo.loop text rest (i + 1) info

/-- Function `GetTracePCInfo(path)`.  `text.Addr` dereferences the section
pointer, which is nil when the object has no `.text`. -/
def GetTracePCInfo (fs : ElfWorld) (path : String) : Res TracePCInfo := do
  let symbols ← FindAllSymbols fs path
  let f ← fs.Open path
  let text ← GetSectionByName f ".text"
  match text with
  | none => .panic .nilDereference
  | some text =>
    GetTracePCInfo.loop text symbols 0
      { textAddr := text.Addr, tracePC := 0, traceCmp := none, tracePCIdx := [], traceCmpIdx := [] }

/-- The lookup `info.traceCmp[target]`; reading the nil map gives `false`. -/
def TracePCInfo.isTraceCmp (info : TracePCInfo) (target : Nat) : Bool :=
  match info.traceCmp with
  | none => false
  | some m => m.contains target

/-- The loop `for i, opcode := range data` of `FindAllCoverPoints`: `todo` holds the
bytes from index `i` on, `pcs` the two buckets. -/
def FindAllCoverPoints.loop (arch : Arch) (info : TracePCInfo) (data : List Byte) :
    List Byte → Nat → List Nat × List Nat → Res (List Nat × List Nat)
  | [], _, pcs => .ok pcs
  | opcode :: todo, i, pcs =>
    if opcode ≠ arch.opcodes.1 ∧ opcode ≠ arch.opcodes.2 then
      FindAllCoverPoints.loop arch info data todo (i + 1) pcs
    else
      let i1 : Int := (i : Int) - arch.opcodeOffset
      if i1 < 0 ∨ i1 + arch.callLen > (data.length : Int) then
        FindAllCoverPoints.loop arch info data todo (i + 1) pcs
      else
        let pc := (info.textAddr + i1.toNat) % 2 ^ 64
        match arch.callTarget (data.drop i1.toNat) pc opcode with
        | .error e => .error e
        | .panic p => .panic p
        | .ok target =>
          if target = info.tracePC then
            FindAllCoverPoints.loop arch info data todo (i + 1) (pcs.1 ++ [pc], pcs.2)
          else if info.isTraceCmp target then
            FindAllCoverPoints.loop arch info data todo (i + 1) (pcs.1, pcs.2 ++ [pc])
          else FindAllCoverPoints.loop arch info data todo (i + 1) pcs

/-- Function `FindAllCoverPoints(path)`; the result is the pair of the buckets
`pcs[0]`, `pcs[1]`. -/
def FindAllCoverPoints (fs : ElfWorld) (path : String) : Res (List Nat × List Nat) := do
  let info ← GetTracePCInfo fs path
  if info.tracePC = 0 then .error .noTracePCSymbol
  else do
    let f ← fs.Open path
    let s ← GetSectionByName f ".text"
    match s with
    | none => .error .noTextSection
    | some s => do
      let data ← s.Data
      FindAllCoverPoints.loop (arches f.Machine) info data data 0 ([], [])

/-! ## Example inputs: a linked x86-64 object

Scenario 1 of the specification (section 8): `.text` at `0x401000`, the symbol
`__sanitizer_cov_trace_pc` at `0x4010A0` inside it, and one five-byte call
instruction at `0x40100B`; every other byte of the section is `0x90`. -/

/-- The instruction bytes the specification gives for the call. -/
def callAsSpecified : List Byte := [0xE8, 0x9A, 0xFF, 0xFF, 0xFF]

/-- The bytes of a call from `0x40100B` to `0x4010A0`: displacement
`0x4010A0 - 0x401010 = 0x90`. -/
def callToTracePC : List Byte := [0xE8, 0x90, 0x00, 0x00, 0x00]

def tracePCSymbol : Symbol := ⟨"__sanitizer_cov_trace_pc", 0x4010A0, 0x10, 1⟩

/-- The `.text` section holding `call` at offset `0xB`. -/
def linkedText (call : List Byte) : Section :=
  { Name := ".text", Addr := 0x401000, Size := 0xB0,
    Data := .ok (List.replicate 0xB 0x90 ++ call ++ List.replicate 0xA0 0x90) }

def linkedFile (call : List Byte) : ElfFile :=
  { Machine := EM_X86_64,
    Symbols := .ok [⟨"main", 0x401000, 0x20, 1⟩, tracePCSymbol],
    sectionByName := fun name => if name = ".text" then .ok (some (linkedText call)) else .ok none }

/-- A file system in which every path opens the linked object with the call `call`. -/
def linkedWorld (call : List Byte) : ElfWorld := ⟨fun _ => .ok (linkedFile call)⟩

/-! ## Example inputs: two compile units, a call site without a file -/

def unitAEntry : Entry :=
  ⟨11, TagCompileUnit, true, [⟨AttrName, .str "a.c"⟩, ⟨AttrCompDir, .str "/src"⟩]⟩

def unitBEntry : Entry :=
  ⟨0x40, TagCompileUnit, true, [⟨AttrName, .str "b.c"⟩, ⟨AttrCompDir, .str "/src"⟩]⟩

/-- An object with the units `a.c` (subprogram `fa` at `[0x1000, 0x1100)`) and
`b.c` (subprogram `gb` at `[0x2000, 0x2100)`). -/
def twoUnitData : Data :=
  { entries :=
      [unitAEntry, ⟨0x20, TagSubprogram, false, [⟨AttrName, .str "fa"⟩]⟩, nullEntry,
       unitBEntry, ⟨0x50, TagSubprogram, false, [⟨AttrName, .str "gb"⟩]⟩, nullEntry],
    readErr := none,
    Ranges := fun e =>
      if e.Offset = 11 ∨ e.Offset = 0x20 then .ok [(0x1000, 0x1100)]
      else if e.Offset = 0x40 ∨ e.Offset = 0x50 then .ok [(0x2000, 0x2100)]
      else .ok [],
    LineReader := fun _ => .ok (some ⟨some [none, some fileA], []⟩) }

def twoUnitWorld : World := ⟨fun _ => .ok (some twoUnitData)⟩

def unitA : DWARFCompileUnit := ⟨"a.o", twoUnitData, unitAEntry, "a.c", "/src", [(0x1000, 0x1100)]⟩

def unitB : DWARFCompileUnit := ⟨"a.o", twoUnitData, unitBEntry, "b.c", "/src", [(0x2000, 0x2100)]⟩

/-- The record of `fa`, as `findAllFuncs` builds it. -/
def faFunc : DWARFFunction :=
  { DwarfCompileUnit := unitA, Typ := TagSubprogram, Name := "fa",
    Ranges := [(0x1000, 0x1100)], DeclFile := "", DeclLine := 0, CallFile := "",
    CallLine := 0, CallColumn := 0, Inline := false, Offset := 0x20, Depth := 1 }

/-- The record of `gb`, as `findAllFuncs` builds it. -/
def gbFunc : DWARFFunction :=
  { DwarfCompileUnit := unitB, Typ := TagSubprogram, Name := "gb",
    Ranges := [(0x2000, 0x2100)], DeclFile := "", DeclLine := 0, CallFile := "",
    CallLine := 0, CallColumn := 0, Inline := false, Offset := 0x50, Depth := 1 }

/-- The inlined `middle` of the inline chain without `DW_AT_call_file`. -/
def middleNoCallFile : Entry :=
  ⟨0x50, TagInlinedSubroutine, true,
    [⟨AttrAbstractOrigin, .offset 0x20⟩, ⟨AttrCallLine, .int64 10⟩]⟩

/-- The inlined `middle` of the inline chain without `DW_AT_call_line`. -/
def middleNoCallLine : Entry :=
  ⟨0x50, TagInlinedSubroutine, true,
    [⟨AttrAbstractOrigin, .offset 0x20⟩, ⟨AttrCallFile, .int64 1⟩]⟩

/-- The inline chain with `middle` replaced by the entry `m`. -/
def chainDataWith (m : Entry) : Data :=
  { chainData with
    entries := [chainCU, chainAbstractMiddle, chainAbstractInner, chainOuter, m,
      chainInner, nullEntry, nullEntry, nullEntry] }

def chainWorldWith (m : Entry) : World := ⟨fun _ => .ok (some (chainDataWith m))⟩

/-! ## Specification of the search for a subprogram -/

/-- The entry an abstract origin leads to: the one `getEntryByOffset` returns for
the offset held by `DW_AT_abstract_origin`, `none` when the attribute is absent,
is not an offset, or leads nowhere. -/
def originEntry (cu : DWARFCompileUnit) (ent : Entry) : Option Entry :=
  match ent.Val AttrAbstractOrigin with
  | some (.offset off) =>
    match getEntryByOffset cu off with
    | .ok (some ent1) => some ent1
    | _ => none
  | _ => none

/-- The name attribute of an entry as the parsers resolve it: without an abstract
origin the entry's own `DW_AT_name`; with one, the name of the origin entry, or
the entry's own when the origin has none.  `none`: no name is reachable. -/
def resolvedName (cu : DWARFCompileUnit) (ent : Entry) : Option Value :=
  match ent.Val AttrAbstractOrigin with
  | none => ent.Val AttrName
  | some _ =>
    match originEntry cu ent with
    | some ent1 => ownNameIfNil (ent1.Val AttrName) ent
    | none => none

/-- The test the specification states for `GetSubprogramByAddr`, on one entry: a
`DW_TAG_subprogram` entry with a resolvable name and a non-empty range list
whose first range starts at or before `pc` and whose last range ends after
`pc`. -/
def matchesSubprogram (cu : DWARFCompileUnit) (pc : Nat) (ent : Entry) : Bool :=
  decide (ent.Tag = TagSubprogram) && (resolvedName cu ent).isSome &&
    match cu.Dwarf.Ranges ent with
    | .ok ranges => ranges.length != 0 && inHull ranges pc
    | _ => false

/-- The outcome the specification states for `GetSubprogramByAddr` on the entries
`l` that follow the root of the unit: `r` is the record of the first entry,
before the next compile-unit entry, that passes the test (it carries the offset,
the resolved name and the ranges of that entry), or no record when no entry
passes. -/
def FirstMatch (cu : DWARFCompileUnit) (pc : Nat) (l : List Entry)
    (r : Option DWARFFunction) : Prop :=
  (r = none → ∀ e ∈ l.takeWhile (fun e => e.Tag != TagCompileUnit),
    matchesSubprogram cu pc e = false) ∧
  (∀ f, r = some f → ∃ pre ent post,
    l.takeWhile (fun e => e.Tag != TagCompileUnit) = pre ++ ent :: post ∧
    (∀ e ∈ pre, matchesSubprogram cu pc e = false) ∧
    matchesSubprogram cu pc ent = true ∧
    f.Offset = ent.Offset ∧ resolvedName cu ent = some (.str f.Name) ∧
    cu.Dwarf.Ranges ent = .ok f.Ranges)

/-! ## Example input: an inlined subroutine under a lexical block

The subprogram `outer` at `[0x1000, 0x1100)` has a lexical block as its only
child, and the block holds the inlined `inner` at `[0x1010, 0x1020)`, called at
`a.c:7`. -/

def blockLexical : Entry := ⟨0x48, TagLexDwarfBlock, true, []⟩

def blockInner : Entry :=
  ⟨0x50, TagInlinedSubroutine, false,
    [⟨AttrAbstractOrigin, .offset 0x30⟩, ⟨AttrCallFile, .int64 1⟩, ⟨AttrCallLine, .int64 7⟩]⟩

def blockData : Data :=
  { entries := [chainCU, chainAbstractInner, chainOuter, blockLexical, blockInner,
      nullEntry, nullEntry, nullEntry],
    readErr := none,
    Ranges := fun e =>
      if e.Offset = 11 then .ok [(0x1000, 0x1200)]
      else if e.Offset = 0x40 then .ok [(0x1000, 0x1100)]
      else if e.Offset = 0x50 then .ok [(0x1010, 0x1020)]
      else .ok [],
    LineReader := fun _ =>
      .ok (some ⟨some [none, some fileA, some fileB], [⟨0x1010, some fileB, 3, 0, false⟩]⟩) }

def blockWorld : World := ⟨fun _ => .ok (some blockData)⟩

def blockUnit : DWARFCompileUnit := ⟨"a.o", blockData, chainCU, "a.c", "/src", [(0x1000, 0x1200)]⟩

/-- The record `parseSubprogram` builds for `outer` in the lexical-block object. -/
def blockOuterFunc : DWARFFunction :=
  { DwarfCompileUnit := blockUnit, Typ := TagSubprogram, Name := "outer",
    Ranges := [(0x1000, 0x1100)], DeclFile := "a.c", DeclLine := 5, CallFile := "",
    CallLine := 0, CallColumn := 0, Inline := false, Offset := 0x40, Depth := 1 }

/-- The record `parseSubroutine` builds for `inner` in the lexical-block object;
`GetSubroutinesBySubprogram` starts the depth of the children at the depth of
the subprogram, so the block is level 1 and `inner` level 2. -/
def blockInnerFunc : DWARFFunction :=
  { DwarfCompileUnit := blockUnit, Typ := TagInlinedSubroutine, Name := "inner",
    Ranges := [(0x1010, 0x1020)], DeclFile := "a.c", DeclLine := 0, CallFile := "a.c",
    CallLine := 7, CallColumn := 0, Inline := true, Offset := 0x50, Depth := 2 }

/-! ## rela.go: coverage points of a relocatable object -/

/-- Function `IsSectionExist(path, sec)`. -/
def IsSectionExist (fs : ElfWorld) (path sec : String) : Bool :=
  match fs.Open path with
  | .ok f =>
    match GetSectionByName f sec with
    | .ok s => s.isSome
    | _ => false
  | _ => false

/-- The lookup `info.tracePCIdx[index]` for the Go `int` `index`; a key that was
never set, such as `-1`, gives `false`. -/
def TracePCInfo.isTracePCIdx (info : TracePCInfo) (index : Int) : Bool :=
  decide (0 ≤ index) && info.tracePCIdx.contains index.toNat

/-- The lookup `info.traceCmpIdx[index]`. -/
def TracePCInfo.isTraceCmpIdx (info : TracePCInfo) (index : Int) : Bool :=
  decide (0 ≤ index) && info.traceCmpIdx.contains index.toNat

/-- The function `elf.R_SYM64`: `uint32(info >> 32)`. -/
def R_SYM64 (info : Nat) : Nat := (info >>> 32) % 2 ^ 32

/-- The record loop of `FindAllCoverPointsInRelaSec` on the records still to be
read.  `info` is never nil where the loop runs, so the branch `info != nil` is
the one taken. -/
def FindAllCoverPointsInRelaSec.loop (callRelocType relaOffset : Nat) (info : TracePCInfo) :
    List Rela64 → List Nat × List Nat → List Nat × List Nat
  | [], pcs => pcs
  | rel :: rest, pcs =>
    if rel.Info &&& 0xffffffff ≠ callRelocType then
      FindAllCoverPointsInRelaSec.loop callRelocType relaOffset info rest pcs
    else
      let pc := (rel.Off + (2 ^ 64 - relaOffset % 2 ^ 64)) % 2 ^ 64
      let index : Int := (R_SYM64 rel.Info : Int) - 1
      if info.isTracePCIdx index then
        FindAllCoverPointsInRelaSec.loop callRelocType relaOffset info rest (pcs.1 ++ [pc], pcs.2)
      else if info.isTraceCmpIdx index then
        FindAllCoverPointsInRelaSec.loop callRelocType relaOffset info rest (pcs.1, pcs.2 ++ [pc])
      else FindAllCoverPointsInRelaSec.loop callRelocType relaOffset info rest pcs

/-- Function `FindAllCoverPointsInRelaSec(path)`.  A read error other than
`io.EOF` is returned after the records before it were taken. -/
def FindAllCoverPointsInRelaSec (fs : ElfWorld) (w : World) (path : String) :
    M (List Nat × List Nat) := fun c =>
  match GetTracePCInfo fs path with
  | .error e => (.error e, c)
  | .panic p => (.panic p, c)
  | .ok info =>
    match fs.Open path with
    | .error e => (.error e, c)
    | .panic p => (.panic p, c)
    | .ok f =>
      match GetSectionByName f ".rela.text" with
      | .error e => (.error e, c)
      | .panic p => (.panic p, c)
      | .ok none => (.error .noRelaTextSection, c)
      | .ok (some s) =>
        let callRelocType := (arches f.Machine).callRelocType
        let relaOffset := (arches f.Machine).relaOffset
        match DWARF w path c with
        | (.error e, c1) => (.error e, c1)
        | (.panic p, c1) => (.panic p, c1)
        | (.ok _, c1) =>
          match s.relaErr with
          | some e => (.error e, c1)
          | none =>
            (.ok (FindAllCoverPointsInRelaSec.loop callRelocType relaOffset info s.Relas ([], [])),
              c1)

/-! ## dwarf.go: all addresses -/

/-- The loop of `GenLineEntries` over the compile units. -/
def GenLineEntries.loop : List DWARFCompileUnit → M Unit
  | [] => fun c => (.ok (), c)
  | cu :: rest => fun c =>
    match getLineEntries cu c with
    | (.error e, c1) => (.error e, c1)
    | (.panic p, c1) => (.panic p, c1)
    | (.ok _, c1) => GenLineEntries.loop rest c1

/-- Function `GenLineEntries(path)`. -/
def GenLineEntries (w : World) (path : String) : M Unit := fun c =>
  match FindAllCompileUnits w path c with
  | (.error e, c1) => (.error e, c1)
  | (.panic p, c1) => (.panic p, c1)
  | (.ok cus, c1) => GenLineEntries.loop cus c1

/-- The loop of `FindAllPCs` over the compile units: the addresses of the entries
of each unit's address map are appended to `pcs`.  Ranging over the Go map visits
the entries in an unspecified order, here the order of the list; the sort that
follows makes the order immaterial. -/
def FindAllPCs.loop : List DWARFCompileUnit → List Nat → M (List Nat)
  | [], pcs => fun c => (.ok pcs, c)
  | cu :: rest, pcs => fun c =>
    match getLineEntries cu c with
    | (.error e, c1) => (.error e, c1)
    | (.panic p, c1) => (.panic p, c1)
    | (.ok lineEntries, c1) =>
      FindAllPCs.loop rest (pcs ++ lineEntries.map (fun p => p.2.Address)) c1

/-- Function `FindAllPCs(path, filterTracePC)`. -/
def FindAllPCs (fs : ElfWorld) (w : World) (path : String) (filterTracePC : Bool) :
    M (List Nat) := fun c =>
  if filterTracePC then
    let r : Res (List Nat × List Nat) × Caches :=
      if IsSectionExist fs path ".rela.text" then FindAllCoverPointsInRelaSec fs w path c
      else (FindAllCoverPoints fs path, c)
    match r with
    | (.error e, c1) => (.error e, c1)
    | (.panic p, c1) => (.panic p, c1)
    | (.ok coverPoints, c1) =>
      (.ok (sortSlice (fun a b => decide (a < b)) (coverPoints.1 ++ coverPoints.2)), c1)
  else
    match GenLineEntries w path c with
    | (.error e, c1) => (.error e, c1)
    | (.panic p, c1) => (.panic p, c1)
    | (.ok _, c1) =>
      match FindAllCompileUnits w path c1 with
      | (.error e, c2) => (.error e, c2)
      | (.panic p, c2) => (.panic p, c2)
      | (.ok cus, c2) =>
        match FindAllPCs.loop cus [] c2 with
        | (.error e, c3) => (.error e, c3)
        | (.panic p, c3) => (.panic p, c3)
        | (.ok pcs, c3) => (.ok (sortSlice (fun a b => decide (a < b)) pcs), c3)

/-! ## callgraph.go: `percent`

The function computes in `float64`.  The values that occur are finite and not
negative, and lie in the range of the normal numbers; such a value is
`mant * 2^exp`, and every operation returns the exact result rounded to 53
significant bits, to nearest, ties to even (IEEE 754 binary64). -/

/-- A finite `float64` that is not negative: the number `mant * 2^exp`. -/
structure Float64 where
  mant : Nat
  exp : Int
  deriving DecidableEq

/-- Brings `n / d` into `[2^52, 2^53)` by powers of two: the result `(n1, d1, e)`
has `n1 / d1 * 2^e = n / d * 2^e0`.  The fuel bounds the number of doublings. -/
def Float64.scale : Nat → Nat → Nat → Int → Nat × Nat × Int
  | 0, n, d, e => (n, d, e)
  | fuel + 1, n, d, e =>
    if n < 2 ^ 52 * d then Float64.scale fuel (2 * n) d (e - 1)
    else if n ≥ 2 ^ 53 * d then Float64.scale fuel n (2 * d) (e + 1)
    else (n, d, e)

/-- The `float64` nearest to the rational `n / d` (`d > 0`), ties to even. -/
def Float64.round (n d : Nat) : Float64 :=
  if n = 0 then ⟨0, 0⟩
  else
    match Float64.scale 2200 n d 0 with
    | (n1, d1, e) =>
      if 2 * (n1 % d1) > d1 ∨ (2 * (n1 % d1) = d1 ∧ n1 / d1 % 2 = 1) then ⟨n1 / d1 + 1, e⟩
      else ⟨n1 / d1, e⟩

/-- The conversion `float64(k)` of a Go `int` that is not negative. -/
def Float64.ofNat (k : Nat) : Float64 := Float64.round k 1

/-- The quotient `x / y` for `y` not zero. -/
def Float64.div (x y : Float64) : Float64 :=
  match Float64.round x.mant y.mant with
  | ⟨m, e⟩ => ⟨m, e + x.exp - y.exp⟩

/-- The product `x * y`. -/
def Float64.mul (x y : Float64) : Float64 :=
  match Float64.round (x.mant * y.mant) 1 with
  | ⟨m, e⟩ => ⟨m, e + x.exp + y.exp⟩

/-- Function `math.Ceil`, the result (an integer) given as a natural number. -/
def Float64.ceil (x : Float64) : Nat :=
  if 0 ≤ x.exp then x.mant * 2 ^ x.exp.toNat
  else (x.mant + 2 ^ (-x.exp).toNat - 1) / 2 ^ (-x.exp).toNat

/-- Function `percent(covered, total)` on counts:
`f := math.Ceil(float64(covered) / float64(total) * 100)`, then `f = 99` when
`f == 100 && covered < total`, and `int(f)`.  `none` stands for the cases in
which the value converted by `int(f)` is not a finite number inside the range
of `int` (a zero `total` among them); the Go specification leaves the result of
such a conversion to the implementation. -/
def percent (covered total : Nat) : Option Int :=
  if total = 0 then none
  else
    let f := Float64.ceil
      (Float64.mul (Float64.div (Float64.ofNat covered) (Float64.ofNat total)) (Float64.ofNat 100))
    if f = 100 ∧ covered < total then some 99
    else if f < 2 ^ 63 then some (f : Int)
    else none

/-! ## callgraph.go: `dot`

The graph library is outside the repository.  Its calls `CreateNode`, `Node` and
`CreateEdge` are taken to succeed; what is kept of the graph is the sequence of
the edges created, each given by the two function records whose nodes it joins.
The attributes of nodes and edges, the deletion of the nodes without an edge and
the rendering are left out. -/

/-- The local type `covStats` of `dot`. -/
structure covStats where
  Covered : Nat
  Total : Nat
  Depth : Int
  deriving DecidableEq

/-- The variables of the loop `for _, f := range funcs` of `dot`: the map `stats`
as the list of its keys in the order of their creation together with the value
held at each key, the keys of `uniqFunc`, the map `parentMap` (the `Function` of
each `nodeF`), and the edges created so far as pairs `(parent.Function, f)`. -/
structure dotVars where
  statKeys : List Int
  stats : Int → covStats
  uniqFunc : List String
  parentMap : Int → Option DWARFFunction
  edges : List (DWARFFunction × DWARFFunction)

/-- The variables before the loop; no key of `stats` exists yet, and the value
shown at a key is the one its creation will store. -/
def dotVars.init : dotVars := ⟨[], fun d => ⟨0, 0, d⟩, [], fun _ => none, []⟩

/-- The statement `if _, ok := stats[f.Depth]; !ok { stats[f.Depth] = &covStats{Depth: f.Depth} }`. -/
def statsEnsure (v : dotVars) (depth : Int) : dotVars :=
  if v.statKeys.contains depth then v
  else { v with statKeys := v.statKeys ++ [depth],
                stats := fun d => if d = depth then ⟨0, 0, depth⟩ else v.stats d }

/-- The statement `stats[depth].Total += 1`. -/
def statsAddTotal (stats : Int → covStats) (depth : Int) : Int → covStats :=
  fun d => if d = depth then { stats d with Total := (stats d).Total + 1 } else stats d

/-- The statement `stats[depth].Covered += 1`. -/
def statsAddCovered (stats : Int → covStats) (depth : Int) : Int → covStats :=
  fun d => if d = depth then { stats d with Covered := (stats d).Covered + 1 } else stats d

/-- One iteration of the loop `for _, f := range funcs` of `dot`. -/
def dot.step (maxLevel : Int) (coveredFuncs : List String) (v : dotVars) (f : DWARFFunction) :
    dotVars :=
  let v1 := statsEnsure v f.Depth
  if maxLevel ≠ 0 ∧ f.Depth > maxLevel then v1
  else
    let parentMap1 : Int → Option DWARFFunction :=
      if f.Depth = 1 then fun _ => none else v1.parentMap
    let parent := parentMap1 (f.Depth - 1)
    let stats2 := if v1.uniqFunc.contains f.Name then v1.stats else statsAddTotal v1.stats f.Depth
    let uniqFunc1 := if v1.uniqFunc.contains f.Name then v1.uniqFunc else v1.uniqFunc ++ [f.Name]
    let stats3 := if coveredFuncs.contains f.Name then statsAddCovered stats2 f.Depth else stats2
    let parent1 := match parent with
      | none => parentMap1 (f.Depth - 2)
      | some p => some p
    let edges1 := match parent1 with
      | none => v1.edges
      | some p => v1.edges ++ [(p, f)]
    { statKeys := v1.statKeys, stats := stats3, uniqFunc := uniqFunc1,
      parentMap := fun d => if d = f.Depth then some f else parentMap1 d,
      edges := edges1 }

/-- The loop `for _, f := range funcs` of `dot`. -/
def dot.loop (maxLevel : Int) (coveredFuncs : List String) :
    List DWARFFunction → dotVars → dotVars
  | [], v => v
  | f :: rest, v => dot.loop maxLevel coveredFuncs rest (dot.step maxLevel coveredFuncs v f)

/-- The edges `dot` creates for the listing `funcs`. -/
def dot.edges (funcs : List DWARFFunction) (maxLevel : Int) (coveredFuncs : List String) :
    List (DWARFFunction × DWARFFunction) :=
  (dot.loop maxLevel coveredFuncs funcs dotVars.init).edges

/-- The rows `Depth,Covered,Total,Percent` that `dot` prints after the header:
the values of `stats` sorted by `Depth`, without those deeper than a non-zero
`maxLevel`; nothing when `showStats` is off or no name is covered.
`coveredFuncs` holds the keys of the map of that name, the lines of the file
named by `-coveredfile`. -/
def dot.rows (funcs : List DWARFFunction) (maxLevel : Int) (coveredFuncs : List String)
    (showStats : Bool) : List (Int × Nat × Nat × Option Int) :=
  if showStats ∧ coveredFuncs.length > 0 then
    let v := dot.loop maxLevel coveredFuncs funcs dotVars.init
    let cv := sortSlice (fun a b => decide (a.Depth < b.Depth)) (v.statKeys.map v.stats)
    (cv.filter (fun c => !(decide (maxLevel ≠ 0) && decide (c.Depth > maxLevel)))).map
      (fun c => (c.Depth, c.Covered, c.Total, percent c.Covered c.Total))
  else []

/-! ## Specification of the relocation scan -/

/-- The buckets the specification states for the records of `.rela.text`: of the
records whose type, the low 32 bits of `r_info`, is the call relocation type, in
record order, `r_offset - rela_offset` goes to bucket 0 when the symbol index
`R_SYM(info) - 1` is an index of `__sanitizer_cov_trace_pc`, and to bucket 1 when
it is the index of another `__sanitizer_cov_trace_*` symbol. -/
def relaBuckets (callRelocType relaOffset : Nat) (info : TracePCInfo) (relas : List Rela64) :
    List Nat × List Nat :=
  let calls := relas.filter (fun r => decide (r.Info % 2 ^ 32 = callRelocType))
  let pc := fun r : Rela64 => (r.Off + (2 ^ 64 - relaOffset % 2 ^ 64)) % 2 ^ 64
  ((calls.filter (fun r => info.isTracePCIdx ((R_SYM64 r.Info : Int) - 1))).map pc,
   (calls.filter (fun r => !info.isTracePCIdx ((R_SYM64 r.Info : Int) - 1) &&
      info.isTraceCmpIdx ((R_SYM64 r.Info : Int) - 1))).map pc)

/-! ## Example inputs: objects with coverage helpers -/

def cmpSymbol : Symbol := ⟨"__sanitizer_cov_trace_cmp4", 0x401080, 0x10, 1⟩

/-- The bytes of a call from `0x40100B` to `0x401080`: displacement
`0x401080 - 0x401010 = 0x70`. -/
def callToCmp : List Byte := [0xE8, 0x70, 0x00, 0x00, 0x00]

/-- Five bytes that are no call and hold no zero byte. -/
def noCall : List Byte := [0x90, 0x90, 0x90, 0x90, 0x90]

/-- A linked object of the given machine with `.text` at `0x401000` holding `call`
at offset `0xB`, `main` at the start of the section, and the symbols `syms`
after it. -/
def objectFile (machine : Nat) (syms : List Symbol) (call : List Byte) : ElfFile :=
  { Machine := machine,
    Symbols := .ok (⟨"main", 0x401000, 0x20, 1⟩ :: syms),
    sectionByName := fun name => if name = ".text" then .ok (some (linkedText call)) else .ok none }

def objectWorld (machine : Nat) (syms : List Symbol) (call : List Byte) : ElfWorld :=
  ⟨fun _ => .ok (objectFile machine syms call)⟩

/-- The machine `EM_RISCV`, for which `arches` has no entry. -/
def EM_RISCV : Nat := 243

/-- An undefined reference to `__sanitizer_cov_trace_pc` in a relocatable object:
value 0, size 0, section `SHN_UNDEF`. -/
def tracePCUndef : Symbol := ⟨"__sanitizer_cov_trace_pc", 0, 0, 0⟩

/-- An undefined reference to a comparison helper in a relocatable object. -/
def cmpUndef : Symbol := ⟨"__sanitizer_cov_trace_cmp4", 0, 0, 0⟩

/-- A relocatable object of the given machine: `.text` of `0x100` bytes at address
0, the function `f` over it followed by the symbols `syms`, and `.rela.text`
holding the records `relas`. -/
def relocFile (machine : Nat) (syms : List Symbol) (relas : List Rela64) : ElfFile :=
  { Machine := machine,
    Symbols := .ok (⟨"f", 0, 0x100, 1⟩ :: syms),
    sectionByName := fun name =>
      if name = ".text" then
        .ok (some { Name := ".text", Addr := 0, Size := 0x100, Data := .ok [] })
      else if name = ".rela.text" then
        .ok (some { Name := ".rela.text", Addr := 0, Size := 24 * relas.length, Data := .ok [],
                    Relas := relas })
      else .ok none }

def relocWorld (machine : Nat) (syms : List Symbol) (relas : List Rela64) : ElfWorld :=
  ⟨fun _ => .ok (relocFile machine syms relas)⟩

/-- A record of type `typ` at `r_offset = off` against the symbol of symbol-table
index `sym` (index 0 is the null symbol, which `Symbols()` leaves out). -/
def relaRecord (off sym typ : Nat) : Rela64 := ⟨off, sym <<< 32 ||| typ, 0⟩

/-! ## Example input: a line program with two rows at one address -/

def sharedRows : List LineEntry :=
  [⟨0x1000, some fileA, 5, 0, false⟩, ⟨0x1000, some fileA, 6, 4, false⟩,
   ⟨0x1010, some fileA, 7, 0, true⟩]

/-- One compile unit `a.c` over `[0x1000, 0x1200)` whose line program emits the
three rows `sharedRows`. -/
def sharedData : Data :=
  { entries := [chainCU, nullEntry],
    readErr := none,
    Ranges := chainRanges,
    LineReader := fun _ => .ok (some ⟨some [none, some fileA], sharedRows⟩) }

def sharedWorld : World := ⟨fun _ => .ok (some sharedData)⟩

/-- The compile unit record `FindAllCompileUnits` builds for `sharedData`. -/
def sharedUnit : DWARFCompileUnit :=
  ⟨"a.o", sharedData, chainCU, "a.c", "/src", [(0x1000, 0x1200)]⟩

/-! ## Specification of the depth of an entry

A list of sibling entries with their subtrees, and the stream in which a reader
delivers it: pre-order, the children of an entry that has the flag `Children`
following it and closed by a null entry. -/

/-- A list of sibling entries: the first entry, its children, and the siblings
that follow it. -/
inductive Dies where
  | nil : Dies
  | cons (ent : Entry) (kids : Dies) (sibs : Dies) : Dies

/-- Whether the list is empty. -/
def Dies.isNil : Dies → Bool
  | .nil => true
  | .cons _ _ _ => false

/-- The entry stream of a list of siblings. -/
def Dies.stream : Dies → List Entry
  | .nil => []
  | .cons ent kids sibs =>
    ent :: ((if ent.Children then kids.stream ++ [nullEntry] else []) ++ sibs.stream)

/-- The entries of a unit below its root: none is a null entry or a compile-unit
entry, and only an entry with the flag `Children` has children. -/
def Dies.wellFormed : Dies → Bool
  | .nil => true
  | .cons ent kids sibs =>
    ent.Tag != 0 && ent.Tag != TagCompileUnit && (ent.Children || kids.isNil) &&
      kids.wellFormed && sibs.wellFormed

/-- Every entry of the list with its number of proper ancestors, in stream order,
`depth` being that number for the entries of the list itself. -/
def Dies.levels : Dies → Int → List (Entry × Int)
  | .nil, _ => []
  | .cons ent kids sibs, depth => (ent, depth) :: (kids.levels (depth + 1) ++ sibs.levels depth)

/-! ## Specification of the parent of a listed function -/

/-- The scan behind `nearestEnclosing`, from the latest entry backwards. -/
def nearestEnclosing.scan (depth : Int) : List DWARFFunction → Option DWARFFunction
  | [] => none
  | p :: earlier =>
    if p.Depth < depth then some p
    else if p.Depth ≤ 1 then none
    else nearestEnclosing.scan depth earlier

/-- The parent the specification states for an entry of depth `depth` that
follows the entries `before` in the listing: the latest of them whose depth is
smaller, looking no further back than the latest entry of depth 1, which opens
the subtree the entry belongs to. -/
def nearestEnclosing (before : List DWARFFunction) (depth : Int) : Option DWARFFunction :=
  nearestEnclosing.scan depth before.reverse

/-! ## Example input: two inlined calls, the second with a block

The subprogram `a` inlines `b`, which inlines `c`; after them `a` inlines `d`,
and `d` has a lexical block that holds the inlined `e`. -/

def graphEntry (off tag : Nat) (children : Bool) (origin : Nat) : Entry :=
  ⟨off, tag, children,
    [⟨AttrAbstractOrigin, .offset origin⟩, ⟨AttrCallFile, .int64 1⟩, ⟨AttrCallLine, .int64 3⟩]⟩

def graphAbstract (off : Nat) (name : String) : Entry :=
  ⟨off, TagSubprogram, false,
    [⟨AttrName, .str name⟩, ⟨AttrDeclFile, .int64 1⟩, ⟨AttrInline, .int64 1⟩]⟩

def graphA : Entry := ⟨0x40, TagSubprogram, true, [⟨AttrName, .str "a"⟩]⟩

/-- The entries of the unit below its root. -/
def graphDies : Dies :=
  .cons (graphAbstract 0x20 "b") .nil <|
  .cons (graphAbstract 0x28 "c") .nil <|
  .cons (graphAbstract 0x30 "d") .nil <|
  .cons (graphAbstract 0x38 "e") .nil <|
  .cons graphA
    (.cons (graphEntry 0x50 TagInlinedSubroutine true 0x20)
      (.cons (graphEntry 0x58 TagInlinedSubroutine false 0x28) .nil .nil) <|
     .cons (graphEntry 0x60 TagInlinedSubroutine true 0x30)
      (.cons ⟨0x68, TagLexDwarfBlock, true, []⟩
        (.cons (graphEntry 0x70 TagInlinedSubroutine false 0x38) .nil .nil) .nil)
      .nil)
    .nil

def graphData : Data :=
  { entries := chainCU :: (graphDies.stream ++ [nullEntry]),
    readErr := none,
    Ranges := fun e =>
      if e.Offset = 11 then .ok [(0x1000, 0x1200)]
      else if e.Offset = 0x40 then .ok [(0x1000, 0x1100)]
      else if e.Offset = 0x50 then .ok [(0x1010, 0x1030)]
      else if e.Offset = 0x58 then .ok [(0x1018, 0x1020)]
      else if e.Offset = 0x60 then .ok [(0x1040, 0x1080)]
      else if e.Offset = 0x70 then .ok [(0x1050, 0x1060)]
      else .ok [],
    LineReader := fun _ => .ok (some ⟨some [none, some fileA], []⟩) }

def graphWorld : World := ⟨fun _ => .ok (some graphData)⟩

def graphUnit : DWARFCompileUnit := ⟨"a.o", graphData, chainCU, "a.c", "/src", [(0x1000, 0x1200)]⟩

/-- A record of `graphUnit` as the parsers build it. -/
def graphFunc (typ : Nat) (name : String) (ranges : List (Nat × Nat)) (offset : Nat)
    (depth : Int) : DWARFFunction :=
  { DwarfCompileUnit := graphUnit, Typ := typ, Name := name, Ranges := ranges,
    DeclFile := if typ = TagSubprogram then "" else "a.c", DeclLine := 0,
    CallFile := if typ = TagSubprogram then "" else "a.c",
    CallLine := if typ = TagSubprogram then 0 else 3, CallColumn := 0,
    Inline := decide (typ = TagInlinedSubroutine), Offset := offset, Depth := depth }

/-- The listing `findAllFuncs` returns for `graphUnit`. -/
def graphListing : List DWARFFunction :=
  [graphFunc TagSubprogram "a" [(0x1000, 0x1100)] 0x40 1,
   graphFunc TagInlinedSubroutine "b" [(0x1010, 0x1030)] 0x50 2,
   graphFunc TagInlinedSubroutine "c" [(0x1018, 0x1020)] 0x58 3,
   graphFunc TagInlinedSubroutine "d" [(0x1040, 0x1080)] 0x60 2,
   graphFunc TagInlinedSubroutine "e" [(0x1050, 0x1060)] 0x70 4]

/-! ## Example input: a listing for the coverage statistics -/

/-- A function record of the given name and depth. -/
def listed (name : String) (depth : Int) : DWARFFunction :=
  { DwarfCompileUnit := chainUnit, Typ := TagSubprogram, Name := name,
    Ranges := [(0x1000, 0x1100)], DeclFile := "a.c", DeclLine := 0, CallFile := "",
    CallLine := 0, CallColumn := 0, Inline := false, Offset := 0x40, Depth := depth }

/-- The listing `[A@1, B@2, C@2, D@3]`. -/
def statListing : List DWARFFunction :=
  [listed "A" 1, listed "B" 2, listed "C" 2, listed "D" 3]

/-! ## Specification of `percent` -/

/-- The value the specification states for `percent`: the ceiling of the exact
quotient `100 * covered / total`, lowered to 99 when it is 100 and `covered` is
less than `total`. -/
def percentExact (covered total : Nat) : Int :=
  if covered < total ∧ ⌈(100 * covered : ℚ) / total⌉ = 100 then 99
  else ⌈(100 * covered : ℚ) / total⌉

/-! ## Specification of the coverage rows -/

/-- The number of listed functions at depth `d`. -/
def countAt (funcs : List DWARFFunction) (d : Int) : Nat :=
  (funcs.filter (fun f => decide (f.Depth = d))).length

/-- The number of listed functions at depth `d` whose name is in the covered set. -/
def coveredAt (funcs : List DWARFFunction) (coveredFuncs : List String) (d : Int) : Nat :=
  (funcs.filter (fun f => decide (f.Depth = d) && coveredFuncs.contains f.Name)).length

/-! ## Specification of a cover point -/

/-- What the specification states of an address `pc` of bucket 0, for the bytes
`data` of `.text` and the offset `i` of `pc` in the section: `pc` is
`textAddr + i`, at `i` there remain `callLen` bytes, the byte at
`i + opcodeOffset` is one of the two call opcodes, and the decoder applied to the
bytes from `i` on, with that opcode, yields the address `tracePC`. -/
def isCallAt (arch : Arch) (info : TracePCInfo) (data : List Byte) (i pc : Nat) : Prop :=
  pc = (info.textAddr + i) % 2 ^ 64 ∧ (i : Int) + arch.callLen ≤ (data.length : Int) ∧
    ∃ opcode : Byte, data[((i : Int) + arch.opcodeOffset).toNat]? = some opcode ∧
      (opcode = arch.opcodes.1 ∨ opcode = arch.opcodes.2) ∧
      arch.callTarget (data.drop i) pc opcode = .ok info.tracePC

/-- The rows of the line program of a unit, none when there is no reader. -/
def rowsOf (cu : DWARFCompileUnit) : List LineEntry :=
  match cu.Dwarf.LineReader cu.Entry with
  | .ok (some r) => r.rows
  | _ => []

/-- The addresses `FindAllPCs` takes from a unit whose address map is built from
its line program. -/
def unitAddresses (cu : DWARFCompileUnit) : List Nat :=
  (collectLineEntries (rowsOf cu)).map (fun p => p.2.Address)

/-- The table of address maps holds, for the units `cus`, nothing but maps built
from the line program of the unit. -/
def lineTableCoherent (cus : List DWARFCompileUnit) (c : Caches) : Prop :=
  ∀ cu ∈ cus, ∀ m, c.lineEntriesCMap (cuKey cu.FilePath cu.Entry.Offset) = some m →
    m = collectLineEntries (rowsOf cu)

/-- Units of `cus` with the same table key have the same line rows. -/
def keysDetermineRows (cus : List DWARFCompileUnit) : Prop :=
  ∀ cu1 ∈ cus, ∀ cu2 ∈ cus,
    cuKey cu1.FilePath cu1.Entry.Offset = cuKey cu2.FilePath cu2.Entry.Offset →
      rowsOf cu1 = rowsOf cu2

/-! ## Specification of the AArch64 call target -/

/-- The 26-bit field `imm26` of a `BL` instruction read as a two's-complement
number. -/
def signExtend26 (v : Nat) : Int :=
  if v < 2 ^ 25 then (v : Int) else (v : Int) - 2 ^ 26

/-- The target of the AArch64 instruction `BL` with the 32-bit encoding `word` at
address `pc`: `pc + 4 * sign_extend_26(word & 0x3FFFFFF)` modulo `2^64`. -/
def blTarget (word pc : Nat) : Nat :=
  (((pc : Int) + 4 * signExtend26 (word % 2 ^ 26)) % 2 ^ 64).toNat

/-! ## Example input: a nested subprogram before an inlined subroutine

The subprogram `outer` at `[0x1000, 0x1100)` has two children: the nested
subprogram `helper`, which has no code of its own here, and the inlined `inner`
at `[0x1010, 0x1020)`. -/

def nestedHelper : Entry := ⟨0x48, TagSubprogram, false, [⟨AttrName, .str "helper"⟩]⟩

def nestedData : Data :=
  { blockData with
    entries := [chainCU, chainAbstractInner, chainOuter, nestedHelper, blockInner,
      nullEntry, nullEntry] }

def nestedWorld : World := ⟨fun _ => .ok (some nestedData)⟩

def nestedUnit : DWARFCompileUnit :=
  ⟨"a.o", nestedData, chainCU, "a.c", "/src", [(0x1000, 0x1200)]⟩

/-- The record `parseSubprogram` builds for `outer` in `nestedUnit`. -/
def nestedOuterFunc : DWARFFunction :=
  { DwarfCompileUnit := nestedUnit, Typ := TagSubprogram, Name := "outer",
    Ranges := [(0x1000, 0x1100)], DeclFile := "a.c", DeclLine := 5, CallFile := "",
    CallLine := 0, CallColumn := 0, Inline := false, Offset := 0x40, Depth := 1 }

/-- The children of the root of `nestedUnit`. -/
def nestedDies : Dies :=
  .cons chainAbstractInner .nil <|
  .cons chainOuter (.cons nestedHelper .nil (.cons blockInner .nil .nil)) .nil

/-! ## Example inputs: targets of an abstract origin -/

/-- A target without a name and without a declaration file, as an abstract
instance that refers to its declaration has. -/
def targetBare : Entry := ⟨0x30, TagSubprogram, false, [⟨AttrInline, .int64 1⟩]⟩

/-- A target with a name and without a declaration file. -/
def targetNamed : Entry :=
  ⟨0x30, TagSubprogram, false, [⟨AttrName, .str "inner"⟩, ⟨AttrInline, .int64 1⟩]⟩

/-- A target with a declaration file and without a name. -/
def targetFileOnly : Entry :=
  ⟨0x30, TagSubprogram, false, [⟨AttrDeclFile, .int64 1⟩, ⟨AttrInline, .int64 1⟩]⟩

/-- A target without a name that has an abstract origin of its own, the entry
`middle` at offset `0x20`. -/
def targetChained : Entry :=
  ⟨0x30, TagSubprogram, false,
    [⟨AttrDeclFile, .int64 1⟩, ⟨AttrAbstractOrigin, .offset 0x20⟩]⟩

/-- An inlined subroutine with the origin `0x30` that carries a name of its own. -/
def inlinedOwnName : Entry :=
  ⟨0x50, TagInlinedSubroutine, false,
    [⟨AttrName, .str "own"⟩, ⟨AttrAbstractOrigin, .offset 0x30⟩, ⟨AttrCallFile, .int64 1⟩,
     ⟨AttrCallLine, .int64 7⟩]⟩

/-- A subprogram entry with the origin `0x30` and no name of its own. -/
def concreteOrigin : Entry := ⟨0x50, TagSubprogram, false, [⟨AttrAbstractOrigin, .offset 0x30⟩]⟩

/-- The unit `a.c` with `middle` at `0x20`, `target` at `0x30`, and the subprogram
`outer` holding the entry `ent` at `0x50`. -/
def originUnit (target ent : Entry) : DWARFCompileUnit :=
  ⟨"a.o", { blockData with
             entries := [chainCU, chainAbstractMiddle, target, chainOuter, ent, nullEntry,
               nullEntry] },
    chainCU, "a.c", "/src", [(0x1000, 0x1200)]⟩

/-! ## Example input: an abstract instance with a child -/

def paramAbstract : Entry :=
  ⟨0x20, TagSubprogram, true,
    [⟨AttrName, .str "inner"⟩, ⟨AttrDeclFile, .int64 1⟩, ⟨AttrInline, .int64 1⟩]⟩

/-- A `DW_TAG_formal_parameter` entry. -/
def paramEntry : Entry := ⟨0x28, 0x05, false, [⟨AttrName, .str "x"⟩]⟩

def paramOuter : Entry :=
  ⟨0x40, TagSubprogram, false,
    [⟨AttrName, .str "outer"⟩, ⟨AttrDeclFile, .int64 1⟩, ⟨AttrDeclLine, .int64 5⟩]⟩

/-- The unit `a.c` whose first child is the abstract instance `inner`, with one
parameter and no code, followed by the subprogram `outer` at
`[0x1000, 0x1100)`. -/
def paramData : Data :=
  { blockData with entries := [chainCU, paramAbstract, paramEntry, nullEntry, paramOuter,
      nullEntry] }

def paramUnit : DWARFCompileUnit :=
  ⟨"a.o", paramData, chainCU, "a.c", "/src", [(0x1000, 0x1200)]⟩

/-! ## Example input: two files whose names differ by a number -/

/-- A file system with the two-unit object under `a.o` and the inline-chain object
under every other path, `a.o-11` among them. -/
def twoPathWorld : World :=
  ⟨fun path => if path = "a.o" then .ok (some twoUnitData) else .ok (some chainData)⟩

/-! ## Example input: a listing with a repeated name -/

/-- The listing `[A@1, B@2, B@2]`: `B` is inlined twice. -/
def repeatListing : List DWARFFunction :=
  [listed "A" 1, listed "B" 2, listed "B" 2]

end Dwarfparser

/-! # Theorems -/

namespace Dwarfparser

/-! ## The state monad -/

theorem M.bind_ok {α β : Type} (m : M α) (f : α → M β) (c c1 : Caches) (a : α)
    (h : m c = (.ok a, c1)) : (m >>= f) c = f a c1 := by
  show M.bind m f c = f a c1
  unfold M.bind
  rw [h]

theorem M.bind_error {α β : Type} (m : M α) (f : α → M β) (c c1 : Caches) (e : Err)
    (h : m c = (.error e, c1)) : (m >>= f) c = (.error e, c1) := by
  show M.bind m f c = _
  unfold M.bind
  rw [h]

theorem M.bind_panic {α β : Type} (m : M α) (f : α → M β) (c c1 : Caches) (p : Panic)
    (h : m c = (.panic p, c1)) : (m >>= f) c = (.panic p, c1) := by
  show M.bind m f c = _
  unfold M.bind
  rw [h]

/-- A successful sequence splits into a successful first step and the rest. -/
theorem M.bind_ok_inv {α β : Type} (m : M α) (f : α → M β) (c c2 : Caches) (b : β)
    (h : (m >>= f) c = (.ok b, c2)) : ∃ a c1, m c = (.ok a, c1) ∧ f a c1 = (.ok b, c2) := by
  change M.bind m f c = _ at h
  unfold M.bind at h
  rcases hm : m c with ⟨r, c1⟩
  rw [hm] at h
  cases r with
  | ok a => exact ⟨a, c1, rfl, h⟩
  | error e => simp at h
  | panic p => simp at h

theorem M.pure_ok_inv {α : Type} (a b : α) (c c1 : Caches)
    (h : (pure a : M α) c = (.ok b, c1)) : a = b ∧ c = c1 := by
  change ((Res.ok a, c) : Res α × Caches) = _ at h
  simp only [Prod.mk.injEq, Res.ok.injEq] at h
  exact h

/-! ## Binary search and sorting -/

theorem searchLoop_spec (f : Nat → Bool) :
    ∀ (fuel i j : Nat), i ≤ j → j - i ≤ fuel →
      i ≤ searchLoop f fuel i j ∧ searchLoop f fuel i j ≤ j ∧
      (searchLoop f fuel i j = i ∨ f (searchLoop f fuel i j - 1) = false) ∧
      (searchLoop f fuel i j = j ∨ f (searchLoop f fuel i j) = true) := by
  intro fuel
  induction fuel with
  | zero =>
    intro i j hij hf
    have : i = j := by omega
    subst this
    simp [searchLoop]
  | succ n ih =>
    intro i j hij hf
    unfold searchLoop
    by_cases hlt : i < j
    · simp only [hlt, if_true]
      by_cases hfh : f ((i + j) / 2) = true
      · simp only [hfh, Bool.not_true, Bool.false_eq_true, if_false]
        have h := ih i ((i + j) / 2) (by omega) (by omega)
        obtain ⟨h1, h2, h3, h4⟩ := h
        refine ⟨h1, by omega, h3, ?_⟩
        rcases h4 with h4 | h4
        · right; rw [h4]; exact hfh
        · right; exact h4
      · have hfh' : f ((i + j) / 2) = false := by simpa using hfh
        simp only [hfh', Bool.not_false, if_true]
        have h := ih ((i + j) / 2 + 1) j (by omega) (by omega)
        obtain ⟨h1, h2, h3, h4⟩ := h
        refine ⟨by omega, h2, ?_, h4⟩
        rcases h3 with h3 | h3
        · right; rw [h3]; simpa using hfh'
        · right; exact h3
    · simp only [hlt, if_false]
      have : i = j := by omega
      subst this
      simp

theorem Search_spec (n : Nat) (f : Nat → Bool) :
    Search n f ≤ n ∧ (Search n f = 0 ∨ f (Search n f - 1) = false) ∧
      (Search n f = n ∨ f (Search n f) = true) := by
  have h := searchLoop_spec f n 0 n (Nat.zero_le n) (by omega)
  exact ⟨h.2.1, h.2.2.1, h.2.2.2⟩

theorem sortSlice_perm {α : Type} (less : α → α → Bool) (xs : List α) :
    (sortSlice less xs).Perm xs :=
  List.perm_insertionSort _ xs

theorem mem_sortSlice {α : Type} (less : α → α → Bool) (xs : List α) (x : α) :
    x ∈ sortSlice less xs ↔ x ∈ xs :=
  (sortSlice_perm less xs).mem_iff

theorem length_sortSlice {α : Type} (less : α → α → Bool) (xs : List α) :
    (sortSlice less xs).length = xs.length :=
  (sortSlice_perm less xs).length_eq

/-- Sorting by `key a < key b` leaves the keys in ascending order. -/
theorem sortSlice_asc {α : Type} (key : α → Nat) (xs : List α) :
    (sortSlice (fun a b => decide (key a < key b)) xs).Pairwise (fun a b => key a ≤ key b) := by
  unfold sortSlice
  haveI : IsTotal α (fun a b => decide (key b < key a) = false) :=
    ⟨fun a b => by simp only [decide_eq_false_iff_not]; omega⟩
  haveI : IsTrans α (fun a b => decide (key b < key a) = false) :=
    ⟨fun a b c => by simp only [decide_eq_false_iff_not]; omega⟩
  have h := List.sorted_insertionSort (fun a b => decide (key b < key a) = false) xs
  refine List.Pairwise.imp ?_ h
  intro a b hab
  simp only [decide_eq_false_iff_not] at hab
  omega

/-- Sorting by `key a > key b` leaves the keys in descending order. -/
theorem sortSlice_desc {α : Type} (key : α → Nat) (xs : List α) :
    (sortSlice (fun a b => decide (key a > key b)) xs).Pairwise (fun a b => key b ≤ key a) := by
  unfold sortSlice
  haveI : IsTotal α (fun a b => decide (key b > key a) = false) :=
    ⟨fun a b => by simp only [decide_eq_false_iff_not]; omega⟩
  haveI : IsTrans α (fun a b => decide (key b > key a) = false) :=
    ⟨fun a b c => by simp only [decide_eq_false_iff_not]; omega⟩
  have h := List.sorted_insertionSort (fun a b => decide (key b > key a) = false) xs
  refine List.Pairwise.imp ?_ h
  intro a b hab
  simp only [decide_eq_false_iff_not] at hab
  omega

theorem orderedInsert_last {α : Type} (r : α → α → Prop) [DecidableRel r] (a : α) :
    ∀ l : List α, (∀ x ∈ l, ¬ r a x) → List.orderedInsert r a l = l ++ [a] := by
  intro l
  induction l with
  | nil => intro _; rfl
  | cons b l ih =>
    intro h
    have hb : ¬ r a b := h b (List.mem_cons_self b l)
    simp only [List.orderedInsert, hb, if_false, List.cons_append]
    rw [ih (fun x hx => h x (List.mem_cons_of_mem b hx))]

/-- An element that `less` puts after every other one ends up last. -/
theorem sortSlice_cons_last {α : Type} (less : α → α → Bool) (a : α) (xs : List α)
    (h : ∀ x ∈ xs, less x a = true) : sortSlice less (a :: xs) = sortSlice less xs ++ [a] := by
  unfold sortSlice
  show List.orderedInsert _ a (List.insertionSort _ xs) = _
  apply orderedInsert_last
  intro x hx
  rw [List.mem_insertionSort] at hx
  simp [h x hx]

/-! ## Compile units -/

theorem mem_flattenRanges (cus : List DWARFCompileUnit) (r : Range) :
    r ∈ flattenRanges cus ↔ ∃ cu ∈ cus, ∃ p ∈ cu.Ranges, r = ⟨p.1, p.2, cu⟩ := by
  unfold flattenRanges
  simp only [List.mem_flatMap, List.mem_map]
  constructor
  · rintro ⟨cu, hcu, p, hp, rfl⟩
    exact ⟨cu, hcu, p, hp, rfl⟩
  · rintro ⟨cu, hcu, p, hp, rfl⟩
    exact ⟨cu, hcu, p, hp, rfl⟩

/-- The sorted range table of `GetCompileUnitByAddr`. -/
theorem lookupCompileUnit_eq (cus : List DWARFCompileUnit) (pc : Nat)
    (ranges : List Range) (idx : Nat)
    (hrs : sortSlice (fun a b => decide (a.End < b.End)) (flattenRanges cus) = ranges)
    (hidx : Search ranges.length (startAfter ranges pc) = idx) :
    lookupCompileUnit cus pc =
      if idx = 0 ∨ idx > ranges.length then .error (.notFindCompileUnit pc)
      else
        match ranges[idx - 1]? with
        | some r => .ok r.CU
        | none => .panic .indexOutOfRange := by
  subst hrs
  subst hidx
  rfl

/-- The outcome of the lookup, in terms of the sorted range table and the index
found by the binary search. -/
theorem lookupCompileUnit_cases (cus : List DWARFCompileUnit) (pc : Nat)
    (ranges : List Range) (idx : Nat)
    (hrs : sortSlice (fun a b => decide (a.End < b.End)) (flattenRanges cus) = ranges)
    (hidx : Search ranges.length (startAfter ranges pc) = idx) :
    (idx = 0 ∧ lookupCompileUnit cus pc = .error (.notFindCompileUnit pc)) ∨
    ∃ r, ranges[idx - 1]? = some r ∧ 0 < idx ∧ idx ≤ ranges.length ∧ r.Start ≤ pc ∧
      lookupCompileUnit cus pc = .ok r.CU := by
  rw [lookupCompileUnit_eq cus pc ranges idx hrs hidx]
  obtain ⟨hle, hlo, _⟩ := Search_spec ranges.length (startAfter ranges pc)
  rw [hidx] at hle hlo
  by_cases h0 : idx = 0
  · left
    simp [h0]
  · right
    have hlt : idx - 1 < ranges.length := by omega
    refine ⟨ranges[idx - 1], List.getElem?_eq_getElem hlt, by omega, hle, ?_, ?_⟩
    · rcases hlo with hlo | hlo
      · exact absurd hlo h0
      · unfold startAfter at hlo
        rw [List.getElem?_eq_getElem hlt] at hlo
        simpa using hlo
    · have hng : ¬ (idx = 0 ∨ idx > ranges.length) := by omega
      simp only [hng, if_false]
      rw [List.getElem?_eq_getElem hlt]

/-- Outcome of `GetCompileUnitByAddr` once the compile units are known. -/
theorem GetCompileUnitByAddr_eq (w : World) (path : String) (pc : Nat) (c c1 : Caches)
    (cus : List DWARFCompileUnit) (h : FindAllCompileUnits w path c = (.ok cus, c1)) :
    GetCompileUnitByAddr w path pc c = (lookupCompileUnit cus pc, c1) := by
  unfold GetCompileUnitByAddr
  rw [h]

/-- A successful `GetCompileUnitByAddr` rests on a successful `FindAllCompileUnits`. -/
theorem GetCompileUnitByAddr_ok_inv (w : World) (path : String) (pc : Nat) (c c1 : Caches)
    (cu : DWARFCompileUnit) (h : GetCompileUnitByAddr w path pc c = (.ok cu, c1)) :
    ∃ cus, FindAllCompileUnits w path c = (.ok cus, c1) ∧ lookupCompileUnit cus pc = .ok cu := by
  unfold GetCompileUnitByAddr at h
  rcases hf : FindAllCompileUnits w path c with ⟨r, c2⟩
  rw [hf] at h
  cases r with
  | ok cus =>
    simp only [Prod.mk.injEq] at h
    exact ⟨cus, by rw [h.2], h.1⟩
  | error e => simp at h
  | panic p => simp at h

/-- C5 (amended).  Whenever `GetCompileUnitByAddr` succeeds, the unit it returns
is one of the units of `FindAllCompileUnits` and has a range `[low, high)` with
`low <= pc`.  Nothing is said about `high`: the unit of the predecessor range is
returned whether or not that range contains `pc`. -/
theorem GetCompileUnitByAddr_start_le (w : World) (path : String) (pc : Nat) (c c1 : Caches)
    (cu : DWARFCompileUnit) (h : GetCompileUnitByAddr w path pc c = (.ok cu, c1)) :
    ∃ cus, FindAllCompileUnits w path c = (.ok cus, c1) ∧ cu ∈ cus ∧
      ∃ r ∈ cu.Ranges, r.1 ≤ pc := by
  obtain ⟨cus, hcus, hl⟩ := GetCompileUnitByAddr_ok_inv w path pc c c1 cu h
  refine ⟨cus, hcus, ?_⟩
  rcases lookupCompileUnit_cases cus pc _ _ rfl rfl with ⟨_, he⟩ | ⟨r, hr, _, _, hs, hok⟩
  · rw [he] at hl; simp at hl
  · rw [hok] at hl
    have hcu : r.CU = cu := by simpa using hl
    have hmem : r ∈ flattenRanges cus := by
      rw [← mem_sortSlice (fun a b => decide (a.End < b.End))]
      exact List.mem_iff_getElem?.2 ⟨_, hr⟩
    obtain ⟨cu1, hcu1, p, hp, rfl⟩ := (mem_flattenRanges cus r).1 hmem
    subst hcu
    exact ⟨hcu1, p, hp, hs⟩

/-- C6.  For every list of compile units `FindAllCompileUnits` delivers and every
`pc` strictly below the start of every range of every unit (also when there is
no range at all), `GetCompileUnitByAddr` fails with the not-found error. -/
theorem GetCompileUnitByAddr_below_all (w : World) (path : String) (pc : Nat) (c c1 : Caches)
    (cus : List DWARFCompileUnit) (hcus : FindAllCompileUnits w path c = (.ok cus, c1))
    (hlow : ∀ cu ∈ cus, ∀ r ∈ cu.Ranges, pc < r.1) :
    GetCompileUnitByAddr w path pc c = (.error (.notFindCompileUnit pc), c1) := by
  rw [GetCompileUnitByAddr_eq w path pc c c1 cus hcus]
  rcases lookupCompileUnit_cases cus pc _ _ rfl rfl with ⟨_, he⟩ | ⟨r, hr, _, _, hs, _⟩
  · rw [he]
  · exfalso
    have hmem : r ∈ flattenRanges cus := by
      rw [← mem_sortSlice (fun a b => decide (a.End < b.End))]
      exact List.mem_iff_getElem?.2 ⟨_, hr⟩
    obtain ⟨cu1, hcu1, p, hp, rfl⟩ := (mem_flattenRanges cus r).1 hmem
    have := hlow cu1 hcu1 p hp
    simp only at hs
    omega


/-- C7.  For every list of compile units whose ranges are non-empty and, taken
together, pairwise disjoint, and every `pc` contained in a range of the unit
`cu`, `GetCompileUnitByAddr` returns `cu`. -/
theorem GetCompileUnitByAddr_disjoint (w : World) (path : String) (pc : Nat) (c c1 : Caches)
    (cus : List DWARFCompileUnit) (hcus : FindAllCompileUnits w path c = (.ok cus, c1))
    (hne : ∀ cu ∈ cus, ∀ r ∈ cu.Ranges, r.1 < r.2)
    (hdisj : (flattenRanges cus).Pairwise (fun a b => a.End ≤ b.Start ∨ b.End ≤ a.Start))
    (cu : DWARFCompileUnit) (hcu : cu ∈ cus) (r : Nat × Nat) (hr : r ∈ cu.Ranges)
    (hpc : r.1 ≤ pc ∧ pc < r.2) :
    GetCompileUnitByAddr w path pc c = (.ok cu, c1) := by
  rw [GetCompileUnitByAddr_eq w path pc c c1 cus hcus]
  generalize hrs : sortSlice (fun a b => decide (a.End < b.End)) (flattenRanges cus) = ranges
  have hperm : ranges.Perm (flattenRanges cus) := by
    rw [← hrs]; exact sortSlice_perm _ _
  have hne1 : ∀ x ∈ ranges, x.Start < x.End := by
    intro x hx
    obtain ⟨cu1, hcu1, p, hp, rfl⟩ := (mem_flattenRanges cus x).1 (hperm.mem_iff.1 hx)
    exact hne cu1 hcu1 p hp
  have hd1 : ranges.Pairwise (fun a b => a.End ≤ b.Start ∨ b.End ≤ a.Start) :=
    (List.Perm.pairwise_iff (fun h => h.symm) hperm).2 hdisj
  have hs1 : ranges.Pairwise (fun a b => a.End ≤ b.End) := by
    rw [← hrs]; exact sortSlice_asc (fun x : Range => x.End) _
  have hord : ranges.Pairwise (fun a b => a.End ≤ b.Start) := by
    refine List.Pairwise.imp_of_mem ?_ (hd1.and hs1)
    intro a b ha hb hab
    have h1 := hne1 a ha
    have h2 := hne1 b hb
    rcases hab.1 with h | h
    · exact h
    · have := hab.2
      omega
  have hmem : (⟨r.1, r.2, cu⟩ : Range) ∈ ranges :=
    hperm.mem_iff.2 ((mem_flattenRanges cus _).2 ⟨cu, hcu, r, hr, rfl⟩)
  obtain ⟨q, hq, hqe⟩ := List.getElem_of_mem hmem
  rw [List.pairwise_iff_getElem] at hord
  obtain ⟨hle, hlo, hhi⟩ := Search_spec ranges.length (startAfter ranges pc)
  generalize hidx : Search ranges.length (startAfter ranges pc) = idx at hle hlo hhi
  have hsq : ranges[q].Start ≤ pc ∧ pc < ranges[q].End := by rw [hqe]; exact hpc
  have hidxq : idx = q + 1 := by
    by_contra hcon
    rcases Nat.lt_or_ge idx (q + 1) with hlt | hge
    · -- the search stopped at or before q
      have hin : idx < ranges.length := by omega
      rcases hhi with hhi | hhi
      · omega
      · unfold startAfter at hhi
        rw [List.getElem?_eq_getElem hin] at hhi
        have hst : pc < ranges[idx].Start := by simpa using hhi
        by_cases he : idx = q
        · subst he; omega
        · have h1 := hord idx q hin hq (by omega)
          have h2 := hne1 ranges[idx] (List.getElem_mem hin)
          omega
    · -- the search went past q + 1
      have hin : idx - 1 < ranges.length := by omega
      rcases hlo with hlo | hlo
      · omega
      · unfold startAfter at hlo
        rw [List.getElem?_eq_getElem hin] at hlo
        have hst : ranges[idx - 1].Start ≤ pc := by simpa using hlo
        have h1 := hord q (idx - 1) hq hin (by omega)
        omega
  rcases lookupCompileUnit_cases cus pc ranges idx hrs hidx with ⟨h0, _⟩ | ⟨r1, hr1, _, _, _, hok⟩
  · omega
  · rw [hok]
    have hq1 : idx - 1 = q := by omega
    rw [hq1, List.getElem?_eq_getElem hq, hqe] at hr1
    have : r1 = ⟨r.1, r.2, cu⟩ := by simpa using hr1.symm
    rw [this]

/-! ## Line entries -/

theorem goMapGet_eq_some (m : LineMap) (k : Nat) (e : LineEntry) (h : goMapGet m k = some e) :
    (k, e) ∈ m := by
  unfold goMapGet at h
  cases hf : m.find? (fun p => p.1 == k) with
  | none => rw [hf] at h; simp at h
  | some p =>
    rw [hf] at h
    have h1 := List.find?_some hf
    have h2 := List.mem_of_find?_eq_some hf
    simp only [Option.some.injEq] at h
    simp only [beq_iff_eq] at h1
    rw [← h, ← h1]
    exact h2

theorem goMapGet_eq_none (m : LineMap) (k : Nat) (h : goMapGet m k = none) :
    ∀ p ∈ m, p.1 ≠ k := by
  unfold goMapGet at h
  cases hf : m.find? (fun p => p.1 == k) with
  | none =>
    intro p hp
    have := List.find?_eq_none.1 hf p hp
    simpa using this
  | some p => rw [hf] at h; simp at h

theorem mem_goMapSet (k : Nat) (v : LineEntry) :
    ∀ (m : LineMap) (p : Nat × LineEntry), p ∈ goMapSet m k v → p = (k, v) ∨ p ∈ m := by
  intro m
  induction m with
  | nil =>
    intro p hp
    simp only [goMapSet, List.mem_singleton] at hp
    exact Or.inl hp
  | cons q rest ih =>
    intro p hp
    obtain ⟨k1, v1⟩ := q
    simp only [goMapSet] at hp
    by_cases hk : k1 = k
    · simp only [hk, if_true, List.mem_cons] at hp
      rcases hp with hp | hp
      · exact Or.inl hp
      · exact Or.inr (List.mem_cons_of_mem _ hp)
    · simp only [hk, if_false, List.mem_cons] at hp
      rcases hp with hp | hp
      · exact Or.inr (by rw [hp]; exact List.mem_cons_self _ _)
      · rcases ih p hp with h | h
        · exact Or.inl h
        · exact Or.inr (List.mem_cons_of_mem _ h)

theorem keys_goMapSet (k : Nat) (v : LineEntry) :
    ∀ m : LineMap, (goMapSet m k v).map Prod.fst =
      if k ∈ m.map Prod.fst then m.map Prod.fst else m.map Prod.fst ++ [k] := by
  intro m
  induction m with
  | nil => simp [goMapSet]
  | cons q rest ih =>
    obtain ⟨k1, v1⟩ := q
    simp only [goMapSet]
    by_cases hk : k1 = k
    · subst hk
      simp
    · have hk' : ¬ k = k1 := fun h => hk h.symm
      simp only [hk, if_false, List.map_cons, ih, List.mem_cons, hk', false_or]
      split <;> simp

theorem goMapSet_ok (m : LineMap) (e : LineEntry) (h : lineMapOK m) :
    lineMapOK (goMapSet m e.Address e) := by
  obtain ⟨h1, h2⟩ := h
  constructor
  · intro p hp
    rcases mem_goMapSet _ _ m p hp with hp | hp
    · rw [hp]
    · exact h1 p hp
  · rw [keys_goMapSet]
    split
    · exact h2
    · rename_i hk
      rw [List.nodup_append]
      refine ⟨h2, List.nodup_singleton _, ?_⟩
      intro a ha hb
      rw [List.mem_singleton] at hb
      subst hb
      exact hk ha

theorem foldl_goMapSet_ok (rows : List LineEntry) :
    ∀ m : LineMap, lineMapOK m →
      lineMapOK (rows.foldl (fun m ent => goMapSet m ent.Address ent) m) := by
  induction rows with
  | nil => intro m h; exact h
  | cons e rest ih =>
    intro m h
    exact ih _ (goMapSet_ok m e h)

/-- The map `getLineEntries` builds from the rows of a line program. -/
theorem collectLineEntries_ok (rows : List LineEntry) : lineMapOK (collectLineEntries rows) :=
  foldl_goMapSet_ok rows [] ⟨fun _ h => absurd h (List.not_mem_nil _), List.nodup_nil⟩

/-- The map `getLineEntries` returns is well formed when the one stored in the
table, if any, is. -/
theorem getLineEntries_ok (cu : DWARFCompileUnit) (c c1 : Caches) (les : LineMap)
    (h : getLineEntries cu c = (.ok les, c1))
    (hc : ∀ m, c.lineEntriesCMap (cuKey cu.FilePath cu.Entry.Offset) = some m → lineMapOK m) :
    lineMapOK les := by
  unfold getLineEntries at h
  cases hget : c.lineEntriesCMap (cuKey cu.FilePath cu.Entry.Offset) with
  | some m =>
    rw [hget] at h
    simp only [Prod.mk.injEq, Res.ok.injEq] at h
    rw [← h.1]
    exact hc m hget
  | none =>
    rw [hget] at h
    simp only at h
    cases hr : cu.Dwarf.LineReader cu.Entry with
    | error e => rw [hr] at h; simp at h
    | panic p => rw [hr] at h; simp at h
    | ok r =>
      rw [hr] at h
      cases r with
      | none => simp at h
      | some r =>
        simp only [Prod.mk.injEq, Res.ok.injEq] at h
        rw [← h.1]
        exact collectLineEntries_ok r.rows

/-- The nearest-entry lookup on a map whose keys are the addresses of its entries:
either an entry at or before `pc` with the greatest address, or the not-found
error when every entry lies after `pc`. -/
theorem nearestLineEntry_cases (les : LineMap) (pc : Nat)
    (hkey : ∀ p ∈ les, p.1 = p.2.Address) :
    (∃ e, nearestLineEntry les pc = .ok e ∧ e ∈ les.map Prod.snd ∧ e.Address ≤ pc ∧
      ∀ e1 ∈ les.map Prod.snd, e1.Address ≤ pc → e1.Address ≤ e.Address) ∨
    (nearestLineEntry les pc = .error (.notFoundInDebugLine pc) ∧
      ∀ e ∈ les.map Prod.snd, pc < e.Address) := by
  unfold nearestLineEntry
  cases hg : goMapGet les pc with
  | some ent =>
    left
    have hm := goMapGet_eq_some les pc ent hg
    have ha : pc = ent.Address := hkey _ hm
    refine ⟨ent, rfl, List.mem_map.2 ⟨_, hm, rfl⟩, by omega, ?_⟩
    intro e1 _ h1
    omega
  | none =>
    simp only
    generalize hes : sortSlice (fun a b => decide (a.Address < b.Address)) (les.map Prod.snd)
      = entries
    have hperm : entries.Perm (les.map Prod.snd) := by rw [← hes]; exact sortSlice_perm _ _
    have hsorted : entries.Pairwise (fun a b => a.Address ≤ b.Address) := by
      rw [← hes]; exact sortSlice_asc (fun x : LineEntry => x.Address) _
    rw [List.pairwise_iff_getElem] at hsorted
    obtain ⟨hle, hlo, hhi⟩ := Search_spec entries.length (addressAfter entries pc)
    generalize hn : Search entries.length (addressAfter entries pc) = n at hle hlo hhi
    -- entries from index n on lie after pc
    have hafter : ∀ j (hj : j < entries.length), n ≤ j → pc < entries[j].Address := by
      intro j hj hnj
      rcases hhi with hhi | hhi
      · omega
      · have hnl : n < entries.length := by omega
        unfold addressAfter at hhi
        rw [List.getElem?_eq_getElem hnl] at hhi
        have h1 : pc < entries[n].Address := by simpa using hhi
        by_cases hjn : j = n
        · subst hjn; exact h1
        · have := hsorted n j hnl hj (by omega)
          omega
    by_cases h0 : n = 0
    · right
      subst h0
      refine ⟨by simp, ?_⟩
      intro e he
      obtain ⟨j, hj, hje⟩ := List.getElem_of_mem (hperm.mem_iff.2 he)
      rw [← hje]
      exact hafter j hj (Nat.zero_le j)
    · left
      have hin : n - 1 < entries.length := by omega
      have hcond : (n : Int) - 1 ≥ 0 ∧ (n : Int) - 1 < (entries.length : Int) := by omega
      refine ⟨entries[n - 1], ?_, hperm.mem_iff.1 (List.getElem_mem hin), ?_, ?_⟩
      · simp only [hcond, and_self, if_true]
        rw [List.getElem?_eq_getElem hin]
      · rcases hlo with hlo | hlo
        · exact absurd hlo h0
        · unfold addressAfter at hlo
          rw [List.getElem?_eq_getElem hin] at hlo
          simpa using hlo
      · intro e1 he1 h1
        obtain ⟨j, hj, hje⟩ := List.getElem_of_mem (hperm.mem_iff.2 he1)
        rw [← hje] at h1 ⊢
        rcases Nat.lt_or_ge j n with hjn | hjn
        · by_cases hjq : j = n - 1
          · subst hjq; exact Nat.le_refl _
          · exact hsorted j (n - 1) hj hin (by omega)
        · have := hafter j hj hjn
          omega

/-- In a map with distinct keys that are the addresses of the entries, an entry is
determined by its address. -/
theorem lineMap_address_inj (les : LineMap) (hkey : ∀ p ∈ les, p.1 = p.2.Address)
    (hnd : (les.map Prod.fst).Nodup) (e1 e2 : LineEntry) (h1 : e1 ∈ les.map Prod.snd)
    (h2 : e2 ∈ les.map Prod.snd) (ha : e1.Address = e2.Address) : e1 = e2 := by
  obtain ⟨p1, hp1, rfl⟩ := List.mem_map.1 h1
  obtain ⟨p2, hp2, rfl⟩ := List.mem_map.1 h2
  have hk : p1.1 = p2.1 := by rw [hkey p1 hp1, hkey p2 hp2]; exact ha
  have := List.inj_on_of_nodup_map hnd hp1 hp2 hk
  rw [this]

/-- Outcome of `GetLineEntryByAddr` once the compile unit and its address map are known. -/
theorem GetLineEntryByAddr_eq (w : World) (path : String) (pc : Nat) (c c1 c2 : Caches)
    (cu : DWARFCompileUnit) (les : LineMap)
    (hcu : GetCompileUnitByAddr w path pc c = (.ok cu, c1))
    (hles : getLineEntries cu c1 = (.ok les, c2)) :
    GetLineEntryByAddr w path pc c = (nearestLineEntry les pc, c2) := by
  unfold GetLineEntryByAddr
  rw [hcu]
  simp only
  rw [hles]

/-- C8.  When the compile unit of `pc` resolves to `cu` and its address map is
`les`, `GetLineEntryByAddr` returns an entry `e` exactly when `e` is the entry
of `les` with the greatest address at or before `pc` (the entry at `pc` itself
when there is one), and it fails with the not-found error exactly when every
entry of `les` lies after `pc`.  The map stored in the table, if there is one,
is taken to be keyed by the addresses of its entries, as `getLineEntries`
builds it. -/
theorem GetLineEntryByAddr_nearest (w : World) (path : String) (pc : Nat) (c c1 c2 : Caches)
    (cu : DWARFCompileUnit) (les : LineMap)
    (hcu : GetCompileUnitByAddr w path pc c = (.ok cu, c1))
    (hles : getLineEntries cu c1 = (.ok les, c2))
    (hcache : ∀ m, c1.lineEntriesCMap (cuKey cu.FilePath cu.Entry.Offset) = some m →
      lineMapOK m) :
    (∀ e, GetLineEntryByAddr w path pc c = (.ok e, c2) ↔
      (e ∈ les.map Prod.snd ∧ e.Address ≤ pc ∧
        ∀ e1 ∈ les.map Prod.snd, e1.Address ≤ pc → e1.Address ≤ e.Address)) ∧
    (GetLineEntryByAddr w path pc c = (.error (.notFoundInDebugLine pc), c2) ↔
      ∀ e ∈ les.map Prod.snd, pc < e.Address) := by
  obtain ⟨hkey, hnd⟩ := getLineEntries_ok cu c1 c2 les hles hcache
  rw [GetLineEntryByAddr_eq w path pc c c1 c2 cu les hcu hles]
  rcases nearestLineEntry_cases les pc hkey with ⟨e0, hok, hmem, hle, hmax⟩ | ⟨herr, hall⟩
  · rw [hok]
    constructor
    · intro e
      constructor
      · intro h
        have : e0 = e := by simpa using h
        subst this
        exact ⟨hmem, hle, hmax⟩
      · rintro ⟨hm, hl, hx⟩
        have ha : e0.Address = e.Address :=
          Nat.le_antisymm (hx e0 hmem hle) (hmax e hm hl)
        rw [lineMap_address_inj les hkey hnd e0 e hmem hm ha]
    · constructor
      · intro h; simp at h
      · intro h
        have := h e0 hmem
        omega
  · rw [herr]
    constructor
    · intro e
      constructor
      · intro h; simp at h
      · rintro ⟨hm, hl, _⟩
        have := hall e hm
        omega
    · constructor
      · intro _; exact hall
      · intro _; rfl

/-! ## Frames -/

theorem length_shiftFuncs : ∀ l : List Frame, (shiftFuncs l).length = l.length
  | [] => rfl
  | [_] => rfl
  | a :: b :: rest => by
    simp only [shiftFuncs, List.length_cons]
    rw [length_shiftFuncs (b :: rest)]
    rfl

theorem map_PC_shiftFuncs : ∀ l : List Frame, (shiftFuncs l).map (fun f => f.PC) = l.map (fun f => f.PC)
  | [] => rfl
  | [_] => rfl
  | a :: b :: rest => by
    simp only [shiftFuncs, List.map_cons]
    rw [map_PC_shiftFuncs (b :: rest)]
    rfl

theorem map_File_shiftFuncs : ∀ l : List Frame, (shiftFuncs l).map (fun f => f.File) = l.map (fun f => f.File)
  | [] => rfl
  | [_] => rfl
  | a :: b :: rest => by
    simp only [shiftFuncs, List.map_cons]
    rw [map_File_shiftFuncs (b :: rest)]
    rfl

theorem map_Line_shiftFuncs : ∀ l : List Frame, (shiftFuncs l).map (fun f => f.Line) = l.map (fun f => f.Line)
  | [] => rfl
  | [_] => rfl
  | a :: b :: rest => by
    simp only [shiftFuncs, List.map_cons]
    rw [map_Line_shiftFuncs (b :: rest)]
    rfl

theorem map_Inline_shiftFuncs : ∀ l : List Frame, (shiftFuncs l).map (fun f => f.Inline) = l.map (fun f => f.Inline)
  | [] => rfl
  | [_] => rfl
  | a :: b :: rest => by
    simp only [shiftFuncs, List.map_cons]
    rw [map_Inline_shiftFuncs (b :: rest)]
    rfl

/-- After the shift and the drop of the last frame, the names are those of the
frames from the second on. -/
theorem map_Func_dropLast_shiftFuncs : ∀ (a : Frame) (l : List Frame),
    (shiftFuncs (a :: l)).dropLast.map (fun f => f.Func) = l.map (fun f => f.Func)
  | _, [] => rfl
  | a, b :: rest => by
    have hne : shiftFuncs (b :: rest) ≠ [] := by
      intro h
      have := congrArg List.length h
      rw [length_shiftFuncs] at this
      simp at this
    simp only [shiftFuncs]
    rw [List.dropLast_cons_of_ne_nil hne]
    simp only [List.map_cons]
    rw [map_Func_dropLast_shiftFuncs b rest]


/-- With at least one frame before the line frame is prepended, the branch
`len(frames) == 1` is not taken and the result is the shifted list without its
last frame. -/
theorem assembleFrames_eq (frames : List Frame) (pc : Nat) (le : LineEntry) (file : LineFile)
    (hfile : le.File = some file) (hne : frames ≠ []) :
    assembleFrames frames pc le =
      .ok (shiftFuncs (lineFrame pc file le ::
        sortSlice (fun a b => decide (a.PC > b.PC)) frames)).dropLast := by
  unfold assembleFrames
  rw [hfile]
  simp only
  have hlen : (sortSlice (fun a b => decide (a.PC > b.PC)) frames).length = frames.length :=
    length_sortSlice _ _
  cases hs : sortSlice (fun a b => decide (a.PC > b.PC)) frames with
  | nil =>
    rw [hs] at hlen
    cases frames with
    | nil => exact absurd rfl hne
    | cons a l => simp at hlen
  | cons x xs =>
    have hsh : shiftFuncs (lineFrame pc file le :: x :: xs) =
        { lineFrame pc file le with Func := x.Func } :: shiftFuncs (x :: xs) := rfl
    show (match shiftFuncs (lineFrame pc file le :: x :: xs) with
      | [f] => Res.ok [{ f with Func := "??" }]
      | l => Res.ok l.dropLast) = _
    rw [hsh]
    cases hy : shiftFuncs (x :: xs) with
    | nil =>
      have := congrArg List.length hy
      rw [length_shiftFuncs] at this
      simp at this
    | cons y ys => rfl


/-- A list sorted in strictly descending order of `PC` is the result of sorting any
of its permutations. -/
theorem sortSlice_desc_unique (xs ys : List Frame) (hperm : xs.Perm ys)
    (hdesc : ys.Pairwise (fun a b => a.PC > b.PC)) :
    sortSlice (fun a b => decide (a.PC > b.PC)) xs = ys := by
  have hp : (sortSlice (fun a b => decide (a.PC > b.PC)) xs).Perm ys :=
    (sortSlice_perm _ xs).trans hperm
  have hne : ys.Pairwise (fun a b => a.PC ≠ b.PC) :=
    hdesc.imp (fun h => by omega)
  have hne1 : (sortSlice (fun a b => decide (a.PC > b.PC)) xs).Pairwise
      (fun a b => a.PC ≠ b.PC) :=
    (List.Perm.pairwise_iff (fun h => Ne.symm h) hp).2 hne
  have hge := sortSlice_desc (fun f : Frame => f.PC) xs
  have hgt : (sortSlice (fun a b => decide (a.PC > b.PC)) xs).Pairwise
      (fun a b => a.PC > b.PC) :=
    (hne1.and hge).imp (fun h => by omega)
  haveI : IsAntisymm Frame (fun a b => a.PC > b.PC) :=
    ⟨fun a b h1 h2 => by omega⟩
  exact List.eq_of_perm_of_sorted hp hgt hdesc

theorem subroutineFrames_perm (rts Ms : List DWARFFunction) (pc : Nat)
    (hperm : Ms.Perm (rts.filter (fun f => containsPC f pc))) :
    (subroutineFrames rts pc).Perm (Ms.map subroutineFrame) := by
  unfold subroutineFrames
  apply List.Perm.map
  exact ((List.reverse_perm rts).filter _).trans hperm.symm

theorem FindAllFramesByAddr_eq (w : World) (path : String) (pc : Nat) (c c1 c2 c3 c4 : Caches)
    (cu : DWARFCompileUnit) (sp : DWARFFunction) (rts : List DWARFFunction) (le : LineEntry)
    (hcu : GetCompileUnitByAddr w path pc c = (.ok cu, c1))
    (hsp : GetSubprogramByAddr cu pc c1 = (.ok (some sp), c2))
    (hrts : cachedSubroutines (spKey path cu.Entry.Offset sp.Offset) sp c2 = (.ok rts, c3))
    (hle : GetLineEntryByAddr w path pc c3 = (.ok le, c4)) :
    FindAllFramesByAddr w path pc c =
      (assembleFrames (subprogramFrame sp :: subroutineFrames rts pc) pc le, c4) := by
  unfold FindAllFramesByAddr
  rw [M.bind_ok _ _ c c1 cu hcu, M.bind_ok _ _ c1 c2 (some sp) hsp]
  simp only
  rw [M.bind_ok _ _ c2 c3 rts hrts, M.bind_ok _ _ c3 c4 le hle]
  rfl

theorem FindAllFramesByAddr_nil_subprogram (w : World) (path : String) (pc : Nat)
    (c c1 c2 : Caches) (cu : DWARFCompileUnit)
    (hcu : GetCompileUnitByAddr w path pc c = (.ok cu, c1))
    (hsp : GetSubprogramByAddr cu pc c1 = (.ok none, c2)) :
    FindAllFramesByAddr w path pc c = (.panic .nilDereference, c2) := by
  unfold FindAllFramesByAddr
  rw [M.bind_ok _ _ c c1 cu hcu, M.bind_ok _ _ c1 c2 none hsp]
  rfl

theorem FindAllFramesByAddr_ok_inv (w : World) (path : String) (pc : Nat) (c c4 : Caches)
    (frames : List Frame) (h : FindAllFramesByAddr w path pc c = (.ok frames, c4)) :
    ∃ cu c1 sp c2 rts c3 le,
      GetCompileUnitByAddr w path pc c = (.ok cu, c1) ∧
      GetSubprogramByAddr cu pc c1 = (.ok (some sp), c2) ∧
      cachedSubroutines (spKey path cu.Entry.Offset sp.Offset) sp c2 = (.ok rts, c3) ∧
      GetLineEntryByAddr w path pc c3 = (.ok le, c4) ∧
      assembleFrames (subprogramFrame sp :: subroutineFrames rts pc) pc le = .ok frames := by
  unfold FindAllFramesByAddr at h
  obtain ⟨cu, c1, hcu, h⟩ := M.bind_ok_inv _ _ _ _ _ h
  obtain ⟨sp, c2, hsp, h⟩ := M.bind_ok_inv _ _ _ _ _ h
  cases sp with
  | none => simp [liftRes] at h
  | some sp =>
    simp only at h
    obtain ⟨rts, c3, hrts, h⟩ := M.bind_ok_inv _ _ _ _ _ h
    obtain ⟨le, c5, hle, h⟩ := M.bind_ok_inv _ _ _ _ _ h
    unfold liftRes at h
    simp only [Prod.mk.injEq] at h
    obtain ⟨h1, h2⟩ := h
    subst h2
    exact ⟨cu, c1, sp, c2, rts, c3, le, hcu, hsp, hrts, hle, h1⟩

/-- Every record `parseSubroutine` builds is flagged inline. -/
theorem parseSubroutine_inline (cu : DWARFCompileUnit) (ent : Entry) (depth : Int)
    (c c1 : Caches) (f : DWARFFunction)
    (h : parseSubroutine cu ent depth c = (.ok (some f), c1)) : f.Inline = true := by
  unfold parseSubroutine at h
  obtain ⟨_, _, _, h⟩ := M.bind_ok_inv _ _ _ _ _ h
  obtain ⟨_, _, _, h⟩ := M.bind_ok_inv _ _ _ _ _ h
  obtain ⟨_, _, _, h⟩ := M.bind_ok_inv _ _ _ _ _ h
  obtain ⟨⟨attrName, decFile⟩, _, _, h⟩ := M.bind_ok_inv _ _ _ _ _ h
  simp only at h
  cases hn : ownNameIfNil attrName ent with
  | none =>
    rw [hn] at h
    have := (M.pure_ok_inv _ _ _ _ h).1
    simp at this
  | some v =>
    rw [hn] at h
    obtain ⟨⟨d1, d2, d3, d4⟩, _, _, h⟩ := M.bind_ok_inv _ _ _ _ _ h
    have := (M.pure_ok_inv _ _ _ _ h).1
    simp only [Option.some.injEq] at this
    rw [← this]

theorem GetSubroutinesBySubprogram_loop_inline (sp : DWARFFunction) :
    ∀ (rest : List Entry) (first : Bool) (depth : Int) (funcs rts : List DWARFFunction)
      (c c1 : Caches),
      GetSubroutinesBySubprogram.loop sp rest first depth funcs c = (.ok rts, c1) →
      (∀ f ∈ funcs, f.Inline = true) → ∀ f ∈ rts, f.Inline = true := by
  intro rest
  induction rest with
  | nil =>
    intro first depth funcs rts c c1 h hf
    unfold GetSubroutinesBySubprogram.loop at h
    obtain ⟨_, _, _, h⟩ := M.bind_ok_inv _ _ _ _ _ h
    have := (M.pure_ok_inv _ _ _ _ h).1
    rw [← this]
    exact hf
  | cons ent rest ih =>
    intro first depth funcs rts c c1 h hf
    unfold GetSubroutinesBySubprogram.loop at h
    split at h
    · split at h
      · exact ih _ _ _ _ _ _ h hf
      · have := (M.pure_ok_inv _ _ _ _ h).1
        rw [← this]
        exact hf
    · split at h
      · cases hv : ent.Val AttrAbstractOrigin with
        | none =>
          rw [hv] at h
          exact ih _ _ _ _ _ _ h hf
        | some origin =>
          rw [hv] at h
          obtain ⟨f, c2, hp, h⟩ := M.bind_ok_inv _ _ _ _ _ h
          cases f with
          | none => exact ih _ _ _ _ _ _ h hf
          | some f =>
            simp only at h
            split at h
            · exact ih _ _ _ _ _ _ h hf
            · refine ih _ _ _ _ _ _ h ?_
              intro g hg
              rcases List.mem_append.1 hg with hg | hg
              · exact hf g hg
              · rw [List.mem_singleton] at hg
                rw [hg]
                exact parseSubroutine_inline _ _ _ _ _ _ hp
      · split at h
        · exact ih _ _ _ _ _ _ h hf
        · exact ih _ _ _ _ _ _ h hf

/-- Every record `GetSubroutinesBySubprogram` returns is flagged inline. -/
theorem GetSubroutinesBySubprogram_inline (sp : DWARFFunction) (c c1 : Caches)
    (rts : List DWARFFunction) (h : GetSubroutinesBySubprogram sp c = (.ok rts, c1)) :
    ∀ f ∈ rts, f.Inline = true := by
  unfold GetSubroutinesBySubprogram at h
  cases hs : sp.DwarfCompileUnit.Dwarf.Seek sp.Offset with
  | none =>
    rw [hs] at h
    simp [liftRes] at h
  | some rest =>
    rw [hs] at h
    exact GetSubroutinesBySubprogram_loop_inline sp _ _ _ _ _ _ _ h
      (fun _ hf => absurd hf (List.not_mem_nil _))

/-- The subroutine list `FindAllFramesByAddr` works with holds records flagged
inline, provided the list stored in the table, if any, does. -/
theorem cachedSubroutines_inline (k : String) (sp : DWARFFunction) (c c1 : Caches)
    (rts : List DWARFFunction) (h : cachedSubroutines k sp c = (.ok rts, c1))
    (hc : ∀ l, c.allSubroutinesCMap k = some l → ∀ f ∈ l, f.Inline = true) :
    ∀ f ∈ rts, f.Inline = true := by
  unfold cachedSubroutines at h
  cases hget : c.allSubroutinesCMap k with
  | some l =>
    rw [hget] at h
    simp only [Prod.mk.injEq, Res.ok.injEq] at h
    rw [← h.1]
    exact hc l hget
  | none =>
    rw [hget] at h
    simp only at h
    rcases hg : GetSubroutinesBySubprogram sp c with ⟨r, c2⟩
    rw [hg] at h
    cases r with
    | error e => simp at h
    | panic p => simp at h
    | ok l =>
      simp only [Prod.mk.injEq, Res.ok.injEq] at h
      rw [← h.1]
      exact GetSubroutinesBySubprogram_inline sp c c2 l hg

/-- The result of the assembly when the subprogram frame sorts last: the line
frame followed by the sorted subroutine frames, each named after its successor,
the last one after the subprogram. -/
theorem assembleFrames_columns (sp : DWARFFunction) (subs : List Frame) (pc : Nat)
    (le : LineEntry) (file : LineFile) (hfile : le.File = some file)
    (hgt : ∀ x ∈ subs, sp.Offset < x.PC) :
    ∃ frames, assembleFrames (subprogramFrame sp :: subs) pc le = .ok frames ∧
      frames.length = subs.length + 1 ∧
      frames.map (fun f => f.PC) =
        pc :: (sortSlice (fun a b => decide (a.PC > b.PC)) subs).map (fun f => f.PC) ∧
      frames.map (fun f => f.File) =
        file.Name :: (sortSlice (fun a b => decide (a.PC > b.PC)) subs).map (fun f => f.File) ∧
      frames.map (fun f => f.Line) =
        le.Line :: (sortSlice (fun a b => decide (a.PC > b.PC)) subs).map (fun f => f.Line) ∧
      frames.map (fun f => f.Inline) =
        false :: (sortSlice (fun a b => decide (a.PC > b.PC)) subs).map (fun f => f.Inline) ∧
      frames.map (fun f => f.Func) =
        (sortSlice (fun a b => decide (a.PC > b.PC)) subs).map (fun f => f.Func) ++ [sp.Name] := by
  have hsort : sortSlice (fun a b => decide (a.PC > b.PC)) (subprogramFrame sp :: subs) =
      sortSlice (fun a b => decide (a.PC > b.PC)) subs ++ [subprogramFrame sp] := by
    apply sortSlice_cons_last
    intro x hx
    have := hgt x hx
    simp only [subprogramFrame, decide_eq_true_eq]
    exact this
  refine ⟨_, assembleFrames_eq _ pc le file hfile (List.cons_ne_nil _ _), ?_⟩
  rw [hsort]
  have hlen := length_sortSlice (fun a b : Frame => decide (a.PC > b.PC)) subs
  generalize sortSlice (fun a b => decide (a.PC > b.PC)) subs = sorted at hlen ⊢
  have hcons : lineFrame pc file le :: (sorted ++ [subprogramFrame sp]) =
      (lineFrame pc file le :: sorted) ++ [subprogramFrame sp] := rfl
  refine ⟨?_, ?_, ?_, ?_, ?_, ?_⟩
  · rw [List.length_dropLast, length_shiftFuncs]
    simp only [List.length_cons, List.length_append, List.length_singleton, List.length_nil]
    omega
  · rw [List.map_dropLast, map_PC_shiftFuncs, hcons, List.map_append, List.map_singleton,
      List.dropLast_concat]
    rfl
  · rw [List.map_dropLast, map_File_shiftFuncs, hcons, List.map_append, List.map_singleton,
      List.dropLast_concat]
    rfl
  · rw [List.map_dropLast, map_Line_shiftFuncs, hcons, List.map_append, List.map_singleton,
      List.dropLast_concat]
    rfl
  · rw [List.map_dropLast, map_Inline_shiftFuncs, hcons, List.map_append, List.map_singleton,
      List.dropLast_concat]
    rfl
  · rw [map_Func_dropLast_shiftFuncs, List.map_append, List.map_singleton]
    rfl

theorem mem_subroutineFrames (rts : List DWARFFunction) (pc : Nat) (x : Frame)
    (hx : x ∈ subroutineFrames rts pc) :
    ∃ f ∈ rts, containsPC f pc = true ∧ x = subroutineFrame f := by
  unfold subroutineFrames at hx
  obtain ⟨f, hf, rfl⟩ := List.mem_map.1 hx
  rw [List.mem_filter, List.mem_reverse] at hf
  exact ⟨f, hf.1, hf.2, rfl⟩

theorem length_subroutineFrames (rts : List DWARFFunction) (pc : Nat) :
    (subroutineFrames rts pc).length = (rts.filter (fun f => containsPC f pc)).length := by
  unfold subroutineFrames
  rw [List.length_map]
  exact ((List.reverse_perm rts).filter _).length_eq

/-- C1.  Let `pc` resolve to the compile unit `cu`, the subprogram `sp` and the
line entry `le` with file `file`, let `rts` be the subroutine list of `sp` that
`FindAllFramesByAddr` works with, and let `Ms` list the members of `rts` having a
range that contains `pc`, in strictly descending entry offset, all offsets
greater than the one of `sp`.  Then `FindAllFramesByAddr` returns `Ms.length + 1`
frames: their `PC`s are `pc` followed by the entry offsets of `Ms`, their files
and lines are those of the line entry followed by the call sites of `Ms`, and
their names are the names of `Ms` followed by the name of `sp`. -/
theorem FindAllFramesByAddr_inline_chain (w : World) (path : String) (pc : Nat)
    (c c1 c2 c3 c4 : Caches) (cu : DWARFCompileUnit) (sp : DWARFFunction)
    (rts : List DWARFFunction) (le : LineEntry) (file : LineFile) (Ms : List DWARFFunction)
    (hcu : GetCompileUnitByAddr w path pc c = (.ok cu, c1))
    (hsp : GetSubprogramByAddr cu pc c1 = (.ok (some sp), c2))
    (hrts : cachedSubroutines (spKey path cu.Entry.Offset sp.Offset) sp c2 = (.ok rts, c3))
    (hle : GetLineEntryByAddr w path pc c3 = (.ok le, c4))
    (hfile : le.File = some file)
    (hperm : Ms.Perm (rts.filter (fun f => containsPC f pc)))
    (hdesc : Ms.Pairwise (fun a b => a.Offset > b.Offset))
    (hgt : ∀ m ∈ Ms, sp.Offset < m.Offset) :
    ∃ frames, FindAllFramesByAddr w path pc c = (.ok frames, c4) ∧
      frames.length = Ms.length + 1 ∧
      frames.map (fun f => f.PC) = pc :: Ms.map (fun m => m.Offset) ∧
      frames.map (fun f => f.File) = file.Name :: Ms.map (fun m => m.CallFile) ∧
      frames.map (fun f => f.Line) = le.Line :: Ms.map (fun m => m.CallLine) ∧
      frames.map (fun f => f.Func) = Ms.map (fun m => m.Name) ++ [sp.Name] := by
  rw [FindAllFramesByAddr_eq w path pc c c1 c2 c3 c4 cu sp rts le hcu hsp hrts hle]
  have hsubs : ∀ x ∈ subroutineFrames rts pc, sp.Offset < x.PC := by
    intro x hx
    obtain ⟨f, hf, hc, rfl⟩ := mem_subroutineFrames rts pc x hx
    exact hgt f (hperm.mem_iff.2 (List.mem_filter.2 ⟨hf, hc⟩))
  obtain ⟨frames, hok, hlen, hPC, hFile, hLine, _, hFunc⟩ :=
    assembleFrames_columns sp (subroutineFrames rts pc) pc le file hfile hsubs
  have hsorted : sortSlice (fun a b => decide (a.PC > b.PC)) (subroutineFrames rts pc) =
      Ms.map subroutineFrame := by
    apply sortSlice_desc_unique _ _ (subroutineFrames_perm rts Ms pc hperm)
    rw [List.pairwise_map]
    exact hdesc
  rw [hsorted] at hPC hFile hLine hFunc
  simp only [List.map_map] at hPC hFile hLine hFunc
  refine ⟨frames, by rw [hok], ?_, hPC, hFile, hLine, hFunc⟩
  rw [hlen, length_subroutineFrames, hperm.length_eq]

/-- C2 (amended).  Under the premises of the inline chain, the `Inline` flags of the
frames `Addr2line` returns are `false` for frame 0, which is built from the line
entry, and `true` for every later frame, the last one included: the flag of a
frame is the one of the inlined subroutine whose entry offset is its `PC`, and
the shift of the names leaves it where it is.  The subroutine list stored in the
table, if there is one, is taken to hold inlined subroutines only. -/
theorem Addr2line_inline_flags (w : World) (path : String) (pc : Nat)
    (c c1 c2 c3 c4 : Caches) (cu : DWARFCompileUnit) (sp : DWARFFunction)
    (rts : List DWARFFunction) (le : LineEntry) (file : LineFile)
    (hcu : GetCompileUnitByAddr w path pc c = (.ok cu, c1))
    (hsp : GetSubprogramByAddr cu pc c1 = (.ok (some sp), c2))
    (hrts : cachedSubroutines (spKey path cu.Entry.Offset sp.Offset) sp c2 = (.ok rts, c3))
    (hle : GetLineEntryByAddr w path pc c3 = (.ok le, c4))
    (hfile : le.File = some file)
    (hcache : ∀ l, c2.allSubroutinesCMap (spKey path cu.Entry.Offset sp.Offset) = some l →
      ∀ f ∈ l, f.Inline = true)
    (hgt : ∀ f ∈ rts, containsPC f pc = true → sp.Offset < f.Offset) :
    ∃ frames, Addr2line w path pc c = (.ok frames, c4) ∧
      frames.map (fun f => f.Inline) =
        false :: List.replicate (rts.filter (fun f => containsPC f pc)).length true := by
  have hinl := cachedSubroutines_inline _ sp c2 c3 rts hrts hcache
  have hsubs : ∀ x ∈ subroutineFrames rts pc, sp.Offset < x.PC := by
    intro x hx
    obtain ⟨f, hf, hc, rfl⟩ := mem_subroutineFrames rts pc x hx
    exact hgt f hf hc
  obtain ⟨frames, hok, _, _, _, _, hInline, _⟩ :=
    assembleFrames_columns sp (subroutineFrames rts pc) pc le file hfile hsubs
  refine ⟨frames, ?_, ?_⟩
  · unfold Addr2line
    rw [FindAllFramesByAddr_eq w path pc c c1 c2 c3 c4 cu sp rts le hcu hsp hrts hle, hok]
  · rw [hInline, ← length_subroutineFrames,
      ← length_sortSlice (fun a b => decide (a.PC > b.PC)) (subroutineFrames rts pc)]
    congr 1
    rw [List.eq_replicate_iff]
    refine ⟨List.length_map _ _, ?_⟩
    intro b hb
    obtain ⟨x, hx, rfl⟩ := List.mem_map.1 hb
    rw [mem_sortSlice] at hx
    obtain ⟨f, hf, _, rfl⟩ := mem_subroutineFrames rts pc x hx
    exact hinl f hf

/-- C4 (amended).  Let `pc` resolve to the compile unit `cu`, and let
`GetSubprogramByAddr` find the subprogram `sp` for it.  Whenever
`FindAllFramesByAddr` succeeds at `pc` with a frame list of length exactly one,
the `Func` of that frame is the name of `sp`.  Nothing is stated about a `pc`
for which no subprogram is found. -/
theorem FindAllFramesByAddr_single_frame (w : World) (path : String) (pc : Nat)
    (c c1 c2 c4 : Caches) (cu : DWARFCompileUnit) (sp : DWARFFunction) (frames : List Frame)
    (hcu : GetCompileUnitByAddr w path pc c = (.ok cu, c1))
    (hsp : GetSubprogramByAddr cu pc c1 = (.ok (some sp), c2))
    (h : FindAllFramesByAddr w path pc c = (.ok frames, c4))
    (hlen : frames.length = 1) :
    frames.map (fun f => f.Func) = [sp.Name] := by
  obtain ⟨cu1, d1, sp1, d2, rts, c3, le, hcu1, hsp1, _, _, hasm⟩ :=
    FindAllFramesByAddr_ok_inv w path pc c c4 frames h
  rw [hcu] at hcu1
  obtain ⟨rfl, rfl⟩ : cu = cu1 ∧ c1 = d1 := by
    simpa using hcu1
  rw [hsp] at hsp1
  obtain ⟨rfl, rfl⟩ : sp = sp1 ∧ c2 = d2 := by
    simpa using hsp1
  cases hfile : le.File with
  | none =>
    unfold assembleFrames at hasm
    rw [hfile] at hasm
    simp at hasm
  | some file =>
    rw [assembleFrames_eq _ pc le file hfile (List.cons_ne_nil _ _)] at hasm
    simp only [Res.ok.injEq] at hasm
    have hlen1 : frames.length = (subroutineFrames rts pc).length + 1 := by
      rw [← hasm, List.length_dropLast, length_shiftFuncs]
      simp only [List.length_cons, length_sortSlice]
      omega
    have hnil : subroutineFrames rts pc = [] := by
      apply List.eq_nil_of_length_eq_zero
      omega
    rw [← hasm, map_Func_dropLast_shiftFuncs, hnil]
    rfl

/-! ## Instances on the example inputs -/

/-- Witness of C1: the inline chain at `pc = 0x1058`. -/
theorem FindAllFramesByAddr_inline_chain_witness :
    ∃ frames c4, FindAllFramesByAddr chainWorld "a.o" 0x1058 Caches.empty = (.ok frames, c4) ∧
      frames.length = 3 ∧
      frames.map (fun f => f.PC) = [0x1058, 0x60, 0x50] ∧
      frames.map (fun f => f.File) = ["b.c", "a.c", "a.c"] ∧
      frames.map (fun f => f.Line) = [42, 20, 10] ∧
      frames.map (fun f => f.Func) = ["inner", "middle", "outer"] := by
  obtain ⟨frames, h⟩ := FindAllFramesByAddr_inline_chain chainWorld "a.o" 0x1058
    Caches.empty _ _ _ _ chainUnit chainOuterFunc [chainMiddleFunc, chainInnerFunc]
    ⟨0x1058, some fileB, 42, 0, false⟩ fileB [chainInnerFunc, chainMiddleFunc]
    rfl rfl rfl rfl rfl (List.Perm.swap _ _ _) (by simp [chainInnerFunc, chainMiddleFunc])
    (by simp [chainInnerFunc, chainMiddleFunc, chainOuterFunc])
  exact ⟨frames, _, h⟩

/-- Counterexample to C2: on the inline chain of scenario 3 the frames are named
`inner`, `middle`, `outer` and their `Inline` flags are `[false, true, true]`,
not `[true, true, false]`. -/
theorem Addr2line_scenario3_flags :
    ∃ frames c4, Addr2line chainWorld "a.o" 0x1058 Caches.empty = (.ok frames, c4) ∧
      frames.map (fun f => f.Func) = ["inner", "middle", "outer"] ∧
      frames.map (fun f => f.Inline) = [false, true, true] ∧
      frames.map (fun f => f.Inline) ≠ [true, true, false] :=
  ⟨_, _, rfl, rfl, rfl, by decide⟩

/-- Witness of C2 (amended): the inline chain at `pc = 0x1058`, from empty tables. -/
theorem Addr2line_inline_flags_witness :
    ∃ frames c4, Addr2line chainWorld "a.o" 0x1058 Caches.empty = (.ok frames, c4) ∧
      frames.map (fun f => f.Inline) = [false, true, true] := by
  obtain ⟨frames, h⟩ := Addr2line_inline_flags chainWorld "a.o" 0x1058
    Caches.empty _ _ _ _ chainUnit chainOuterFunc [chainMiddleFunc, chainInnerFunc]
    ⟨0x1058, some fileB, 42, 0, false⟩ fileB rfl rfl rfl rfl rfl
    (fun l hl => by simp [Caches.empty, GetSubprogramByAddr, GetCompileUnitByAddr] at hl)
    (by simp [chainInnerFunc, chainMiddleFunc, chainOuterFunc])
  exact ⟨frames, _, h⟩

/-- C3 (failing input).  On the inline-chain object, `pc = 0x1150` lies in the
range `[0x1000, 0x1200)` of the compile unit, the line entry at `0x1058` precedes
it, and `GetSubprogramByAddr` finds no subprogram; `FindAllFramesByAddr` then
panics on a nil dereference instead of returning one frame named `??`. -/
theorem FindAllFramesByAddr_no_subprogram_panics :
    (∃ c1 c2, GetCompileUnitByAddr chainWorld "a.o" 0x1150 Caches.empty = (.ok chainUnit, c1) ∧
      (0x1000, 0x1200) ∈ chainUnit.Ranges ∧
      GetSubprogramByAddr chainUnit 0x1150 c1 = (.ok none, c2)) ∧
    (GetLineEntryByAddr chainWorld "a.o" 0x1150 Caches.empty).1 =
      .ok ⟨0x1058, some fileB, 42, 0, false⟩ ∧
    (FindAllFramesByAddr chainWorld "a.o" 0x1150 Caches.empty).1 = .panic .nilDereference :=
  ⟨⟨_, _, rfl, List.mem_singleton.2 rfl, rfl⟩, rfl, rfl⟩

/-- Counterexample to C4: at `pc = 0x1010` of the inline chain, inside `outer` and
outside every inlined subroutine, `FindAllFramesByAddr` succeeds with exactly
one frame, and its `Func` is `outer`, not `??`. -/
theorem FindAllFramesByAddr_single_frame_named :
    (FindAllFramesByAddr chainWorld "a.o" 0x1010 Caches.empty).1 =
      .ok [⟨0x1010, "outer", "a.c", 5, false⟩] ∧
    (⟨0x1010, "outer", "a.c", 5, false⟩ : Frame).Func ≠ "??" :=
  ⟨rfl, by decide⟩

/-- Witness of C4 (amended): at `pc = 0x1010` of the inline chain the subprogram
`outer` is found, the call succeeds with one frame, and the frame is named
`outer`. -/
theorem FindAllFramesByAddr_single_frame_witness :
    (∃ c1 c2, GetCompileUnitByAddr chainWorld "a.o" 0x1010 Caches.empty = (.ok chainUnit, c1) ∧
      GetSubprogramByAddr chainUnit 0x1010 c1 = (.ok (some chainOuterFunc), c2)) ∧
    (FindAllFramesByAddr chainWorld "a.o" 0x1010 Caches.empty).1 =
      .ok [⟨0x1010, "outer", "a.c", 5, false⟩] ∧
    [(⟨0x1010, "outer", "a.c", 5, false⟩ : Frame)].length = 1 ∧
    [(⟨0x1010, "outer", "a.c", 5, false⟩ : Frame)].map (fun f => f.Func) =
      [chainOuterFunc.Name] :=
  ⟨⟨_, _, rfl, rfl⟩, rfl, rfl,
    FindAllFramesByAddr_single_frame chainWorld "a.o" 0x1010 Caches.empty _ _ _ chainUnit
      chainOuterFunc [⟨0x1010, "outer", "a.c", 5, false⟩] rfl rfl rfl rfl⟩

/-- Counterexample to C5: the inline-chain unit covers `[0x1000, 0x1200)` only, and
`GetCompileUnitByAddr` returns it for `pc = 0x2000`. -/
theorem GetCompileUnitByAddr_past_end :
    ∃ cu c1, GetCompileUnitByAddr chainWorld "a.o" 0x2000 Caches.empty = (.ok cu, c1) ∧
      cu.Ranges = [(0x1000, 0x1200)] ∧
      ¬ ∃ r ∈ cu.Ranges, r.1 ≤ 0x2000 ∧ 0x2000 < r.2 :=
  ⟨chainUnit, _, rfl, rfl, by simp [chainUnit]⟩

/-- Witness of C5 (amended): the lookup of `pc = 0x2000` on the inline chain. -/
theorem GetCompileUnitByAddr_start_le_witness :
    ∃ cus, FindAllCompileUnits chainWorld "a.o" Caches.empty =
        (.ok cus, (GetCompileUnitByAddr chainWorld "a.o" 0x2000 Caches.empty).2) ∧
      chainUnit ∈ cus ∧ ∃ r ∈ chainUnit.Ranges, r.1 ≤ 0x2000 :=
  GetCompileUnitByAddr_start_le chainWorld "a.o" 0x2000 Caches.empty _ chainUnit rfl

/-- Witness of C6: `pc = 0x10` lies below the only range of the inline chain. -/
theorem GetCompileUnitByAddr_below_all_witness :
    GetCompileUnitByAddr chainWorld "a.o" 0x10 Caches.empty =
      (.error (.notFindCompileUnit 0x10),
        (FindAllCompileUnits chainWorld "a.o" Caches.empty).2) :=
  GetCompileUnitByAddr_below_all chainWorld "a.o" 0x10 Caches.empty _ [chainUnit] rfl
    (by simp [chainUnit])

/-- Witness of C7: `pc = 0x1058` lies in the range of the inline-chain unit. -/
theorem GetCompileUnitByAddr_disjoint_witness :
    GetCompileUnitByAddr chainWorld "a.o" 0x1058 Caches.empty =
      (.ok chainUnit, (FindAllCompileUnits chainWorld "a.o" Caches.empty).2) :=
  GetCompileUnitByAddr_disjoint chainWorld "a.o" 0x1058 Caches.empty _ [chainUnit] rfl
    (by simp [chainUnit]) (by simp [flattenRanges, chainUnit]) chainUnit
    (List.mem_singleton.2 rfl) (0x1000, 0x1200) (List.mem_singleton.2 rfl) (by decide)

/-- Witness of C8: on the inline chain, `pc = 0x1060` has no row of its own and
gets the row at `0x1058`, and `pc = 0x1000` gets its own row. -/
theorem GetLineEntryByAddr_nearest_witness :
    (GetLineEntryByAddr chainWorld "a.o" 0x1060 Caches.empty).1 =
        .ok ⟨0x1058, some fileB, 42, 0, false⟩ ∧
    ((∀ e, GetLineEntryByAddr chainWorld "a.o" 0x1060 Caches.empty =
          (.ok e, (GetLineEntryByAddr chainWorld "a.o" 0x1060 Caches.empty).2) ↔
        (e ∈ (collectLineEntries chainLines.rows).map Prod.snd ∧ e.Address ≤ 0x1060 ∧
          ∀ e1 ∈ (collectLineEntries chainLines.rows).map Prod.snd,
            e1.Address ≤ 0x1060 → e1.Address ≤ e.Address)) ∧
      (GetLineEntryByAddr chainWorld "a.o" 0x1060 Caches.empty =
          (.error (.notFoundInDebugLine 0x1060),
            (GetLineEntryByAddr chainWorld "a.o" 0x1060 Caches.empty).2) ↔
        ∀ e ∈ (collectLineEntries chainLines.rows).map Prod.snd, 0x1060 < e.Address)) :=
  ⟨rfl, GetLineEntryByAddr_nearest chainWorld "a.o" 0x1060 Caches.empty _ _ chainUnit
    (collectLineEntries chainLines.rows) rfl rfl
    (fun m hm => by simp [Caches.empty, GetCompileUnitByAddr] at hm)⟩

/-! ## File names -/

/-- Outcome of `getFilenameByIndex` once the file table is known. -/
theorem getFilenameByIndex_eq (cu : DWARFCompileUnit) (index : Int) (c c1 : Caches)
    (files : Option (List (Option LineFile))) (h : getLineFiles cu c = (.ok files, c1)) :
    getFilenameByIndex cu index c = (filenameAt files index, c1) := by
  unfold getFilenameByIndex
  rw [h]

/-- C9 (amended).  For every compile unit whose file table was read successfully
and holds at least one slot, `getFilenameByIndex(0)` returns the empty string
and no error.  On a table without slots the call fails: with `files == nil` for
the nil table and with `index (0) >= len(files) (0)` for the empty one, because
the bound is tested before the index is compared with 0. -/
theorem getFilenameByIndex_zero (cu : DWARFCompileUnit) (c c1 : Caches)
    (files : Option (List (Option LineFile))) (h : getLineFiles cu c = (.ok files, c1)) :
    (∀ fs, files = some fs → fs ≠ [] → getFilenameByIndex cu 0 c = (.ok "", c1)) ∧
    (files = some [] → getFilenameByIndex cu 0 c = (.error (.indexGeLen 0 0), c1)) ∧
    (files = none → getFilenameByIndex cu 0 c = (.error .filesNil, c1)) := by
  rw [getFilenameByIndex_eq cu 0 c c1 files h]
  refine ⟨?_, ?_, ?_⟩
  · intro fs hfs hne
    subst hfs
    have hpos : 0 < fs.length := List.length_pos.2 hne
    have hlt : ¬ ((0 : Int) ≥ (fs.length : Int)) := by omega
    simp [filenameAt, hlt]
  · intro hfs
    subst hfs
    simp [filenameAt]
  · intro hfs
    subst hfs
    rfl

/-- Counterexample to C9: the file table of `emptyTableUnit` is read successfully
and is empty, and `getFilenameByIndex(0)` returns an error. -/
theorem getFilenameByIndex_zero_empty_table :
    (getLineFiles emptyTableUnit Caches.empty).1 = .ok (some []) ∧
    (getFilenameByIndex emptyTableUnit 0 Caches.empty).1 = .error (.indexGeLen 0 0) :=
  ⟨rfl, rfl⟩

/-- Witness of C9 (amended): index 0 on the three-slot table of the inline chain. -/
theorem getFilenameByIndex_zero_witness :
    (∀ fs, chainLines.Files = some fs → fs ≠ [] →
      getFilenameByIndex chainUnit 0 Caches.empty =
        (.ok "", (getLineFiles chainUnit Caches.empty).2)) ∧
    (chainLines.Files = some [] →
      getFilenameByIndex chainUnit 0 Caches.empty =
        (.error (.indexGeLen 0 0), (getLineFiles chainUnit Caches.empty).2)) ∧
    (chainLines.Files = none →
      getFilenameByIndex chainUnit 0 Caches.empty =
        (.error .filesNil, (getLineFiles chainUnit Caches.empty).2)) :=
  getFilenameByIndex_zero chainUnit Caches.empty _ chainLines.Files rfl

/-- C10 (failing input).  The first compile unit of `namelessData` has children and
no name; `FindAllCompileUnits` does not skip it but fails on its first child with
`found unexpected tag Subprogram on top level`, and the named unit `b.c` that
follows is not returned. -/
theorem FindAllCompileUnits_nameless_with_children :
    (FindAllCompileUnits namelessWorld "a.o" Caches.empty).1 =
      .error (.unexpectedTopLevelTag TagSubprogram) :=
  rfl

/-! ## Target decoders -/

theorem signExtend32_mod (v : Nat) (x : Nat) :
    (x + signExtend32 v) % 2 ^ 64 = (((x : Int) + int32Value v) % 2 ^ 64).toNat := by
  unfold signExtend32 int32Value
  norm_num
  split <;> omega

theorem uint32LE_lt (b0 b1 b2 b3 : Byte) :
    b0.val + b1.val * 2 ^ 8 + b2.val * 2 ^ 16 + b3.val * 2 ^ 24 < 2 ^ 32 := by
  have h0 := b0.isLt
  have h1 := b1.isLt
  have h2 := b2.isLt
  have h3 := b3.isLt
  norm_num
  omega

/-- C19.  For every `pc` and every instruction of at least five bytes, the x86-64
target decoder returns `(pc + s + 5) mod 2^64`, where `s` is the little-endian
32-bit value of bytes 1 to 4 read as a signed number. -/
theorem x86Target_value (b0 b1 b2 b3 b4 : Byte) (rest : List Byte) (pc : Nat) (opcode : Byte) :
    archX86.callTarget (b0 :: b1 :: b2 :: b3 :: b4 :: rest) pc opcode =
      .ok ((((pc : Int) +
        int32Value (b1.val + b2.val * 2 ^ 8 + b3.val * 2 ^ 16 + b4.val * 2 ^ 24) + 5)
          % 2 ^ 64).toNat) := by
  have h := signExtend32_mod (b1.val + b2.val * 2 ^ 8 + b3.val * 2 ^ 16 + b4.val * 2 ^ 24)
    (pc + 5)
  have h5 : uint64OfInt 5 = 5 := by decide
  simp only [Arch.callTarget, archX86, x86Target, uint32LE, h5, Res.ok.injEq]
  have e1 : pc + signExtend32 (b1.val + b2.val * 2 ^ 8 + b3.val * 2 ^ 16 + b4.val * 2 ^ 24) + 5
      = pc + 5 + signExtend32 (b1.val + b2.val * 2 ^ 8 + b3.val * 2 ^ 16 + b4.val * 2 ^ 24) := by
    omega
  rw [e1, h]
  congr 2
  push_cast
  ring

theorem low24_mask (v : Nat) : v &&& ((1 <<< 24) - 1) = v % 2 ^ 24 := by
  have h : (1 <<< 24 : Nat) = 2 ^ 24 := by rw [Nat.shiftLeft_eq, Nat.one_mul]
  rw [h]
  exact Nat.and_pow_two_sub_one_eq_mod v 24

theorem high40_fill (x : Nat) (hx : x < 2 ^ 24) :
    x ||| 0xffffffffff000000 = x + (2 ^ 64 - 2 ^ 24) := by
  have h : (0xffffffffff000000 : Nat) = 2 ^ 24 * (2 ^ 40 - 1) := by norm_num
  rw [Nat.lor_comm, h, ← Nat.mul_add_lt_is_or hx]
  norm_num
  omega

/-- C20.  For every `pc` and every four-byte AArch64 instruction, the target
decoder returns `(pc + 4*imm) mod 2^64`, where `imm` is the low 24 bits of the
little-endian 32-bit word: as they are when the opcode argument is `0x94`, and
with all bits above bit 23 set when it is `0x97`, which is the signed number
`low24 - 2^24`. -/
theorem aarch64Target_value (b0 b1 b2 b3 : Byte) (pc : Nat) :
    archAArch64.callTarget [b0, b1, b2, b3] pc 0x94 =
      .ok ((pc + 4 * ((b0.val + b1.val * 2 ^ 8 + b2.val * 2 ^ 16 + b3.val * 2 ^ 24) % 2 ^ 24))
        % 2 ^ 64) ∧
    archAArch64.callTarget [b0, b1, b2, b3] pc 0x97 =
      .ok ((pc + 4 * ((b0.val + b1.val * 2 ^ 8 + b2.val * 2 ^ 16 + b3.val * 2 ^ 24) % 2 ^ 24
        + (2 ^ 64 - 2 ^ 24))) % 2 ^ 64) ∧
    (pc + 4 * ((b0.val + b1.val * 2 ^ 8 + b2.val * 2 ^ 16 + b3.val * 2 ^ 24) % 2 ^ 24
        + (2 ^ 64 - 2 ^ 24))) % 2 ^ 64 =
      (((pc : Int) + 4 * ((((b0.val + b1.val * 2 ^ 8 + b2.val * 2 ^ 16 + b3.val * 2 ^ 24)
        % 2 ^ 24 : Nat) : Int) - 2 ^ 24)) % 2 ^ 64).toNat := by
  generalize hv : b0.val + b1.val * 2 ^ 8 + b2.val * 2 ^ 16 + b3.val * 2 ^ 24 = v
  have hlt : v % 2 ^ 24 < 2 ^ 24 := Nat.mod_lt _ (by norm_num)
  have h94 : ¬ ((0x94 : Byte) = (0x97 : Byte)) := by decide
  refine ⟨?_, ?_, ?_⟩
  · simp only [Arch.callTarget, archAArch64, aarch64Target, uint32LE, hv, low24_mask, h94,
      if_false]
  · simp only [Arch.callTarget, archAArch64, aarch64Target, uint32LE, hv, low24_mask,
      if_true, high40_fill _ hlt]
  · generalize v % 2 ^ 24 = x at hlt
    norm_num at hlt ⊢
    omega

/-! ## The listings of compile units and functions -/

/-- C11.  Every compile unit in the list `FindAllCompileUnits` returns has at least
one PC range, and the list is in ascending order of root-entry offset; the list
is the one stored under `path`.  The list found in the table, if there is one,
is taken to have been stored by an earlier call, that is, to have these two
properties. -/
theorem FindAllCompileUnits_ranges_sorted (w : World) (path : String) (c c1 : Caches)
    (cus : List DWARFCompileUnit) (h : FindAllCompileUnits w path c = (.ok cus, c1))
    (hcache : ∀ l, c.compileUnitsCMap path = some l →
      (∀ cu ∈ l, cu.Ranges ≠ []) ∧ l.Pairwise (fun a b => a.Entry.Offset ≤ b.Entry.Offset)) :
    (∀ cu ∈ cus, cu.Ranges ≠ []) ∧
      cus.Pairwise (fun a b => a.Entry.Offset ≤ b.Entry.Offset) ∧
      c1.compileUnitsCMap path = some cus := by
  unfold FindAllCompileUnits at h
  cases hget : c.compileUnitsCMap path with
  | some l =>
    rw [hget] at h
    simp only [Prod.mk.injEq, Res.ok.injEq] at h
    obtain ⟨h1, h2⟩ := h
    subst h1
    subst h2
    exact ⟨(hcache l hget).1, (hcache l hget).2, hget⟩
  | none =>
    rw [hget] at h
    simp only at h
    rcases hd : DWARF w path c with ⟨r, c2⟩
    rw [hd] at h
    cases r with
    | error e => simp at h
    | panic p => simp at h
    | ok di =>
      simp only at h
      cases hl : FindAllCompileUnits.loop path di di.entries 0 [] with
      | error e => rw [hl] at h; simp at h
      | panic p => rw [hl] at h; simp at h
      | ok all =>
        rw [hl] at h
        simp only [Prod.mk.injEq, Res.ok.injEq] at h
        obtain ⟨h1, h2⟩ := h
        subst h1
        subst h2
        refine ⟨?_, sortSlice_asc (fun cu : DWARFCompileUnit => cu.Entry.Offset) _, ?_⟩
        · intro cu hcu
          rw [mem_sortSlice, List.mem_filter] at hcu
          intro hnil
          have := hcu.2
          rw [hnil] at this
          simp at this
        · simp [cmapSet]

theorem mem_dropZeroRange (funcs : List DWARFFunction) (f : DWARFFunction)
    (h : f ∈ dropZeroRange funcs) : f ∈ funcs ∧ f.Ranges ≠ [] := by
  unfold dropZeroRange at h
  rw [List.mem_filter] at h
  refine ⟨h.1, ?_⟩
  intro hnil
  have := h.2
  rw [hnil] at this
  simp at this

/-- Every record `findAllFuncs` returns has a range. -/
theorem findAllFuncs_ranges (cu : DWARFCompileUnit) (c c1 : Caches) (funcs : List DWARFFunction)
    (h : findAllFuncs cu c = (.ok funcs, c1)) : ∀ f ∈ funcs, f.Ranges ≠ [] := by
  unfold findAllFuncs at h
  cases hs : cu.Dwarf.Seek cu.Entry.Offset with
  | none =>
    rw [hs] at h
    simp [liftRes] at h
  | some rest =>
    rw [hs] at h
    obtain ⟨all, c2, _, h⟩ := M.bind_ok_inv _ _ _ _ _ h
    have := (M.pure_ok_inv _ _ _ _ h).1
    rw [← this]
    intro f hf
    exact (mem_dropZeroRange all f hf).2

/-- Every result a worker sends holds records with a range only. -/
theorem runWorkers_ranges :
    ∀ (cus : List DWARFCompileUnit) (c c1 : Caches) (results : List funcResult),
      runWorkers cus c = (.ok results, c1) →
      ∀ res ∈ results, ∀ f ∈ res.funcs, f.Ranges ≠ [] := by
  intro cus
  induction cus with
  | nil =>
    intro c c1 results h
    have := (M.pure_ok_inv _ _ _ _ h).1
    rw [← this]
    intro res hres
    exact absurd hres (List.not_mem_nil _)
  | cons cu rest ih =>
    intro c c1 results h
    unfold runWorkers at h
    rcases hf : findAllFuncs cu c with ⟨r, c2⟩
    rw [hf] at h
    cases r with
    | panic p => simp at h
    | error e =>
      simp only at h
      rcases hr : runWorkers rest c2 with ⟨r2, c3⟩
      rw [hr] at h
      cases r2 with
      | error e2 => simp at h
      | panic p => simp at h
      | ok rs =>
        simp only [Prod.mk.injEq, Res.ok.injEq] at h
        rw [← h.1]
        intro res hres
        rcases List.mem_cons.1 hres with hres | hres
        · rw [hres]
          intro f hf2
          exact absurd hf2 (List.not_mem_nil _)
        · exact ih c2 c3 rs hr res hres
    | ok funcs =>
      simp only at h
      rcases hr : runWorkers rest c2 with ⟨r2, c3⟩
      rw [hr] at h
      cases r2 with
      | error e2 => simp at h
      | panic p => simp at h
      | ok rs =>
        simp only [Prod.mk.injEq, Res.ok.injEq] at h
        rw [← h.1]
        intro res hres
        rcases List.mem_cons.1 hres with hres | hres
        · rw [hres]
          exact findAllFuncs_ranges cu c c2 funcs hf
        · exact ih c2 c3 rs hr res hres

/-- The receiving loop returns the records it started with and those of the
results it received. -/
theorem receiveLoop_mem (path : String) :
    ∀ (pairs : List (DWARFCompileUnit × funcResult)) (acc funcs : List DWARFFunction)
      (c c1 : Caches), receiveLoop path pairs acc c = (.ok funcs, c1) →
      ∀ f ∈ funcs, f ∈ acc ∨ ∃ p ∈ pairs, f ∈ p.2.funcs := by
  intro pairs
  induction pairs with
  | nil =>
    intro acc funcs c c1 h f hf
    have := (M.pure_ok_inv _ _ _ _ h).1
    rw [← this] at hf
    exact Or.inl hf
  | cons p rest ih =>
    intro acc funcs c c1 h f hf
    obtain ⟨cu, res⟩ := p
    unfold receiveLoop at h
    cases he : res.err with
    | some e =>
      rw [he] at h
      simp [liftRes] at h
    | none =>
      rw [he] at h
      simp only at h
      rcases ih _ _ _ _ h f hf with h1 | ⟨q, hq, hfq⟩
      · rcases List.mem_append.1 h1 with h2 | h2
        · exact Or.inl h2
        · exact Or.inr ⟨(cu, res), List.mem_cons_self _ _, h2⟩
      · exact Or.inr ⟨q, List.mem_cons_of_mem _ hq, hfq⟩

/-- C12.  For every schedule `order` of the workers, every record in the list
`FindAllFuncs` returns has a non-empty range list; a subprogram entry without a
PC range therefore has no record in it.  The list found in the table under
`path`, if there is one, is taken to hold records with a range, as every list
the package stores in that table does. -/
theorem FindAllFuncs_ranges (w : World) (path : String) (order : List Nat) (c c1 : Caches)
    (funcs : List DWARFFunction) (h : FindAllFuncs w path order c = (.ok funcs, c1))
    (hcache : ∀ l, c.allSubroutinesCMap path = some l → ∀ f ∈ l, f.Ranges ≠ []) :
    ∀ f ∈ funcs, f.Ranges ≠ [] := by
  unfold FindAllFuncs at h
  cases hget : c.allSubroutinesCMap path with
  | some l =>
    rw [hget] at h
    simp only [Prod.mk.injEq, Res.ok.injEq] at h
    rw [← h.1]
    exact hcache l hget
  | none =>
    rw [hget] at h
    simp only at h
    rcases hcu : FindAllCompileUnits w path c with ⟨r, c2⟩
    rw [hcu] at h
    cases r with
    | error e => simp at h
    | panic p => simp at h
    | ok cus =>
      simp only at h
      rcases hw : runWorkers (delivered cus order) c2 with ⟨r2, c3⟩
      rw [hw] at h
      cases r2 with
      | error e => simp at h
      | panic p => simp at h
      | ok results =>
        simp only at h
        rcases hr : receiveLoop path (cus.zip results) [] c3 with ⟨r3, c4⟩
        rw [hr] at h
        cases r3 with
        | error e => simp at h
        | panic p => simp at h
        | ok l =>
          simp only [Prod.mk.injEq, Res.ok.injEq] at h
          rw [← h.1]
          intro f hf
          rcases receiveLoop_mem path _ _ _ _ _ hr f hf with h1 | ⟨q, hq, hfq⟩
          · exact absurd h1 (List.not_mem_nil _)
          · obtain ⟨qc, qr⟩ := q
            exact runWorkers_ranges _ _ _ _ hw qr (List.of_mem_zip hq).2 f hfq

/-! ## Instances on the two-unit object and the linked object -/

/-- Witness of C11: the two-unit object, from empty tables. -/
theorem FindAllCompileUnits_ranges_sorted_witness :
    (∀ cu ∈ [unitA, unitB], cu.Ranges ≠ []) ∧
      [unitA, unitB].Pairwise (fun a b => a.Entry.Offset ≤ b.Entry.Offset) ∧
      (FindAllCompileUnits twoUnitWorld "a.o" Caches.empty).2.compileUnitsCMap "a.o" =
        some [unitA, unitB] :=
  FindAllCompileUnits_ranges_sorted twoUnitWorld "a.o" Caches.empty _ [unitA, unitB] rfl
    (fun l hl => by simp [Caches.empty] at hl)

/-- Witness of C12: the two-unit object under the schedule in which the worker of
`b.c` delivers first. -/
theorem FindAllFuncs_ranges_witness :
    (FindAllFuncs twoUnitWorld "a.o" [1, 0] Caches.empty).1 = .ok [gbFunc, faFunc] ∧
      (∀ f ∈ [gbFunc, faFunc], f.Ranges ≠ []) :=
  ⟨rfl, FindAllFuncs_ranges twoUnitWorld "a.o" [1, 0] Caches.empty _ [gbFunc, faFunc] rfl
    (fun l hl => by simp [Caches.empty] at hl)⟩

/-- C13 (failing input).  On the two-unit object the compile units are `a.c`, `b.c`
in ascending offset, with function lists `[fa]` and `[gb]`.  When the worker of
`b.c` delivers first, `FindAllFuncs` returns `[gb, fa]`; when the worker of `a.c`
delivers first it returns `[fa, gb]`.  The two runs differ, and the first is not
the concatenation in ascending unit offset. -/
theorem FindAllFuncs_delivery_order :
    (FindAllCompileUnits twoUnitWorld "a.o" Caches.empty).1 = .ok [unitA, unitB] ∧
    (findAllFuncs unitA Caches.empty).1 = .ok [faFunc] ∧
    (findAllFuncs unitB Caches.empty).1 = .ok [gbFunc] ∧
    (FindAllFuncs twoUnitWorld "a.o" [1, 0] Caches.empty).1 = .ok [gbFunc, faFunc] ∧
    (FindAllFuncs twoUnitWorld "a.o" [0, 1] Caches.empty).1 = .ok [faFunc, gbFunc] ∧
    [gbFunc, faFunc].map (fun f => f.Name) ≠ ([faFunc] ++ [gbFunc]).map (fun f => f.Name) :=
  ⟨rfl, rfl, rfl, rfl, rfl, by decide⟩

/-- C14 (failing input).  On the two-unit object, `FindAllFuncsInCUByAddr` at
`pc = 0x1000` returns `[fa]`, the list of the unit `a.c` at offset 11, and stores
it under `a.o-11`.  A call of `FindAllFuncs` in which the worker of `b.c`
delivers first then stores `[gb]` under the same key, and the next
`FindAllFuncsInCUByAddr` at `pc = 0x1000` returns `[gb]`. -/
theorem FindAllFuncs_overwrites_unit_cache :
    (FindAllFuncsInCUByAddr twoUnitWorld "a.o" 0x1000 Caches.empty).1 = .ok [faFunc] ∧
    (FindAllFuncsInCUByAddr twoUnitWorld "a.o" 0x1000 Caches.empty).2.allSubroutinesCMap
      (cuKey "a.o" 11) = some [faFunc] ∧
    (FindAllFuncs twoUnitWorld "a.o" [1, 0]
      (FindAllFuncsInCUByAddr twoUnitWorld "a.o" 0x1000 Caches.empty).2).2.allSubroutinesCMap
        (cuKey "a.o" 11) = some [gbFunc] ∧
    (FindAllFuncsInCUByAddr twoUnitWorld "a.o" 0x1000
      (FindAllFuncs twoUnitWorld "a.o" [1, 0]
        (FindAllFuncsInCUByAddr twoUnitWorld "a.o" 0x1000 Caches.empty).2).2).1 =
      .ok [gbFunc] ∧
    [faFunc].map (fun f => f.Name) ≠ [gbFunc].map (fun f => f.Name) :=
  ⟨rfl, rfl, rfl, rfl, by decide⟩

/-- An inlined-subroutine entry without `DW_AT_call_file` makes `parseSubroutine`
panic on the assertion `.(int64)`, whatever the tables hold. -/
theorem parseSubroutine_no_call_file (cu : DWARFCompileUnit) (ent : Entry) (depth : Int)
    (c : Caches) (h : ent.Val AttrCallFile = none) :
    parseSubroutine cu ent depth c = (.panic .typeAssertion, c) := by
  unfold parseSubroutine
  rw [h]
  rfl

/-- C17 (failing input).  For the inlined subroutine `middle` of the inline chain
without `DW_AT_call_file`, and likewise without `DW_AT_call_line`,
`parseSubroutine` does not return an error: it panics on the unchecked type
assertion, and so does the enclosing `FindAllFramesByAddr`. -/
theorem parseSubroutine_missing_call_site_panics :
    parseSubroutine chainUnit middleNoCallFile 1 Caches.empty =
      (.panic .typeAssertion, Caches.empty) ∧
    (parseSubroutine chainUnit middleNoCallLine 1 Caches.empty).1 = .panic .typeAssertion ∧
    (FindAllFramesByAddr (chainWorldWith middleNoCallFile) "a.o" 0x1058 Caches.empty).1 =
      .panic .typeAssertion ∧
    (FindAllFramesByAddr (chainWorldWith middleNoCallLine) "a.o" 0x1058 Caches.empty).1 =
      .panic .typeAssertion :=
  ⟨rfl, rfl, rfl, rfl⟩

set_option maxRecDepth 100000 in
/-- Counterexample to C18: with `__sanitizer_cov_trace_pc` at `0x4010A0` and the bytes
`E8 9A FF FF FF` at `0x40100B`, the decoder yields `0x40100B - 0x66 + 5 =
0x400FAA`, not `0x4010A0`, and `FindAllCoverPoints` returns two empty buckets. -/
theorem FindAllCoverPoints_scenario1_as_specified :
    FindAllCoverPoints (linkedWorld callAsSpecified) "a.out" = .ok ([], []) ∧
    archX86.callTarget callAsSpecified 0x40100B 0xE8 = .ok 0x400FAA ∧
    (0x400FAA : Nat) ≠ 0x4010A0 :=
  ⟨by rfl, by rfl, by decide⟩

set_option maxRecDepth 100000 in
/-- C18 (amended).  With `__sanitizer_cov_trace_pc` at `0x4010A0` inside `.text` and
the instruction `E8 90 00 00 00` at `0x40100B` (displacement `0x90`),
`FindAllCoverPoints` returns bucket 0 = `[0x40100B]` and bucket 1 = `[]`: the
x86-64 decoder maps these bytes at that pc to `0x4010A0`. -/
theorem FindAllCoverPoints_scenario1 :
    FindAllCoverPoints (linkedWorld callToTracePC) "a.out" = .ok ([0x40100B], []) ∧
    archX86.callTarget callToTracePC 0x40100B 0xE8 = .ok 0x4010A0 :=
  ⟨by rfl, by rfl⟩

/-! ## What the parsers return -/

theorem liftRes_ok_inv {α : Type} (r : Res α) (a : α) (c c1 : Caches)
    (h : liftRes r c = (.ok a, c1)) : r = .ok a ∧ c = c1 := by
  unfold liftRes at h
  simp only [Prod.mk.injEq] at h
  exact h

theorem assertOffset_ok_inv (v : Option Value) (off : Nat) (h : assertOffset v = .ok off) :
    v = some (.offset off) := by
  unfold assertOffset at h
  split at h
  · simp only [Res.ok.injEq] at h
    rw [h]
  · simp at h

theorem assertInt64_ok_inv (v : Option Value) (i : Int) (h : assertInt64 v = .ok i) :
    v = some (.int64 i) := by
  unfold assertInt64 at h
  split at h
  · simp only [Res.ok.injEq] at h
    rw [h]
  · simp at h

theorem assertString_ok_inv (v : Option Value) (s : String) (h : assertString v = .ok s) :
    v = some (.str s) := by
  unfold assertString at h
  split at h
  · simp only [Res.ok.injEq] at h
    rw [h]
  · simp at h

/-- The name the origin block leaves, completed by the concrete entry's own, is
the resolved name of the entry. -/
theorem resolveOrigin_name (cu : DWARFCompileUnit) (ent : Entry) (c c1 : Caches)
    (attrName : Option Value) (decFile : String)
    (h : resolveOrigin cu ent c = (.ok (attrName, decFile), c1)) :
    ownNameIfNil attrName ent = resolvedName cu ent := by
  unfold resolveOrigin at h
  unfold resolvedName originEntry
  cases ho : ent.Val AttrAbstractOrigin with
  | none =>
    rw [ho] at h
    have := (M.pure_ok_inv _ _ _ _ h).1
    simp only [Prod.mk.injEq] at this
    rw [← this.1]
    unfold ownNameIfNil
    cases ent.Val AttrName <;> rfl
  | some origin =>
    rw [ho] at h
    simp only at h
    obtain ⟨off, ca, h1, h⟩ := M.bind_ok_inv _ _ _ _ _ h
    obtain ⟨ent1, cb, h2, h⟩ := M.bind_ok_inv _ _ _ _ _ h
    have hoff := assertOffset_ok_inv _ _ (liftRes_ok_inv _ _ _ _ h1).1
    have hent := (liftRes_ok_inv _ _ _ _ h2).1
    simp only [Option.some.injEq] at hoff
    subst hoff
    simp only [hent]
    cases ent1 with
    | none => simp [liftRes] at h
    | some e1 =>
      simp only at h
      obtain ⟨index, cc, _, h⟩ := M.bind_ok_inv _ _ _ _ _ h
      obtain ⟨df, cd, _, h⟩ := M.bind_ok_inv _ _ _ _ _ h
      have := (M.pure_ok_inv _ _ _ _ h).1
      simp only [Prod.mk.injEq] at this
      rw [← this.1]

/-- The ranges and the name `declAndRanges` returns. -/
theorem declAndRanges_ok (cu : DWARFCompileUnit) (ent : Entry) (v : Value) (decFile : String)
    (c c1 : Caches) (d1 : String) (dl : Int) (rs : List (Nat × Nat)) (nm : String)
    (h : declAndRanges cu ent v decFile c = (.ok (d1, dl, rs, nm), c1)) :
    cu.Dwarf.Ranges ent = .ok rs ∧ v = .str nm := by
  unfold declAndRanges at h
  have key : ∀ (d : String) (ca : Caches),
      ((match ent.Val AttrDeclLine with
        | none => (do
          let y ← (pure 0 : M Int)
          (fun decLine => do
            let ranges ← liftRes (cu.Dwarf.Ranges ent)
            let name ← liftRes (assertString (some v))
            pure (d, decLine, ranges, name)) y)
        | some v1 => (do
          let y ← liftRes (assertInt64 (some v1))
          (fun decLine => do
            let ranges ← liftRes (cu.Dwarf.Ranges ent)
            let name ← liftRes (assertString (some v))
            pure (d, decLine, ranges, name)) y)) ca = (Res.ok (d1, dl, rs, nm), c1)) →
      cu.Dwarf.Ranges ent = .ok rs ∧ v = .str nm := by
    intro d ca hk
    have fin : ∀ (y : Int) (cb : Caches),
        ((do
          let ranges ← liftRes (cu.Dwarf.Ranges ent)
          let name ← liftRes (assertString (some v))
          pure (d, y, ranges, name) : M (String × Int × List (Nat × Nat) × String)) cb
            = (Res.ok (d1, dl, rs, nm), c1)) →
        cu.Dwarf.Ranges ent = .ok rs ∧ v = .str nm := by
      intro y cb hf
      obtain ⟨x3, cc, h3, hf⟩ := M.bind_ok_inv _ _ _ _ _ hf
      obtain ⟨x4, cd, h4, hf⟩ := M.bind_ok_inv _ _ _ _ _ hf
      have := (M.pure_ok_inv _ _ _ _ hf).1
      simp only [Prod.mk.injEq] at this
      obtain ⟨_, _, e3, e4⟩ := this
      subst e3
      subst e4
      have hs := assertString_ok_inv _ _ (liftRes_ok_inv _ _ _ _ h4).1
      simp only [Option.some.injEq] at hs
      exact ⟨(liftRes_ok_inv _ _ _ _ h3).1, hs⟩
    cases hdl : ent.Val AttrDeclLine with
    | none =>
      rw [hdl] at hk
      obtain ⟨y, cb, _, hk⟩ := M.bind_ok_inv _ _ _ _ _ hk
      exact fin y cb hk
    | some v1 =>
      rw [hdl] at hk
      obtain ⟨y, cb, _, hk⟩ := M.bind_ok_inv _ _ _ _ _ hk
      exact fin y cb hk
  split at h
  · obtain ⟨index, ca, _, h⟩ := M.bind_ok_inv _ _ _ _ _ h
    obtain ⟨y, cb, _, h⟩ := M.bind_ok_inv _ _ _ _ _ h
    exact key y cb h
  · obtain ⟨y, cb, _, h⟩ := M.bind_ok_inv _ _ _ _ _ h
    exact key y cb h

/-- What `parseSubprogram` returns when it returns: no record exactly when no name
is reachable, and otherwise a record with the resolved name, the ranges of the
entry, its offset and the depth handed in. -/
theorem parseSubprogram_ok (cu : DWARFCompileUnit) (ent : Entry) (depth : Int)
    (c c1 : Caches) (r : Option DWARFFunction)
    (h : parseSubprogram cu ent depth c = (.ok r, c1)) :
    (r = none → resolvedName cu ent = none) ∧
    (∀ f, r = some f → resolvedName cu ent = some (.str f.Name) ∧
      cu.Dwarf.Ranges ent = .ok f.Ranges ∧ f.Offset = ent.Offset ∧ f.Depth = depth ∧
      f.Typ = TagSubprogram ∧ f.Inline = (ent.Val AttrInline).isSome) := by
  unfold parseSubprogram at h
  obtain ⟨⟨attrName, decFile⟩, ca, hro, h⟩ := M.bind_ok_inv _ _ _ _ _ h
  have hname := resolveOrigin_name cu ent c ca attrName decFile hro
  simp only at h
  cases hn : ownNameIfNil attrName ent with
  | none =>
    rw [hn] at h
    have := (M.pure_ok_inv _ _ _ _ h).1
    refine ⟨fun _ => by rw [← hname, hn], ?_⟩
    intro f hf
    rw [hf] at this
    simp at this
  | some v =>
    rw [hn] at h
    obtain ⟨⟨d1, dl, rs, nm⟩, cb, hd, h⟩ := M.bind_ok_inv _ _ _ _ _ h
    obtain ⟨hr, hv⟩ := declAndRanges_ok cu ent v decFile ca cb d1 dl rs nm hd
    have := (M.pure_ok_inv _ _ _ _ h).1
    refine ⟨?_, ?_⟩
    · intro hnone
      rw [hnone] at this
      simp at this
    · intro f hf
      rw [hf] at this
      simp only [Option.some.injEq] at this
      rw [← this]
      refine ⟨?_, hr, rfl, rfl, rfl, rfl⟩
      rw [← hname, hn, hv]

/-- What `parseSubroutine` returns when it returns. -/
theorem parseSubroutine_ok (cu : DWARFCompileUnit) (ent : Entry) (depth : Int)
    (c c1 : Caches) (r : Option DWARFFunction)
    (h : parseSubroutine cu ent depth c = (.ok r, c1)) :
    (r = none → resolvedName cu ent = none) ∧
    (∀ f, r = some f → resolvedName cu ent = some (.str f.Name) ∧
      cu.Dwarf.Ranges ent = .ok f.Ranges ∧ f.Offset = ent.Offset ∧ f.Depth = depth ∧
      f.Typ = TagInlinedSubroutine ∧ ent.Val AttrCallLine = some (.int64 f.CallLine)) := by
  unfold parseSubroutine at h
  obtain ⟨idx, c2, _, h⟩ := M.bind_ok_inv _ _ _ _ _ h
  obtain ⟨callFile, c3, _, h⟩ := M.bind_ok_inv _ _ _ _ _ h
  obtain ⟨callLine, c4, hcl, h⟩ := M.bind_ok_inv _ _ _ _ _ h
  obtain ⟨⟨attrName, decFile⟩, ca, hro, h⟩ := M.bind_ok_inv _ _ _ _ _ h
  have hname := resolveOrigin_name cu ent c4 ca attrName decFile hro
  have hline : ent.Val AttrCallLine = some (.int64 callLine) :=
    assertInt64_ok_inv _ _ (liftRes_ok_inv _ _ _ _ hcl).1
  simp only at h
  cases hn : ownNameIfNil attrName ent with
  | none =>
    rw [hn] at h
    have := (M.pure_ok_inv _ _ _ _ h).1
    refine ⟨fun _ => by rw [← hname, hn], ?_⟩
    intro f hf
    rw [hf] at this
    simp at this
  | some v =>
    rw [hn] at h
    obtain ⟨⟨d1, dl, rs, nm⟩, cb, hd, h⟩ := M.bind_ok_inv _ _ _ _ _ h
    obtain ⟨hr, hv⟩ := declAndRanges_ok cu ent v decFile ca cb d1 dl rs nm hd
    have := (M.pure_ok_inv _ _ _ _ h).1
    refine ⟨?_, ?_⟩
    · intro hnone
      rw [hnone] at this
      simp at this
    · intro f hf
      rw [hf] at this
      simp only [Option.some.injEq] at this
      rw [← this]
      refine ⟨?_, hr, rfl, rfl, rfl, hline⟩
      rw [← hname, hn, hv]

/-! ## The search for the subprogram of a pc -/

theorem takeWhile_cons_keep (ent : Entry) (rest : List Entry)
    (htag : ent.Tag ≠ TagCompileUnit) :
    (ent :: rest).takeWhile (fun e => e.Tag != TagCompileUnit) =
      ent :: rest.takeWhile (fun e => e.Tag != TagCompileUnit) := by
  have hb : (ent.Tag != TagCompileUnit) = true := by simpa using htag
  rw [List.takeWhile_cons, hb]
  rfl

theorem FirstMatch_stop (cu : DWARFCompileUnit) (pc : Nat) (ent : Entry) (rest : List Entry)
    (h : ent.Tag = TagCompileUnit) : FirstMatch cu pc (ent :: rest) none := by
  constructor
  · intro _ e he
    simp [List.takeWhile, h] at he
  · intro f hf
    simp at hf

theorem FirstMatch_skip (cu : DWARFCompileUnit) (pc : Nat) (ent : Entry) (rest : List Entry)
    (r : Option DWARFFunction) (htag : ent.Tag ≠ TagCompileUnit)
    (hno : matchesSubprogram cu pc ent = false) (h : FirstMatch cu pc rest r) :
    FirstMatch cu pc (ent :: rest) r := by
  have htw := takeWhile_cons_keep ent rest htag
  constructor
  · intro hr e he
    rw [htw] at he
    rcases List.mem_cons.1 he with he | he
    · rw [he]; exact hno
    · exact h.1 hr e he
  · intro f hf
    obtain ⟨pre, e, post, h1, h2, h3⟩ := h.2 f hf
    refine ⟨ent :: pre, e, post, ?_, ?_, h3⟩
    · rw [htw, h1]; rfl
    · intro x hx
      rcases List.mem_cons.1 hx with hx | hx
      · rw [hx]; exact hno
      · exact h2 x hx

theorem FirstMatch_found (cu : DWARFCompileUnit) (pc : Nat) (ent : Entry) (rest : List Entry)
    (f : DWARFFunction) (htag : ent.Tag = TagSubprogram)
    (hname : resolvedName cu ent = some (.str f.Name))
    (hranges : cu.Dwarf.Ranges ent = .ok f.Ranges) (hoff : f.Offset = ent.Offset)
    (hlen : ¬ f.Ranges.length = 0) (hull : inHull f.Ranges pc = true) :
    FirstMatch cu pc (ent :: rest) (some f) := by
  have hne : ent.Tag ≠ TagCompileUnit := by rw [htag]; decide
  constructor
  · intro h; simp at h
  · intro g hg
    simp only [Option.some.injEq] at hg
    subst hg
    refine ⟨[], ent, rest.takeWhile (fun e => e.Tag != TagCompileUnit), ?_, ?_, ?_,
      hoff, hname, hranges⟩
    · exact takeWhile_cons_keep ent rest hne
    · intro e he; exact absurd he (List.not_mem_nil _)
    · simp [matchesSubprogram, htag, hname, hranges, hlen, hull]

theorem matchesSubprogram_tag (cu : DWARFCompileUnit) (pc : Nat) (ent : Entry)
    (h : ent.Tag ≠ TagSubprogram) : matchesSubprogram cu pc ent = false := by
  simp [matchesSubprogram, h]

/-- The loop of `GetSubprogramByAddr`, once past the root of the unit, returns what
the specification states. -/
theorem GetSubprogramByAddr_loop_spec (cu : DWARFCompileUnit) (pc : Nat) :
    ∀ (l : List Entry) (depth : Int) (c c1 : Caches) (r : Option DWARFFunction),
      GetSubprogramByAddr.loop cu pc l false depth c = (.ok r, c1) → FirstMatch cu pc l r := by
  intro l
  induction l with
  | nil =>
    intro depth c c1 r h
    unfold GetSubprogramByAddr.loop at h
    obtain ⟨_, _, _, h⟩ := M.bind_ok_inv _ _ _ _ _ h
    have := (M.pure_ok_inv _ _ _ _ h).1
    rw [← this]
    constructor
    · intro _ e he
      simp at he
    · intro f hf
      simp at hf
  | cons ent rest ih =>
    intro depth c c1 r h
    unfold GetSubprogramByAddr.loop at h
    by_cases hcu : ent.Tag = TagCompileUnit
    · simp only [hcu, if_true, Bool.false_eq_true, if_false] at h
      have := (M.pure_ok_inv _ _ _ _ h).1
      rw [← this]
      exact FirstMatch_stop cu pc ent rest hcu
    · simp only [hcu, if_false] at h
      by_cases hsp : ent.Tag = TagSubprogram
      · simp only [hsp, if_true] at h
        obtain ⟨fo, c2, hp, h⟩ := M.bind_ok_inv _ _ _ _ _ h
        obtain ⟨hnone, hsome⟩ := parseSubprogram_ok cu ent depth c c2 fo hp
        cases fo with
        | none =>
          simp only at h
          refine FirstMatch_skip cu pc ent rest r hcu ?_ (ih _ _ _ _ h)
          simp [matchesSubprogram, hnone rfl]
        | some f =>
          simp only at h
          obtain ⟨hname, hranges, hoff, _⟩ := hsome f rfl
          by_cases hlen : f.Ranges.length = 0
          · simp only [hlen, if_true] at h
            refine FirstMatch_skip cu pc ent rest r hcu ?_ (ih _ _ _ _ h)
            simp [matchesSubprogram, hranges, hlen]
          · simp only [hlen, if_false] at h
            by_cases hull : inHull f.Ranges pc = true
            · simp only [hull, if_true] at h
              have := (M.pure_ok_inv _ _ _ _ h).1
              rw [← this]
              exact FirstMatch_found cu pc ent rest f hsp hname hranges hoff hlen hull
            · simp only [hull, if_false] at h
              refine FirstMatch_skip cu pc ent rest r hcu ?_ (ih _ _ _ _ h)
              have hull' : inHull f.Ranges pc = false := by simpa using hull
              simp [matchesSubprogram, hranges, hull']
      · simp only [hsp, if_false] at h
        by_cases h0 : ent.Tag = 0
        · simp only [h0, if_true] at h
          exact FirstMatch_skip cu pc ent rest r hcu
            (matchesSubprogram_tag cu pc ent hsp) (ih _ _ _ _ h)
        · simp only [h0, if_false] at h
          exact FirstMatch_skip cu pc ent rest r hcu
            (matchesSubprogram_tag cu pc ent hsp) (ih _ _ _ _ h)

/-- C15.  Let the stream of the unit start with its root entry, tagged
`compile_unit`, followed by `rest`.  Whenever `GetSubprogramByAddr` returns, it
returns the record of the first `DW_TAG_subprogram` entry of `rest`, before the
next compile-unit entry, that has a resolvable name, a non-empty range list and
`ranges[0].low <= pc < ranges[last].high`; it returns no subprogram when no
entry passes this test. -/
theorem GetSubprogramByAddr_first_match (cu : DWARFCompileUnit) (pc : Nat) (c c1 : Caches)
    (r : Option DWARFFunction) (root : Entry) (rest : List Entry)
    (hseek : cu.Dwarf.Seek cu.Entry.Offset = some (root :: rest))
    (hroot : root.Tag = TagCompileUnit)
    (h : GetSubprogramByAddr cu pc c = (.ok r, c1)) :
    FirstMatch cu pc rest r := by
  unfold GetSubprogramByAddr at h
  rw [hseek] at h
  unfold GetSubprogramByAddr.loop at h
  simp only [hroot, if_true] at h
  exact GetSubprogramByAddr_loop_spec cu pc rest _ c c1 r h

/-- Witness of C15: in the inline chain the search at `pc = 0x1058` passes the two
abstract instances, which have no range, and returns `outer`. -/
theorem GetSubprogramByAddr_first_match_witness :
    FirstMatch chainUnit 0x1058
      [chainAbstractMiddle, chainAbstractInner, chainOuter, chainMiddle, chainInner,
        nullEntry, nullEntry, nullEntry]
      (some chainOuterFunc) :=
  GetSubprogramByAddr_first_match chainUnit 0x1058 Caches.empty _ (some chainOuterFunc)
    chainCU _ rfl rfl rfl

/-! ## The inlined subroutines of a subprogram -/

/-- One iteration of the loop of `GetSubroutinesBySubprogram` past the subprogram
entry: either the loop ends at a further subprogram entry, or it goes on with
the rest of the stream, having appended the record of the entry when this is an
inlined subroutine with an abstract origin, a name and a range, and nothing
otherwise. -/
theorem GetSubroutinesBySubprogram_loop_step (sp : DWARFFunction) (ent : Entry)
    (rest : List Entry) (depth : Int) (funcs rts : List DWARFFunction) (c c1 : Caches)
    (h : GetSubroutinesBySubprogram.loop sp (ent :: rest) false depth funcs c = (.ok rts, c1)) :
    (ent.Tag = TagSubprogram ∧ rts = funcs) ∨
    (ent.Tag ≠ TagSubprogram ∧ ∃ depth1 funcs1 c2,
      GetSubroutinesBySubprogram.loop sp rest false depth1 funcs1 c2 = (.ok rts, c1) ∧
      ((funcs1 = funcs ∧
          ¬ (ent.Tag = TagInlinedSubroutine ∧ (ent.Val AttrAbstractOrigin).isSome = true ∧
            (resolvedName sp.DwarfCompileUnit ent).isSome = true ∧
            ∃ rs, sp.DwarfCompileUnit.Dwarf.Ranges ent = .ok rs ∧ rs ≠ [])) ∨
        (∃ f d ca cb, funcs1 = funcs ++ [f] ∧ ent.Tag = TagInlinedSubroutine ∧
          parseSubroutine sp.DwarfCompileUnit ent d ca = (.ok (some f), cb) ∧
          f.Ranges ≠ []))) := by
  unfold GetSubroutinesBySubprogram.loop at h
  by_cases hsp : ent.Tag = TagSubprogram
  · left
    simp only [hsp, if_true, Bool.false_eq_true, if_false] at h
    exact ⟨hsp, ((M.pure_ok_inv _ _ _ _ h).1).symm⟩
  · right
    refine ⟨hsp, ?_⟩
    simp only [hsp, if_false] at h
    by_cases hin : ent.Tag = TagInlinedSubroutine
    · simp only [hin, if_true] at h
      cases hv : ent.Val AttrAbstractOrigin with
      | none =>
        rw [hv] at h
        refine ⟨_, _, _, h, Or.inl ⟨rfl, ?_⟩⟩
        rintro ⟨_, ho, _⟩
        simp at ho
      | some origin =>
        rw [hv] at h
        obtain ⟨fo, c2, hp, h⟩ := M.bind_ok_inv _ _ _ _ _ h
        obtain ⟨hnone, hsome⟩ := parseSubroutine_ok _ ent depth c c2 fo hp
        cases fo with
        | none =>
          simp only at h
          refine ⟨_, _, _, h, Or.inl ⟨rfl, ?_⟩⟩
          rintro ⟨_, _, hn, _⟩
          rw [hnone rfl] at hn
          simp at hn
        | some f =>
          simp only at h
          obtain ⟨_, hranges, _⟩ := hsome f rfl
          by_cases hlen : f.Ranges.length = 0
          · simp only [hlen, if_true] at h
            refine ⟨_, _, _, h, Or.inl ⟨rfl, ?_⟩⟩
            rintro ⟨_, _, _, rs, hrs, hne⟩
            rw [hranges] at hrs
            simp only [Res.ok.injEq] at hrs
            rw [← hrs] at hne
            exact hne (List.eq_nil_of_length_eq_zero hlen)
          · simp only [hlen, if_false] at h
            refine ⟨_, _, _, h, Or.inr ⟨f, depth, c, c2, rfl, hin, hp, ?_⟩⟩
            intro hnil
            rw [hnil] at hlen
            exact hlen rfl
    · simp only [hin, if_false] at h
      by_cases h0 : ent.Tag = 0
      · simp only [h0, if_true] at h
        exact ⟨_, _, _, h, Or.inl ⟨rfl, fun hx => hin hx.1⟩⟩
      · simp only [h0, if_false] at h
        exact ⟨_, _, _, h, Or.inl ⟨rfl, fun hx => hin hx.1⟩⟩

/-- The loop keeps the records it has collected. -/
theorem GetSubroutinesBySubprogram_loop_keeps (sp : DWARFFunction) :
    ∀ (l : List Entry) (depth : Int) (funcs rts : List DWARFFunction) (c c1 : Caches),
      GetSubroutinesBySubprogram.loop sp l false depth funcs c = (.ok rts, c1) →
      ∀ g ∈ funcs, g ∈ rts := by
  intro l
  induction l with
  | nil =>
    intro depth funcs rts c c1 h g hg
    unfold GetSubroutinesBySubprogram.loop at h
    obtain ⟨_, _, _, h⟩ := M.bind_ok_inv _ _ _ _ _ h
    rw [← (M.pure_ok_inv _ _ _ _ h).1]
    exact hg
  | cons ent rest ih =>
    intro depth funcs rts c c1 h g hg
    rcases GetSubroutinesBySubprogram_loop_step sp ent rest depth funcs rts c c1 h with
      ⟨_, he⟩ | ⟨_, d1, f1, c2, hrec, hstep⟩
    · rw [he]; exact hg
    · apply ih d1 f1 rts c2 c1 hrec
      rcases hstep with ⟨he, _⟩ | ⟨f, _, _, _, he, _⟩
      · rw [he]; exact hg
      · rw [he]; exact List.mem_append_left _ hg

/-- Every record the loop returns was there at the start or is the record of an
inlined-subroutine entry of the stream. -/
theorem GetSubroutinesBySubprogram_loop_source (sp : DWARFFunction) :
    ∀ (l : List Entry) (depth : Int) (funcs rts : List DWARFFunction) (c c1 : Caches),
      GetSubroutinesBySubprogram.loop sp l false depth funcs c = (.ok rts, c1) →
      ∀ g ∈ rts, g ∈ funcs ∨ ∃ e ∈ l, e.Tag = TagInlinedSubroutine ∧ g.Offset = e.Offset := by
  intro l
  induction l with
  | nil =>
    intro depth funcs rts c c1 h g hg
    unfold GetSubroutinesBySubprogram.loop at h
    obtain ⟨_, _, _, h⟩ := M.bind_ok_inv _ _ _ _ _ h
    rw [← (M.pure_ok_inv _ _ _ _ h).1] at hg
    exact Or.inl hg
  | cons ent rest ih =>
    intro depth funcs rts c c1 h g hg
    rcases GetSubroutinesBySubprogram_loop_step sp ent rest depth funcs rts c c1 h with
      ⟨_, he⟩ | ⟨_, d1, f1, c2, hrec, hstep⟩
    · rw [he] at hg; exact Or.inl hg
    · rcases ih d1 f1 rts c2 c1 hrec g hg with h1 | ⟨e, he, het, heo⟩
      · rcases hstep with ⟨he, _⟩ | ⟨f, d, ca, cb, he, htag, hp, _⟩
        · rw [he] at h1; exact Or.inl h1
        · rw [he] at h1
          rcases List.mem_append.1 h1 with h2 | h2
          · exact Or.inl h2
          · rw [List.mem_singleton] at h2
            refine Or.inr ⟨ent, List.mem_cons_self _ _, htag, ?_⟩
            rw [h2]
            exact ((parseSubroutine_ok _ ent d ca cb (some f) hp).2 f rfl).2.2.1
      · exact Or.inr ⟨e, List.mem_cons_of_mem _ he, het, heo⟩

/-- An inlined-subroutine entry with an abstract origin, a name and a range that
the loop reaches before any further subprogram entry has its record in the
result. -/
theorem GetSubroutinesBySubprogram_loop_includes (sp : DWARFFunction) (I : Entry)
    (post : List Entry) (rs : List (Nat × Nat))
    (hI : I.Tag = TagInlinedSubroutine) (horigin : (I.Val AttrAbstractOrigin).isSome = true)
    (hname : (resolvedName sp.DwarfCompileUnit I).isSome = true)
    (hranges : sp.DwarfCompileUnit.Dwarf.Ranges I = .ok rs) (hrs : rs ≠ []) :
    ∀ (pre : List Entry), (∀ e ∈ pre, e.Tag ≠ TagSubprogram) →
      ∀ (depth : Int) (funcs rts : List DWARFFunction) (c c1 : Caches),
      GetSubroutinesBySubprogram.loop sp (pre ++ I :: post) false depth funcs c = (.ok rts, c1) →
      ∃ f ∈ rts, ∃ d ca cb,
        parseSubroutine sp.DwarfCompileUnit I d ca = (.ok (some f), cb) := by
  intro pre
  induction pre with
  | nil =>
    intro _ depth funcs rts c c1 h
    rcases GetSubroutinesBySubprogram_loop_step sp I post depth funcs rts c c1 h with
      ⟨ht, _⟩ | ⟨_, d1, f1, c2, hrec, hstep⟩
    · rw [hI] at ht
      exact absurd ht (by decide)
    · rcases hstep with ⟨_, hno⟩ | ⟨f, d, ca, cb, he, _, hp, _⟩
      · exact absurd ⟨hI, horigin, hname, rs, hranges, hrs⟩ hno
      · refine ⟨f, ?_, d, ca, cb, hp⟩
        apply GetSubroutinesBySubprogram_loop_keeps sp post d1 f1 rts c2 c1 hrec
        rw [he]
        exact List.mem_append_right _ (List.mem_singleton.2 rfl)
  | cons e pre ih =>
    intro hpre depth funcs rts c c1 h
    rcases GetSubroutinesBySubprogram_loop_step sp e (pre ++ I :: post) depth funcs rts c c1 h
      with ⟨ht, _⟩ | ⟨_, d1, f1, c2, hrec, _⟩
    · exact absurd ht (hpre e (List.mem_cons_self _ _))
    · exact ih (fun x hx => hpre x (List.mem_cons_of_mem _ hx)) d1 f1 rts c2 c1 hrec

/-! ## Frames of inlined subroutines under a lexical block -/

theorem map_site_shiftFuncs : ∀ l : List Frame,
    (shiftFuncs l).map (fun f => (f.PC, f.File, f.Line)) = l.map (fun f => (f.PC, f.File, f.Line))
  | [] => rfl
  | [_] => rfl
  | a :: b :: rest => by
    simp only [shiftFuncs, List.map_cons]
    rw [map_site_shiftFuncs (b :: rest)]
    rfl

/-- When the subprogram frame sorts last, the result of the assembly is a first
frame followed by frames that have the `PC`, file and line of the sorted
subroutine frames. -/
theorem assembleFrames_tail (sp : DWARFFunction) (subs : List Frame) (pc : Nat)
    (le : LineEntry) (file : LineFile) (hfile : le.File = some file)
    (hgt : ∀ x ∈ subs, sp.Offset < x.PC) :
    ∃ frames, assembleFrames (subprogramFrame sp :: subs) pc le = .ok frames ∧
      frames.tail.map (fun f => (f.PC, f.File, f.Line)) =
        (sortSlice (fun a b => decide (a.PC > b.PC)) subs).map (fun f => (f.PC, f.File, f.Line)) := by
  have hsort : sortSlice (fun a b => decide (a.PC > b.PC)) (subprogramFrame sp :: subs) =
      sortSlice (fun a b => decide (a.PC > b.PC)) subs ++ [subprogramFrame sp] := by
    apply sortSlice_cons_last
    intro x hx
    have := hgt x hx
    simp only [subprogramFrame, decide_eq_true_eq]
    exact this
  refine ⟨_, assembleFrames_eq _ pc le file hfile (List.cons_ne_nil _ _), ?_⟩
  rw [hsort]
  generalize sortSlice (fun a b => decide (a.PC > b.PC)) subs = sorted
  have hcons : lineFrame pc file le :: (sorted ++ [subprogramFrame sp]) =
      (lineFrame pc file le :: sorted) ++ [subprogramFrame sp] := rfl
  rw [List.map_tail, List.map_dropLast, map_site_shiftFuncs, hcons, List.map_append,
    List.map_singleton, List.dropLast_concat]
  rfl

/-- On a miss the subroutine list comes from `GetSubroutinesBySubprogram`. -/
theorem cachedSubroutines_miss (k : String) (sp : DWARFFunction) (c c1 : Caches)
    (rts : List DWARFFunction) (h : cachedSubroutines k sp c = (.ok rts, c1))
    (hmiss : c.allSubroutinesCMap k = none) :
    ∃ c2, GetSubroutinesBySubprogram sp c = (.ok rts, c2) := by
  unfold cachedSubroutines at h
  rw [hmiss] at h
  simp only at h
  rcases hg : GetSubroutinesBySubprogram sp c with ⟨r, c2⟩
  rw [hg] at h
  cases r with
  | error e => simp at h
  | panic p => simp at h
  | ok l =>
    simp only [Prod.mk.injEq, Res.ok.injEq] at h
    exact ⟨c2, by rw [h.1]⟩

/-- `GetSubroutinesBySubprogram` on a stream that starts with the subprogram entry
is the loop on the entries that follow it, at the depth of the subprogram. -/
theorem GetSubroutinesBySubprogram_eq_loop (sp : DWARFFunction) (S : Entry) (rest : List Entry)
    (hstream : sp.DwarfCompileUnit.Dwarf.Seek sp.Offset = some (S :: rest))
    (hS : S.Tag = TagSubprogram) :
    GetSubroutinesBySubprogram sp =
      GetSubroutinesBySubprogram.loop sp rest false sp.Depth [] := by
  unfold GetSubroutinesBySubprogram
  rw [hstream]
  simp only
  conv_lhs => unfold GetSubroutinesBySubprogram.loop
  simp only [hS, if_true]

/-- C16.  Let `pc` resolve to the unit `cu`, the subprogram `sp` and a line entry
with a file, let the subroutine table hold nothing for `sp`, and let the stream
from the entry of `sp` on be `S`, then entries among which is the lexical block
`LB`, then the inlined subroutine `I`, with no further subprogram entry before
`I`.  If `I` has an abstract origin, a resolvable name, a call site and a range
containing `pc`, and the inlined-subroutine entries lie at greater offsets than
`sp` and at other offsets than `LB`, then the frame list of
`FindAllFramesByAddr` holds a frame with `PC` the offset of `I` and file and
line the call site of the record `parseSubroutine` builds for `I`; and every
frame after the first has the `PC` of an inlined-subroutine entry of the stream,
none that of the lexical block. -/
theorem FindAllFramesByAddr_lexical_block (w : World) (path : String) (pc : Nat)
    (c c1 c2 c3 c4 : Caches) (cu : DWARFCompileUnit) (sp : DWARFFunction)
    (rts : List DWARFFunction) (le : LineEntry) (file : LineFile)
    (S LB I : Entry) (pre1 pre2 post : List Entry) (rs : List (Nat × Nat))
    (hcu : GetCompileUnitByAddr w path pc c = (.ok cu, c1))
    (hsp : GetSubprogramByAddr cu pc c1 = (.ok (some sp), c2))
    (hmiss : c2.allSubroutinesCMap (spKey path cu.Entry.Offset sp.Offset) = none)
    (hrts : cachedSubroutines (spKey path cu.Entry.Offset sp.Offset) sp c2 = (.ok rts, c3))
    (hle : GetLineEntryByAddr w path pc c3 = (.ok le, c4))
    (hfile : le.File = some file)
    (hstream : sp.DwarfCompileUnit.Dwarf.Seek sp.Offset =
      some (S :: ((pre1 ++ LB :: pre2) ++ I :: post)))
    (hS : S.Tag = TagSubprogram)
    (hLB : LB.Tag = TagLexDwarfBlock)
    (hpre1 : ∀ e ∈ pre1, e.Tag ≠ TagSubprogram)
    (hpre2 : ∀ e ∈ pre2, e.Tag ≠ TagSubprogram)
    (hI : I.Tag = TagInlinedSubroutine)
    (horigin : (I.Val AttrAbstractOrigin).isSome = true)
    (hname : (resolvedName sp.DwarfCompileUnit I).isSome = true)
    (hranges : sp.DwarfCompileUnit.Dwarf.Ranges I = .ok rs)
    (hin : rs.any (fun r => decide (pc ≥ r.1) && decide (pc < r.2)) = true)
    (hoffs : ∀ e ∈ (pre1 ++ LB :: pre2) ++ I :: post,
      e.Tag = TagInlinedSubroutine → sp.Offset < e.Offset ∧ e.Offset ≠ LB.Offset) :
    ∃ frames, FindAllFramesByAddr w path pc c = (.ok frames, c4) ∧
      (∃ f d ca cb, parseSubroutine sp.DwarfCompileUnit I d ca = (.ok (some f), cb) ∧
        ∃ fr ∈ frames, fr.PC = I.Offset ∧ fr.File = f.CallFile ∧ fr.Line = f.CallLine) ∧
      (∀ fr ∈ frames.tail, fr.PC ≠ LB.Offset ∧
        ∃ e ∈ (pre1 ++ LB :: pre2) ++ I :: post,
          e.Tag = TagInlinedSubroutine ∧ fr.PC = e.Offset) := by
  -- the subroutine list is the one the loop computes on the entries after `S`
  obtain ⟨c5, hget⟩ := cachedSubroutines_miss _ sp c2 c3 rts hrts hmiss
  rw [GetSubroutinesBySubprogram_eq_loop sp S _ hstream hS] at hget
  have hpre : ∀ e ∈ pre1 ++ LB :: pre2, e.Tag ≠ TagSubprogram := by
    intro e he
    rcases List.mem_append.1 he with h1 | h1
    · exact hpre1 e h1
    · rcases List.mem_cons.1 h1 with h2 | h2
      · rw [h2, hLB]; decide
      · exact hpre2 e h2
  have hrsne : rs ≠ [] := by
    intro hnil
    rw [hnil] at hin
    simp at hin
  obtain ⟨f, hf, d, ca, cb, hparse⟩ :=
    GetSubroutinesBySubprogram_loop_includes sp I post rs hI horigin hname hranges hrsne
      (pre1 ++ LB :: pre2) hpre sp.Depth [] rts c2 c5 hget
  obtain ⟨_, hfr, hfo, _⟩ := (parseSubroutine_ok _ I d ca cb (some f) hparse).2 f rfl
  have hfrs : f.Ranges = rs := by
    rw [hranges] at hfr
    simp only [Res.ok.injEq] at hfr
    exact hfr.symm
  have hsource := GetSubroutinesBySubprogram_loop_source sp _ sp.Depth [] rts c2 c5 hget
  -- every subroutine frame sorts before the subprogram frame
  have hsubs : ∀ x ∈ subroutineFrames rts pc, sp.Offset < x.PC := by
    intro x hx
    obtain ⟨g, hg, _, rfl⟩ := mem_subroutineFrames rts pc x hx
    rcases hsource g hg with h1 | ⟨e, he, het, heo⟩
    · exact absurd h1 (List.not_mem_nil _)
    · show sp.Offset < g.Offset
      rw [heo]
      exact (hoffs e he het).1
  obtain ⟨frames, hok, htail⟩ :=
    assembleFrames_tail sp (subroutineFrames rts pc) pc le file hfile hsubs
  refine ⟨frames, ?_, ⟨f, d, ca, cb, hparse, ?_⟩, ?_⟩
  · rw [FindAllFramesByAddr_eq w path pc c c1 c2 c3 c4 cu sp rts le hcu hsp hrts hle, hok]
  · -- the frame of `I`
    have hc : containsPC f pc = true := by
      unfold containsPC
      rw [hfrs]
      exact hin
    have hx : subroutineFrame f ∈ subroutineFrames rts pc := by
      unfold subroutineFrames
      exact List.mem_map.2 ⟨f, List.mem_filter.2 ⟨List.mem_reverse.2 hf, hc⟩, rfl⟩
    have hx1 : subroutineFrame f ∈
        sortSlice (fun a b => decide (a.PC > b.PC)) (subroutineFrames rts pc) :=
      (mem_sortSlice _ _ _).2 hx
    have hx2 : ((subroutineFrame f).PC, (subroutineFrame f).File, (subroutineFrame f).Line) ∈
        frames.tail.map (fun f => (f.PC, f.File, f.Line)) := by
      rw [htail]
      exact List.mem_map.2 ⟨_, hx1, rfl⟩
    obtain ⟨fr, hfr1, hfr2⟩ := List.mem_map.1 hx2
    simp only [Prod.mk.injEq] at hfr2
    refine ⟨fr, List.mem_of_mem_tail hfr1, ?_, hfr2.2.1, hfr2.2.2⟩
    rw [hfr2.1]
    exact hfo
  · -- the frames after the first
    intro fr hfr1
    have h1 : (fr.PC, fr.File, fr.Line) ∈
        (sortSlice (fun a b => decide (a.PC > b.PC)) (subroutineFrames rts pc)).map
          (fun f => (f.PC, f.File, f.Line)) := by
      rw [← htail]
      exact List.mem_map.2 ⟨fr, hfr1, rfl⟩
    obtain ⟨x, hx, hxe⟩ := List.mem_map.1 h1
    rw [mem_sortSlice] at hx
    obtain ⟨g, hg, _, rfl⟩ := mem_subroutineFrames rts pc x hx
    simp only [Prod.mk.injEq] at hxe
    rcases hsource g hg with h2 | ⟨e, he, het, heo⟩
    · exact absurd h2 (List.not_mem_nil _)
    · have hpc : fr.PC = e.Offset := by
        rw [← hxe.1]
        exact heo
      exact ⟨by rw [hpc]; exact (hoffs e he het).2, e, he, het, hpc⟩

/-- Witness of C16: `outer` with a lexical block holding the inlined `inner`, at
`pc = 0x1014`. -/
theorem FindAllFramesByAddr_lexical_block_witness :
    ∃ frames c4, FindAllFramesByAddr blockWorld "a.o" 0x1014 Caches.empty = (.ok frames, c4) ∧
      (∃ f d ca cb, parseSubroutine blockUnit blockInner d ca = (.ok (some f), cb) ∧
        ∃ fr ∈ frames, fr.PC = 0x50 ∧ fr.File = f.CallFile ∧ fr.Line = f.CallLine) ∧
      (∀ fr ∈ frames.tail, fr.PC ≠ 0x48 ∧
        ∃ e ∈ [blockLexical, blockInner, nullEntry, nullEntry, nullEntry],
          e.Tag = TagInlinedSubroutine ∧ fr.PC = e.Offset) := by
  obtain ⟨frames, h⟩ := FindAllFramesByAddr_lexical_block blockWorld "a.o" 0x1014
    Caches.empty _ _ _ _ blockUnit blockOuterFunc [blockInnerFunc]
    ⟨0x1010, some fileB, 3, 0, false⟩ fileB chainOuter blockLexical blockInner [] []
    [nullEntry, nullEntry, nullEntry] [(0x1010, 0x1020)]
    rfl rfl rfl rfl rfl rfl rfl rfl rfl
    (fun e he => absurd he (List.not_mem_nil _))
    (fun e he => absurd he (List.not_mem_nil _))
    rfl rfl rfl rfl rfl
    (by
      intro e he
      simp only [List.nil_append, List.cons_append, List.mem_cons, List.mem_singleton,
        List.not_mem_nil, or_false] at he
      rcases he with rfl | rfl | rfl | rfl | rfl <;> decide)
  exact ⟨frames, _, h⟩

/-! ## Coverage points of a linked object -/

/-- The symbol loop of `GetTracePCInfo` keeps `textAddr` and the nil map
`traceCmp`, and the `tracePC` it leaves is the one it started with or the value
of a symbol named `__sanitizer_cov_trace_pc` that starts at or after the start of
`.text`. -/
theorem GetTracePCInfo_loop_spec (text : Section) :
    ∀ (syms : List Symbol) (i : Nat) (info0 info : TracePCInfo),
      GetTracePCInfo.loop text syms i info0 = .ok info →
      info.textAddr = info0.textAddr ∧
      (info0.traceCmp = none → info.traceCmp = none) ∧
      (info.tracePC = info0.tracePC ∨
        ∃ s ∈ syms, s.Name = "__sanitizer_cov_trace_pc" ∧ s.Value = info.tracePC ∧
          text.Addr ≤ s.Value) := by
  intro syms
  induction syms with
  | nil =>
    intro i info0 info h
    simp only [GetTracePCInfo.loop, Res.ok.injEq] at h
    subst h
    exact ⟨rfl, fun h => h, Or.inl rfl⟩
  | cons s rest ih =>
    intro i info0 info h
    unfold GetTracePCInfo.loop at h
    simp only at h
    by_cases hp : startsWith s.Name "__sanitizer_cov_trace_" = true
    · simp only [hp, if_true] at h
      by_cases hn : s.Name = "__sanitizer_cov_trace_pc"
      · simp only [hn, if_true] at h
        obtain ⟨h1, h2, h3⟩ := ih _ _ _ h
        refine ⟨h1, h2, ?_⟩
        rcases h3 with h3 | ⟨s1, hs1, hs2⟩
        · by_cases ht : (decide (s.Value ≥ text.Addr) &&
              decide ((s.Value + s.Size) % 2 ^ 64 ≤ (text.Addr + text.Size) % 2 ^ 64)) = true
          · simp only [ht, if_true] at h3
            refine Or.inr ⟨s, List.mem_cons_self _ _, hn, h3.symm, ?_⟩
            simp only [Bool.and_eq_true, decide_eq_true_eq] at ht
            exact ht.1
          · simp only [ht] at h3
            exact Or.inl h3
        · exact Or.inr ⟨s1, List.mem_cons_of_mem _ hs1, hs2⟩
      · simp only [hn, if_false] at h
        by_cases ht : (decide (s.Value ≥ text.Addr) &&
            decide ((s.Value + s.Size) % 2 ^ 64 ≤ (text.Addr + text.Size) % 2 ^ 64)) = true
        · simp only [ht, if_true] at h
          cases hc : info0.traceCmp with
          | none =>
            rw [hc] at h
            simp at h
          | some m =>
            rw [hc] at h
            simp only at h
            obtain ⟨h1, _, h3⟩ := ih _ _ _ h
            refine ⟨h1, fun hx => by simp at hx, ?_⟩
            rcases h3 with h3 | ⟨s1, hs1, hs2⟩
            · exact Or.inl h3
            · exact Or.inr ⟨s1, List.mem_cons_of_mem _ hs1, hs2⟩
        · simp only [ht] at h
          obtain ⟨h1, h2, h3⟩ := ih _ _ _ h
          refine ⟨h1, h2, ?_⟩
          rcases h3 with h3 | ⟨s1, hs1, hs2⟩
          · exact Or.inl h3
          · exact Or.inr ⟨s1, List.mem_cons_of_mem _ hs1, hs2⟩
    · simp only [hp] at h
      obtain ⟨h1, h2, h3⟩ := ih _ _ _ h
      refine ⟨h1, h2, ?_⟩
      rcases h3 with h3 | ⟨s1, hs1, hs2⟩
      · exact Or.inl h3
      · exact Or.inr ⟨s1, List.mem_cons_of_mem _ hs1, hs2⟩

/-- What `GetTracePCInfo` returns: the address of `.text`, the nil map `traceCmp`,
and a `tracePC` that is 0 or the value of a symbol named
`__sanitizer_cov_trace_pc`. -/
theorem GetTracePCInfo_spec (fs : ElfWorld) (path : String) (f : ElfFile) (text : Section)
    (syms : List Symbol) (info : TracePCInfo)
    (hopen : fs.Open path = .ok f) (hsyms : f.Symbols = .ok syms)
    (htext : GetSectionByName f ".text" = .ok (some text))
    (h : GetTracePCInfo fs path = .ok info) :
    info.textAddr = text.Addr ∧ info.traceCmp = none ∧
      (info.tracePC = 0 ∨
        ∃ s ∈ syms, s.Name = "__sanitizer_cov_trace_pc" ∧ s.Value = info.tracePC ∧
          text.Addr ≤ s.Value) := by
  unfold GetTracePCInfo FindAllSymbols at h
  simp only [hopen, hsyms, htext, bind, Res.bind] at h
  obtain ⟨h1, h2, h3⟩ := GetTracePCInfo_loop_spec text syms 0 _ info h
  exact ⟨h1, h2 rfl, h3⟩

/-- The scan of `FindAllCoverPoints`, started at index `i` with the bytes before
it read: every address it adds to bucket 0 is a call to `tracePC` as the
specification states it, and with the nil map `traceCmp` it adds nothing to
bucket 1. -/
theorem FindAllCoverPoints_loop_spec (arch : Arch) (info : TracePCInfo) (data : List Byte) :
    ∀ (todo done : List Byte) (i : Nat) (pcs0 pcs : List Nat × List Nat),
      data = done ++ todo → done.length = i →
      FindAllCoverPoints.loop arch info data todo i pcs0 = .ok pcs →
      ((∀ pc ∈ pcs0.1, ∃ i, isCallAt arch info data i pc) →
        ∀ pc ∈ pcs.1, ∃ i, isCallAt arch info data i pc) ∧
      (info.traceCmp = none → pcs.2 = pcs0.2) := by
  intro todo
  induction todo with
  | nil =>
    intro done i pcs0 pcs _ _ h
    simp only [FindAllCoverPoints.loop, Res.ok.injEq] at h
    subst h
    exact ⟨fun h => h, fun _ => rfl⟩
  | cons opcode todo ih =>
    intro done i pcs0 pcs hdata hlen h
    have hdata1 : data = (done ++ [opcode]) ++ todo := by
      rw [hdata, List.append_assoc]
      rfl
    have hlen1 : (done ++ [opcode]).length = i + 1 := by
      rw [List.length_append, hlen]
      rfl
    have hget : data[i]? = some opcode := by
      rw [hdata, List.getElem?_append_right (by omega)]
      simp [hlen]
    unfold FindAllCoverPoints.loop at h
    by_cases hop : opcode ≠ arch.opcodes.1 ∧ opcode ≠ arch.opcodes.2
    · rw [if_pos hop] at h
      exact ih _ _ _ _ hdata1 hlen1 h
    · rw [if_neg hop] at h
      by_cases hrange : (i : Int) - arch.opcodeOffset < 0 ∨
          (i : Int) - arch.opcodeOffset + arch.callLen > (data.length : Int)
      · rw [if_pos hrange] at h
        exact ih _ _ _ _ hdata1 hlen1 h
      · rw [if_neg hrange] at h
        dsimp only at h
        cases ht : arch.callTarget (data.drop ((i : Int) - arch.opcodeOffset).toNat)
            ((info.textAddr + ((i : Int) - arch.opcodeOffset).toNat) % 2 ^ 64) opcode with
        | error e => rw [ht] at h; simp at h
        | panic p => rw [ht] at h; simp at h
        | ok target =>
          rw [ht] at h
          simp only at h
          by_cases htp : target = info.tracePC
          · rw [if_pos htp] at h
            obtain ⟨h1, h2⟩ := ih _ _ _ _ hdata1 hlen1 h
            refine ⟨fun h0 => h1 ?_, h2⟩
            intro pc hpc
            rcases List.mem_append.1 hpc with hpc | hpc
            · exact h0 pc hpc
            · rw [List.mem_singleton] at hpc
              subst hpc
              have hnn : 0 ≤ (i : Int) - arch.opcodeOffset := by omega
              have hto : ((((i : Int) - arch.opcodeOffset).toNat : Nat) : Int) =
                  (i : Int) - arch.opcodeOffset := Int.toNat_of_nonneg hnn
              refine ⟨((i : Int) - arch.opcodeOffset).toNat, rfl, ?_, opcode, ?_, ?_, ?_⟩
              · rw [hto]
                omega
              · rw [hto]
                have : ((i : Int) - arch.opcodeOffset + arch.opcodeOffset).toNat = i := by
                  rw [Int.sub_add_cancel]
                  exact Int.toNat_ofNat i
                rw [this]
                exact hget
              · by_contra hne
                exact hop ⟨fun h => hne (Or.inl h), fun h => hne (Or.inr h)⟩
              · rw [ht, htp]
          · rw [if_neg htp] at h
            by_cases hcmp : info.isTraceCmp target = true
            · rw [if_pos hcmp] at h
              obtain ⟨h1, h2⟩ := ih _ _ _ _ hdata1 hlen1 h
              refine ⟨h1, fun hnone => ?_⟩
              unfold TracePCInfo.isTraceCmp at hcmp
              rw [hnone] at hcmp
              simp at hcmp
            · rw [if_neg hcmp] at h
              exact ih _ _ _ _ hdata1 hlen1 h

/-- What a successful `FindAllCoverPoints` went through: the file opens, `.text`
exists and its bytes are read, `GetTracePCInfo` returns an `info` whose `tracePC`
is not 0, and the buckets are those of the scan. -/
theorem FindAllCoverPoints_ok_inv (fs : ElfWorld) (path : String) (pcs : List Nat × List Nat)
    (h : FindAllCoverPoints fs path = .ok pcs) :
    ∃ info f text data, GetTracePCInfo fs path = .ok info ∧ info.tracePC ≠ 0 ∧
      fs.Open path = .ok f ∧ GetSectionByName f ".text" = .ok (some text) ∧
      text.Data = .ok data ∧
      FindAllCoverPoints.loop (arches f.Machine) info data data 0 ([], []) = .ok pcs := by
  unfold FindAllCoverPoints at h
  cases hi : GetTracePCInfo fs path with
  | error e => rw [hi] at h; simp [bind, Res.bind] at h
  | panic p => rw [hi] at h; simp [bind, Res.bind] at h
  | ok info =>
    rw [hi] at h
    simp only [bind, Res.bind] at h
    by_cases h0 : info.tracePC = 0
    · rw [if_pos h0] at h
      simp at h
    · rw [if_neg h0] at h
      cases ho : fs.Open path with
      | error e => rw [ho] at h; simp at h
      | panic p => rw [ho] at h; simp at h
      | ok f =>
        rw [ho] at h
        simp only at h
        cases hs : GetSectionByName f ".text" with
        | error e => rw [hs] at h; simp at h
        | panic p => rw [hs] at h; simp at h
        | ok s =>
          rw [hs] at h
          simp only at h
          cases s with
          | none => simp at h
          | some text =>
            simp only at h
            cases hd : text.Data with
            | error e => rw [hd] at h; simp at h
            | panic p => rw [hd] at h; simp at h
            | ok data =>
              rw [hd] at h
              simp only at h
              exact ⟨info, f, text, data, rfl, h0, rfl, hs, hd, h⟩

theorem arches_opcodeOffset_nonneg (machine : Nat) : 0 ≤ (arches machine).opcodeOffset := by
  unfold arches
  split
  · decide
  · split <;> decide

/-- C21.  Let `FindAllCoverPoints` return the buckets `pcs` for an object whose
`.text` section holds the bytes `data`, `info` being what `GetTracePCInfo`
returns and `syms` the symbol table.  Then `info.tracePC` is the value of a symbol
named `__sanitizer_cov_trace_pc`, and every `pc` of bucket 0 has an offset `i`
with `pc = textAddr + i` in 64-bit arithmetic, `i + callLen <= len(data)`, one of
the call opcodes of the architecture at `i + opcodeOffset`, and the decoder of
the architecture yielding `info.tracePC` on the bytes from `i` on.  When the
section does not run past the end of the address space, `textAddr <= pc` and
`i = pc - textAddr`.  This holds for the descriptors of x86-64 and AArch64, and
for every machine. -/
theorem FindAllCoverPoints_bucket0 (fs : ElfWorld) (path : String) (f : ElfFile)
    (text : Section) (syms : List Symbol) (data : List Byte) (info : TracePCInfo)
    (pcs : List Nat × List Nat)
    (hopen : fs.Open path = .ok f) (hsyms : f.Symbols = .ok syms)
    (htext : GetSectionByName f ".text" = .ok (some text)) (hdata : text.Data = .ok data)
    (hinfo : GetTracePCInfo fs path = .ok info)
    (h : FindAllCoverPoints fs path = .ok pcs) :
    info.textAddr = text.Addr ∧
    (∃ s ∈ syms, s.Name = "__sanitizer_cov_trace_pc" ∧ s.Value = info.tracePC) ∧
    ∀ pc ∈ pcs.1, ∃ i, isCallAt (arches f.Machine) info data i pc ∧
      (text.Addr + data.length ≤ 2 ^ 64 → text.Addr ≤ pc ∧ pc - text.Addr = i) := by
  obtain ⟨info1, f1, text1, data1, hi1, h0, ho1, hs1, hd1, hloop⟩ :=
    FindAllCoverPoints_ok_inv fs path pcs h
  rw [hinfo] at hi1
  rw [hopen] at ho1
  simp only [Res.ok.injEq] at hi1 ho1
  subst hi1
  subst ho1
  rw [htext] at hs1
  simp only [Res.ok.injEq, Option.some.injEq] at hs1
  subst hs1
  rw [hdata] at hd1
  simp only [Res.ok.injEq] at hd1
  subst hd1
  obtain ⟨ha, _, hpc⟩ := GetTracePCInfo_spec fs path f text syms info hopen hsyms htext hinfo
  refine ⟨ha, ?_, ?_⟩
  · rcases hpc with hpc | ⟨s, hs, hn, hv, _⟩
    · exact absurd hpc h0
    · exact ⟨s, hs, hn, hv⟩
  · intro pc hpc
    obtain ⟨i, hi⟩ := (FindAllCoverPoints_loop_spec (arches f.Machine) info data data [] 0
      ([], []) pcs rfl rfl hloop).1 (fun _ hx => absurd hx (List.not_mem_nil _)) pc hpc
    refine ⟨i, hi, fun hfit => ?_⟩
    obtain ⟨hpceq, _, opcode, hget, _⟩ := hi
    have hnn := arches_opcodeOffset_nonneg f.Machine
    have hidx : ((i : Int) + (arches f.Machine).opcodeOffset).toNat < data.length := by
      by_contra hge
      rw [List.getElem?_eq_none (by omega)] at hget
      exact absurd hget (by simp)
    have hile : i < data.length := by omega
    rw [ha, Nat.mod_eq_of_lt (by omega)] at hpceq
    omega

set_option maxRecDepth 100000 in
/-- Witness of C21: the linked object with the call `E8 90 00 00 00` at `0x40100B`
and `__sanitizer_cov_trace_pc` at `0x4010A0`. -/
theorem FindAllCoverPoints_bucket0_witness :
    (0x401000 : Nat) = (linkedText callToTracePC).Addr ∧
    (∃ s ∈ [(⟨"main", 0x401000, 0x20, 1⟩ : Symbol), tracePCSymbol],
      s.Name = "__sanitizer_cov_trace_pc" ∧ s.Value = 0x4010A0) ∧
    ∀ pc ∈ [(0x40100B : Nat)], ∃ i,
      isCallAt (arches EM_X86_64) ⟨0x401000, 0x4010A0, none, [1], []⟩
        (List.replicate 0xB 0x90 ++ callToTracePC ++ List.replicate 0xA0 0x90) i pc ∧
      ((linkedText callToTracePC).Addr +
          (List.replicate 0xB (0x90 : Byte) ++ callToTracePC ++ List.replicate 0xA0 0x90).length
            ≤ 2 ^ 64 →
        (linkedText callToTracePC).Addr ≤ pc ∧ pc - (linkedText callToTracePC).Addr = i) :=
  FindAllCoverPoints_bucket0 (linkedWorld callToTracePC) "a.out" (linkedFile callToTracePC)
    (linkedText callToTracePC) [⟨"main", 0x401000, 0x20, 1⟩, tracePCSymbol]
    (List.replicate 0xB 0x90 ++ callToTracePC ++ List.replicate 0xA0 0x90)
    ⟨0x401000, 0x4010A0, none, [1], []⟩ ([0x40100B], []) rfl rfl rfl rfl (by rfl) (by rfl)

/-- Whenever `FindAllCoverPoints` returns, bucket 1 is empty: `info.traceCmp` is
never made, so no target is found in it. -/
theorem FindAllCoverPoints_bucket1_nil (fs : ElfWorld) (path : String)
    (pcs : List Nat × List Nat) (h : FindAllCoverPoints fs path = .ok pcs) : pcs.2 = [] := by
  obtain ⟨info, f, text, data, hi, _, ho, hs, _, hloop⟩ := FindAllCoverPoints_ok_inv fs path pcs h
  have hnone : info.traceCmp = none := by
    unfold GetTracePCInfo FindAllSymbols at hi
    rw [ho] at hi
    simp only at hi
    cases hsy : f.Symbols with
    | error e => rw [hsy] at hi; simp [bind, Res.bind] at hi
    | panic p => rw [hsy] at hi; simp [bind, Res.bind] at hi
    | ok syms =>
      rw [hsy] at hi
      simp only [hs, bind, Res.bind] at hi
      exact (GetTracePCInfo_loop_spec text syms 0 _ info hi).2.1 rfl
  exact (FindAllCoverPoints_loop_spec (arches f.Machine) info data data [] 0 ([], []) pcs
    rfl rfl hloop).2 hnone

/-! ## Coverage points: the comparison helpers and the unknown machines -/

set_option maxRecDepth 100000 in
/-- C22 (failing input).  In a linked x86-64 object whose symbol table holds `main`
and the comparison helper `__sanitizer_cov_trace_cmp4`, inside `.text`, and no
symbol named `__sanitizer_cov_trace_pc`, `FindAllCoverPoints` does not fail with
the no-trace-pc-symbol error: `GetTracePCInfo` panics on the assignment to the
nil map `info.traceCmp`.  Without the helper the error is returned. -/
theorem FindAllCoverPoints_helper_without_trace_pc :
    (∀ s ∈ [(⟨"main", 0x401000, 0x20, 1⟩ : Symbol), cmpSymbol],
      s.Name ≠ "__sanitizer_cov_trace_pc") ∧
    GetTracePCInfo (objectWorld EM_X86_64 [cmpSymbol] noCall) "a.out" =
      .panic .nilMapAssignment ∧
    FindAllCoverPoints (objectWorld EM_X86_64 [cmpSymbol] noCall) "a.out" =
      .panic .nilMapAssignment ∧
    FindAllCoverPoints (objectWorld EM_X86_64 [] noCall) "a.out" = .error .noTracePCSymbol :=
  ⟨by decide, by rfl, by rfl, by rfl⟩

set_option maxRecDepth 100000 in
/-- C23 (failing input).  In a linked x86-64 object with `__sanitizer_cov_trace_pc`
at `0x4010A0` and `__sanitizer_cov_trace_cmp4` at `0x401080`, both inside `.text`,
and a call at `0x40100B` whose decoded target is `0x401080`, `FindAllCoverPoints`
returns no bucket: it panics on the assignment to the nil map `info.traceCmp`. -/
theorem FindAllCoverPoints_helper_in_text_panics :
    archX86.callTarget callToCmp 0x40100B 0xE8 = .ok cmpSymbol.Value ∧
    cmpSymbol.Value ≠ tracePCSymbol.Value ∧
    FindAllCoverPoints (objectWorld EM_X86_64 [tracePCSymbol, cmpSymbol] callToCmp) "a.out" =
      .panic .nilMapAssignment :=
  ⟨by rfl, by decide, by rfl⟩

set_option maxRecDepth 100000 in
/-- C24 (failing input).  For a relocatable AArch64 object with one
`R_AARCH64_CALL26` at `r_offset = 0x34` referencing `__sanitizer_cov_trace_pc`,
`FindAllCoverPointsInRelaSec` returns `([0x34], [])`.  When the object also
references `__sanitizer_cov_trace_cmp4`, by a second record at `0x58`, the call
puts nothing in bucket 1: the undefined helper has value 0 and size 0, which
`GetTracePCInfo` takes to lie inside `.text` at address 0, and the assignment to
the nil map `info.traceCmp` panics. -/
theorem FindAllCoverPointsInRelaSec_helper_reference_panics :
    (FindAllCoverPointsInRelaSec
      (relocWorld EM_AARCH64 [tracePCUndef] [relaRecord 0x34 2 R_AARCH64_CALL26])
      chainWorld "a.o" Caches.empty).1 = .ok ([0x34], []) ∧
    (FindAllCoverPointsInRelaSec
      (relocWorld EM_AARCH64 [tracePCUndef, cmpUndef]
        [relaRecord 0x34 2 R_AARCH64_CALL26, relaRecord 0x58 3 R_AARCH64_CALL26])
      chainWorld "a.o" Caches.empty).1 = .panic .nilMapAssignment :=
  ⟨by rfl, by rfl⟩

set_option maxRecDepth 100000 in
/-- C25 (failing input).  For the machine `EM_RISCV`, which `arches` does not hold,
the lookup gives the zero descriptor with a nil `target`, and no call fails with
an error about the architecture: `FindAllCoverPoints` panics in the nil function
at the first zero byte of `.text`, returns two empty buckets when `.text` holds
no zero byte, and `FindAllCoverPointsInRelaSec` takes the records of type 0. -/
theorem FindAllCoverPoints_unknown_machine :
    (arches EM_RISCV).target.isNone = true ∧
    (arches EM_RISCV).callRelocType = 0 ∧
    FindAllCoverPoints (objectWorld EM_RISCV [tracePCSymbol] callToTracePC) "a.out" =
      .panic .nilDereference ∧
    FindAllCoverPoints (objectWorld EM_RISCV [tracePCSymbol] noCall) "a.out" = .ok ([], []) ∧
    (FindAllCoverPointsInRelaSec (relocWorld EM_RISCV [tracePCUndef] [relaRecord 0x34 2 0])
      chainWorld "a.o" Caches.empty).1 = .ok ([0x34], []) :=
  ⟨by rfl, by rfl, by rfl, by rfl, by rfl⟩

/-! ## The call graph -/

set_option maxRecDepth 100000 in
/-- C27 (failing input).  For the unit in which `a` inlines `b` (which inlines `c`)
and then `d`, whose lexical block holds the inlined `e`, `FindAllFuncs` lists
`a@1, b@2, c@3, d@2, e@4`.  The parent the specification states for `e` is `d`,
the latest earlier entry of smaller depth; `dot` creates the edge `c → e`, from
the subtree of `b` that was closed when `d` was listed. -/
theorem dot_edge_from_closed_subtree :
    ∃ listing, (FindAllFuncs graphWorld "a.o" [0] Caches.empty).1 = .ok listing ∧
      listing.map (fun f => (f.Name, f.Depth)) =
        [("a", 1), ("b", 2), ("c", 3), ("d", 2), ("e", 4)] ∧
      (dot.edges listing 0 []).map (fun e => (e.1.Name, e.2.Name)) =
        [("a", "b"), ("b", "c"), ("a", "d"), ("c", "e")] ∧
      (nearestEnclosing (listing.take 4) 4).map (fun f => f.Name) = some "d" :=
  ⟨_, rfl, by rfl, by rfl, by rfl⟩

/-- C29 (failing input).  For `covered = 11`, `total = 20` the quotient 11/20 is
rounded to the `float64` next above 0.55 and the product with 100 to the one
next above 55, so `percent` returns 56 where the exact ceiling is 55; likewise
`percent(7, 100)` is 8 where the exact ceiling is 7. -/
theorem percent_float_rounding :
    percent 11 20 = some 56 ∧ percentExact 11 20 = 55 ∧
    percent 7 100 = some 8 ∧ percentExact 7 100 = 7 := by
  refine ⟨by decide, ?_, by decide, ?_⟩
  · have h : ⌈(100 * (11 : ℕ) : ℚ) / (20 : ℕ)⌉ = 55 := by
      rw [Int.ceil_eq_iff]
      norm_num
    simp only [percentExact, h]
    decide
  · have h : ⌈(100 * (7 : ℕ) : ℚ) / (100 : ℕ)⌉ = 7 := by
      rw [Int.ceil_eq_iff]
      norm_num
    simp only [percentExact, h]
    decide

/-! ## Coverage points of a relocatable object -/

theorem low32_mask (v : Nat) : v &&& 0xffffffff = v % 2 ^ 32 := by
  have h : (0xffffffff : Nat) = 2 ^ 32 - 1 := by norm_num
  rw [h]
  exact Nat.and_pow_two_sub_one_eq_mod v 32

/-- The record loop of `FindAllCoverPointsInRelaSec` adds to the two buckets what
the specification states for the records: whenever `GetTracePCInfo` returns, the
records are classified as claimed. -/
theorem FindAllCoverPointsInRelaSec_loop_eq (callRelocType relaOffset : Nat)
    (info : TracePCInfo) :
    ∀ (relas : List Rela64) (pcs : List Nat × List Nat),
      FindAllCoverPointsInRelaSec.loop callRelocType relaOffset info relas pcs =
        (pcs.1 ++ (relaBuckets callRelocType relaOffset info relas).1,
         pcs.2 ++ (relaBuckets callRelocType relaOffset info relas).2) := by
  intro relas
  induction relas with
  | nil =>
    intro pcs
    simp [FindAllCoverPointsInRelaSec.loop, relaBuckets]
  | cons rel rest ih =>
    intro pcs
    unfold FindAllCoverPointsInRelaSec.loop
    rw [low32_mask]
    have hpow : (2 : Nat) ^ 32 = 4294967296 := by norm_num
    by_cases ht : rel.Info % 2 ^ 32 = callRelocType
    · have ht2 : rel.Info % 4294967296 = callRelocType := by rw [← hpow]; exact ht
      have ht1 : ¬ (rel.Info % 2 ^ 32 ≠ callRelocType) := fun h => h ht
      rw [if_neg ht1]
      dsimp only
      by_cases hpc : info.isTracePCIdx ((R_SYM64 rel.Info : Int) - 1) = true
      · rw [if_pos hpc, ih]
        simp [relaBuckets, List.filter_cons, ht2, hpc]
      · rw [if_neg hpc]
        by_cases hcmp : info.isTraceCmpIdx ((R_SYM64 rel.Info : Int) - 1) = true
        · rw [if_pos hcmp, ih]
          simp [relaBuckets, List.filter_cons, ht2, hpc, hcmp]
        · rw [if_neg hcmp, ih]
          simp [relaBuckets, List.filter_cons, ht2, hpc, hcmp]
    · have ht1 : rel.Info % 2 ^ 32 ≠ callRelocType := ht
      have ht2 : ¬ rel.Info % 4294967296 = callRelocType := by rw [← hpow]; exact ht
      rw [if_pos ht1, ih]
      simp [relaBuckets, List.filter_cons, ht2]

/-! ## All addresses of the line programs -/

theorem length_goMapSet (k : Nat) (v : LineEntry) :
    ∀ m : LineMap, (goMapSet m k v).length ≤ m.length + 1 := by
  intro m
  induction m with
  | nil => simp [goMapSet]
  | cons q rest ih =>
    obtain ⟨k1, v1⟩ := q
    simp only [goMapSet]
    split
    · simp
    · simp only [List.length_cons]
      omega

theorem length_foldl_goMapSet (rows : List LineEntry) :
    ∀ m : LineMap,
      (rows.foldl (fun m ent => goMapSet m ent.Address ent) m).length ≤ m.length + rows.length := by
  induction rows with
  | nil => intro m; simp
  | cons e rest ih =>
    intro m
    simp only [List.foldl_cons, List.length_cons]
    have h1 := ih (goMapSet m e.Address e)
    have h2 := length_goMapSet e.Address e m
    omega

/-- The address map of a line program has at most as many entries as the program
has rows. -/
theorem length_collectLineEntries (rows : List LineEntry) :
    (collectLineEntries rows).length ≤ rows.length := by
  have h := length_foldl_goMapSet rows []
  simpa [collectLineEntries] using h

theorem keys_foldl_goMapSet (rows : List LineEntry) :
    ∀ (m : LineMap) (a : Nat),
      a ∈ (rows.foldl (fun m ent => goMapSet m ent.Address ent) m).map Prod.fst ↔
        a ∈ m.map Prod.fst ∨ ∃ row ∈ rows, row.Address = a := by
  induction rows with
  | nil => intro m a; simp
  | cons e rest ih =>
    intro m a
    simp only [List.foldl_cons]
    rw [ih, keys_goMapSet]
    constructor
    · rintro (h | ⟨row, hrow, ha⟩)
      · split at h
        · exact Or.inl h
        · rcases List.mem_append.1 h with h | h
          · exact Or.inl h
          · rw [List.mem_singleton] at h
            exact Or.inr ⟨e, List.mem_cons_self _ _, h.symm⟩
      · exact Or.inr ⟨row, List.mem_cons_of_mem _ hrow, ha⟩
    · rintro (h | ⟨row, hrow, ha⟩)
      · left
        split
        · exact h
        · exact List.mem_append_left _ h
      · rcases List.mem_cons.1 hrow with hrow | hrow
        · left
          subst hrow
          split
          · rename_i hk
            rw [← ha]
            exact hk
          · rw [← ha]
            exact List.mem_append_right _ (List.mem_singleton_self _)
        · exact Or.inr ⟨row, hrow, ha⟩

/-- The addresses taken from a unit: each address of a row, once. -/
theorem unitAddresses_spec (cu : DWARFCompileUnit) :
    (unitAddresses cu).Nodup ∧ (unitAddresses cu).length ≤ (rowsOf cu).length ∧
      ∀ a, a ∈ unitAddresses cu ↔ ∃ row ∈ rowsOf cu, row.Address = a := by
  have hok := collectLineEntries_ok (rowsOf cu)
  have heq : unitAddresses cu = (collectLineEntries (rowsOf cu)).map Prod.fst := by
    unfold unitAddresses
    apply List.map_congr_left
    intro p hp
    exact (hok.1 p hp).symm
  refine ⟨?_, ?_, ?_⟩
  · rw [heq]
    exact hok.2
  · rw [heq, List.length_map]
    exact length_collectLineEntries _
  · intro a
    rw [heq]
    have h := keys_foldl_goMapSet (rowsOf cu) [] a
    simpa [collectLineEntries] using h

/-- A successful `getLineEntries` on a unit of `cus` returns the map of the rows
of the unit and keeps the table coherent; it leaves the table of compile units
alone. -/
theorem getLineEntries_coherent (cus : List DWARFCompileUnit) (cu : DWARFCompileUnit)
    (c c1 : Caches) (m : LineMap) (hcu : cu ∈ cus) (hkey : keysDetermineRows cus)
    (hcoh : lineTableCoherent cus c) (h : getLineEntries cu c = (.ok m, c1)) :
    m = collectLineEntries (rowsOf cu) ∧ lineTableCoherent cus c1 ∧
      c1.compileUnitsCMap = c.compileUnitsCMap := by
  unfold getLineEntries at h
  cases hget : c.lineEntriesCMap (cuKey cu.FilePath cu.Entry.Offset) with
  | some e =>
    rw [hget] at h
    simp only [Prod.mk.injEq, Res.ok.injEq] at h
    obtain ⟨h1, h2⟩ := h
    subst h1
    subst h2
    exact ⟨hcoh cu hcu _ hget, hcoh, rfl⟩
  | none =>
    rw [hget] at h
    simp only at h
    cases hr : cu.Dwarf.LineReader cu.Entry with
    | error e => rw [hr] at h; simp at h
    | panic p => rw [hr] at h; simp at h
    | ok o =>
      rw [hr] at h
      cases o with
      | none => simp at h
      | some r =>
        simp only [Prod.mk.injEq, Res.ok.injEq] at h
        obtain ⟨h1, h2⟩ := h
        have hrows : rowsOf cu = r.rows := by
          unfold rowsOf
          rw [hr]
        subst h1
        subst h2
        refine ⟨by rw [hrows], ?_, rfl⟩
        intro cu2 hcu2 m2 hm2
        simp only [cmapSet] at hm2
        by_cases hk : cuKey cu2.FilePath cu2.Entry.Offset = cuKey cu.FilePath cu.Entry.Offset
        · rw [if_pos hk] at hm2
          simp only [Option.some.injEq] at hm2
          rw [← hm2, hkey cu2 hcu2 cu hcu hk, hrows]
        · rw [if_neg hk] at hm2
          exact hcoh cu2 hcu2 m2 hm2

theorem GenLineEntries_loop_coherent (cus : List DWARFCompileUnit)
    (hkey : keysDetermineRows cus) :
    ∀ (l : List DWARFCompileUnit) (c c1 : Caches), (∀ cu ∈ l, cu ∈ cus) →
      lineTableCoherent cus c → GenLineEntries.loop l c = (.ok (), c1) →
      lineTableCoherent cus c1 ∧ c1.compileUnitsCMap = c.compileUnitsCMap := by
  intro l
  induction l with
  | nil =>
    intro c c1 _ hcoh h
    simp only [GenLineEntries.loop, Prod.mk.injEq, true_and] at h
    subst h
    exact ⟨hcoh, rfl⟩
  | cons cu rest ih =>
    intro c c1 hsub hcoh h
    unfold GenLineEntries.loop at h
    rcases hg : getLineEntries cu c with ⟨r, c2⟩
    rw [hg] at h
    cases r with
    | error e => simp at h
    | panic p => simp at h
    | ok m =>
      simp only at h
      obtain ⟨_, hcoh2, hframe⟩ :=
        getLineEntries_coherent cus cu c c2 m (hsub cu (List.mem_cons_self _ _)) hkey hcoh hg
      obtain ⟨h1, h2⟩ := ih c2 c1 (fun x hx => hsub x (List.mem_cons_of_mem _ hx)) hcoh2 h
      exact ⟨h1, h2.trans hframe⟩

theorem FindAllPCs_loop_eq (cus : List DWARFCompileUnit) (hkey : keysDetermineRows cus) :
    ∀ (l : List DWARFCompileUnit) (pcs0 pcs : List Nat) (c c1 : Caches),
      (∀ cu ∈ l, cu ∈ cus) → lineTableCoherent cus c →
      FindAllPCs.loop l pcs0 c = (.ok pcs, c1) →
      pcs = pcs0 ++ l.flatMap unitAddresses := by
  intro l
  induction l with
  | nil =>
    intro pcs0 pcs c c1 _ _ h
    simp only [FindAllPCs.loop, Prod.mk.injEq, Res.ok.injEq] at h
    simp [h.1]
  | cons cu rest ih =>
    intro pcs0 pcs c c1 hsub hcoh h
    unfold FindAllPCs.loop at h
    rcases hg : getLineEntries cu c with ⟨r, c2⟩
    rw [hg] at h
    cases r with
    | error e => simp at h
    | panic p => simp at h
    | ok m =>
      simp only at h
      obtain ⟨hm, hcoh2, _⟩ :=
        getLineEntries_coherent cus cu c c2 m (hsub cu (List.mem_cons_self _ _)) hkey hcoh hg
      have := ih _ pcs c2 c1 (fun x hx => hsub x (List.mem_cons_of_mem _ hx)) hcoh2 h
      rw [this, hm, List.flatMap_cons, List.append_assoc]
      rfl

/-- `FindAllCompileUnits` leaves the table of address maps alone, and the list it
returns is the one the table of compile units holds afterwards. -/
theorem FindAllCompileUnits_frame (w : World) (path : String) (c c1 : Caches)
    (cus : List DWARFCompileUnit) (h : FindAllCompileUnits w path c = (.ok cus, c1)) :
    c1.lineEntriesCMap = c.lineEntriesCMap ∧ c1.compileUnitsCMap path = some cus := by
  unfold FindAllCompileUnits at h
  cases hget : c.compileUnitsCMap path with
  | some l =>
    rw [hget] at h
    simp only [Prod.mk.injEq, Res.ok.injEq] at h
    obtain ⟨h1, h2⟩ := h
    subst h1
    subst h2
    exact ⟨rfl, hget⟩
  | none =>
    rw [hget] at h
    simp only at h
    rcases hd : DWARF w path c with ⟨r, c2⟩
    rw [hd] at h
    have hframe : c2.lineEntriesCMap = c.lineEntriesCMap := by
      unfold DWARF at hd
      cases hdc : c.dwarfCMap path with
      | some e =>
        rw [hdc] at hd
        simp only [Prod.mk.injEq] at hd
        rw [← hd.2]
      | none =>
        rw [hdc] at hd
        simp only at hd
        cases ho : w.openDWARF path with
        | error e => rw [ho] at hd; simp only [Prod.mk.injEq] at hd; rw [← hd.2]
        | panic p => rw [ho] at hd; simp only [Prod.mk.injEq] at hd; rw [← hd.2]
        | ok o =>
          rw [ho] at hd
          cases o with
          | none => simp only [Prod.mk.injEq] at hd; rw [← hd.2]
          | some di => simp only [Prod.mk.injEq] at hd; rw [← hd.2]
    cases r with
    | error e => simp at h
    | panic p => simp at h
    | ok di =>
      simp only at h
      cases hl : FindAllCompileUnits.loop path di di.entries 0 [] with
      | error e => rw [hl] at h; simp at h
      | panic p => rw [hl] at h; simp at h
      | ok l =>
        rw [hl] at h
        simp only [Prod.mk.injEq, Res.ok.injEq] at h
        obtain ⟨h1, h2⟩ := h
        subst h1
        subst h2
        exact ⟨hframe, by simp [cmapSet]⟩

/-- Counterexample to C26: the line program of the one unit emits three rows, two of
them at `0x1000`, and `FindAllPCs(path, false)` returns the two addresses
`0x1000` and `0x1010`. -/
theorem FindAllPCs_rows_sharing_address :
    (∃ cus, (FindAllCompileUnits sharedWorld "a.o" Caches.empty).1 = .ok cus ∧
      cus.map rowsOf = [sharedRows]) ∧
    sharedRows.length = 3 ∧
    (FindAllPCs (linkedWorld callToTracePC) sharedWorld "a.o" false Caches.empty).1 =
      .ok [0x1000, 0x1010] :=
  ⟨⟨_, rfl, rfl⟩, rfl, rfl⟩

/-- C26 (amended).  Let `cus` be the compile units of the object, let the table of
address maps hold for them nothing but maps built from their line programs, and
let units with the same table key have the same rows.  Then the list
`FindAllPCs(path, false)` returns is the sorted concatenation of the addresses
of the units, each address of the rows of a unit taken once for that unit: it
is in ascending order, it holds exactly the addresses of the rows, its length is
at most the number `N` of rows, and it is `N` when no two rows of a unit share an
address. -/
theorem FindAllPCs_addresses (fs : ElfWorld) (w : World) (path : String) (c c0 c1 : Caches)
    (cus : List DWARFCompileUnit) (pcs : List Nat)
    (hcus : FindAllCompileUnits w path c = (.ok cus, c0))
    (hcoh : lineTableCoherent cus c) (hkey : keysDetermineRows cus)
    (h : FindAllPCs fs w path false c = (.ok pcs, c1)) :
    pcs = sortSlice (fun a b => decide (a < b)) (cus.flatMap unitAddresses) ∧
    pcs.Pairwise (fun a b => a ≤ b) ∧
    (∀ a, a ∈ pcs ↔ ∃ cu ∈ cus, ∃ row ∈ rowsOf cu, row.Address = a) ∧
    pcs.length ≤ (cus.map (fun cu => (rowsOf cu).length)).sum ∧
    ((∀ cu ∈ cus, ((rowsOf cu).map (fun row => row.Address)).Nodup) →
      pcs.length = (cus.map (fun cu => (rowsOf cu).length)).sum) := by
  obtain ⟨hframe, hstored⟩ := FindAllCompileUnits_frame w path c c0 cus hcus
  have hcoh0 : lineTableCoherent cus c0 := by
    intro cu hcu m hm
    rw [hframe] at hm
    exact hcoh cu hcu m hm
  unfold FindAllPCs at h
  simp only [Bool.false_eq_true, if_false] at h
  rcases hg : GenLineEntries w path c with ⟨r, c2⟩
  rw [hg] at h
  unfold GenLineEntries at hg
  rw [hcus] at hg
  simp only at hg
  cases r with
  | error e => simp at h
  | panic p => simp at h
  | ok u =>
    simp only at h
    obtain ⟨hcoh2, hframe2⟩ :=
      GenLineEntries_loop_coherent cus hkey cus c0 c2 (fun _ hx => hx) hcoh0 hg
    have hagain : FindAllCompileUnits w path c2 = (.ok cus, c2) := by
      unfold FindAllCompileUnits
      rw [hframe2, hstored]
    rw [hagain] at h
    simp only at h
    rcases hl : FindAllPCs.loop cus [] c2 with ⟨r3, c3⟩
    rw [hl] at h
    cases r3 with
    | error e => simp at h
    | panic p => simp at h
    | ok pcs1 =>
      simp only [Prod.mk.injEq, Res.ok.injEq] at h
      have hp := FindAllPCs_loop_eq cus hkey cus [] pcs1 c2 c3 (fun _ hx => hx) hcoh2 hl
      rw [List.nil_append] at hp
      have heq : pcs = sortSlice (fun a b => decide (a < b)) (cus.flatMap unitAddresses) := by
        rw [← h.1, hp]
      have hlen : pcs.length = (cus.map (fun cu => (unitAddresses cu).length)).sum := by
        rw [heq, length_sortSlice, List.length_flatMap]
        rfl
      refine ⟨heq, ?_, ?_, ?_, ?_⟩
      · rw [heq]
        exact sortSlice_asc (fun a => a) _
      · intro a
        rw [heq, mem_sortSlice, List.mem_flatMap]
        constructor
        · rintro ⟨cu, hcu, ha⟩
          exact ⟨cu, hcu, ((unitAddresses_spec cu).2.2 a).1 ha⟩
        · rintro ⟨cu, hcu, ha⟩
          exact ⟨cu, hcu, ((unitAddresses_spec cu).2.2 a).2 ha⟩
      · rw [hlen]
        exact List.sum_le_sum (fun cu _ => (unitAddresses_spec cu).2.1)
      · intro hnd
        rw [hlen]
        congr 1
        apply List.map_congr_left
        intro cu hcu
        have hperm : (unitAddresses cu).Perm ((rowsOf cu).map (fun row => row.Address)) := by
          rw [List.perm_ext_iff_of_nodup (unitAddresses_spec cu).1 (hnd cu hcu)]
          intro a
          rw [(unitAddresses_spec cu).2.2 a, List.mem_map]
        rw [hperm.length_eq, List.length_map]

/-- Witness of C26 (amended): the unit with two rows at `0x1000`, from empty
tables. -/
theorem FindAllPCs_addresses_witness :
    ([0x1000, 0x1010] : List Nat) =
      sortSlice (fun a b => decide (a < b)) ([sharedUnit].flatMap unitAddresses) ∧
    ([0x1000, 0x1010] : List Nat).Pairwise (fun a b => a ≤ b) ∧
    (∀ a, a ∈ ([0x1000, 0x1010] : List Nat) ↔
      ∃ cu ∈ [sharedUnit], ∃ row ∈ rowsOf cu, row.Address = a) ∧
    ([0x1000, 0x1010] : List Nat).length ≤ ([sharedUnit].map (fun cu => (rowsOf cu).length)).sum ∧
    ((∀ cu ∈ [sharedUnit], ((rowsOf cu).map (fun row => row.Address)).Nodup) →
      ([0x1000, 0x1010] : List Nat).length =
        ([sharedUnit].map (fun cu => (rowsOf cu).length)).sum) :=
  FindAllPCs_addresses (linkedWorld callToTracePC) sharedWorld "a.o" Caches.empty _ _
    [sharedUnit] [0x1000, 0x1010] rfl
    (fun cu _ m hm => by simp [Caches.empty] at hm)
    (fun cu1 h1 cu2 h2 _ => by
      rw [List.mem_singleton] at h1 h2
      rw [h1, h2])
    rfl

/-! ## The coverage rows of the call graph -/

/-- Sorting by `key a < key b` on integer keys leaves the keys in ascending order. -/
theorem sortSlice_asc_int {α : Type} (key : α → Int) (xs : List α) :
    (sortSlice (fun a b => decide (key a < key b)) xs).Pairwise (fun a b => key a ≤ key b) := by
  unfold sortSlice
  haveI : IsTotal α (fun a b => decide (key b < key a) = false) :=
    ⟨fun a b => by simp only [decide_eq_false_iff_not]; omega⟩
  haveI : IsTrans α (fun a b => decide (key b < key a) = false) :=
    ⟨fun a b c => by simp only [decide_eq_false_iff_not]; omega⟩
  have h := List.sorted_insertionSort (fun a b => decide (key b < key a) = false) xs
  refine List.Pairwise.imp ?_ h
  intro a b hab
  simp only [decide_eq_false_iff_not] at hab
  omega

theorem countAt_cons (f : DWARFFunction) (fs : List DWARFFunction) (d : Int) :
    countAt (f :: fs) d = (if f.Depth = d then 1 else 0) + countAt fs d := by
  unfold countAt
  rw [List.filter_cons]
  by_cases h : f.Depth = d
  · simp [h]
    omega
  · simp [h]

theorem coveredAt_cons (f : DWARFFunction) (fs : List DWARFFunction) (cov : List String)
    (d : Int) :
    coveredAt (f :: fs) cov d =
      (if f.Depth = d ∧ cov.contains f.Name = true then 1 else 0) + coveredAt fs cov d := by
  unfold coveredAt
  rw [List.filter_cons]
  by_cases h : f.Depth = d
  · by_cases hc : cov.contains f.Name = true
    · have hc1 : f.Name ∈ cov := by simpa using hc
      simp [h, hc1]
      omega
    · have hc1 : f.Name ∉ cov := by simpa using hc
      simp [h, hc1]
  · simp [h]

/-- The creation of the entry of `stats` for a depth: the key is added when it is
new, and the values shown stay the same. -/
theorem statsEnsure_spec (v : dotVars) (depth : Int)
    (hdef : ∀ d, d ∉ v.statKeys → v.stats d = ⟨0, 0, d⟩) :
    (statsEnsure v depth).statKeys =
      (if depth ∈ v.statKeys then v.statKeys else v.statKeys ++ [depth]) ∧
    (∀ d, (statsEnsure v depth).stats d = v.stats d) ∧
    (statsEnsure v depth).uniqFunc = v.uniqFunc := by
  unfold statsEnsure
  by_cases hk : depth ∈ v.statKeys
  · have hc : v.statKeys.contains depth = true := by simpa using hk
    simp [hc, hk]
  · have hc : ¬ v.statKeys.contains depth = true := by simpa using hk
    rw [if_neg hc, if_neg hk]
    refine ⟨rfl, ?_, rfl⟩
    intro d
    by_cases hd : d = depth
    · subst hd
      simp only [if_true]
      exact (hdef d hk).symm
    · simp only [hd, if_false]

/-- One iteration of the loop of `dot` on a function whose name was not seen
before, as far as `stats` and `uniqFunc` go. -/
theorem dot_step_spec (maxLevel : Int) (cov : List String) (v : dotVars) (f : DWARFFunction)
    (hnew : f.Name ∉ v.uniqFunc) (hdef : ∀ d, d ∉ v.statKeys → v.stats d = ⟨0, 0, d⟩) :
    (dot.step maxLevel cov v f).statKeys =
      (if f.Depth ∈ v.statKeys then v.statKeys else v.statKeys ++ [f.Depth]) ∧
    (∀ x, x ∈ (dot.step maxLevel cov v f).uniqFunc → x ∈ v.uniqFunc ∨ x = f.Name) ∧
    (∀ d, ¬ (maxLevel ≠ 0 ∧ d > maxLevel) →
      (dot.step maxLevel cov v f).stats d =
        if f.Depth = d then
          ⟨(v.stats d).Covered + (if cov.contains f.Name = true then 1 else 0),
            (v.stats d).Total + 1, (v.stats d).Depth⟩
        else v.stats d) ∧
    (∀ d, d ≠ f.Depth → (dot.step maxLevel cov v f).stats d = v.stats d) ∧
    (∀ d, ((dot.step maxLevel cov v f).stats d).Depth = (v.stats d).Depth) := by
  obtain ⟨hk, hs, hu⟩ := statsEnsure_spec v f.Depth hdef
  have hnc : ¬ (statsEnsure v f.Depth).uniqFunc.contains f.Name = true := by
    rw [hu]
    simpa using hnew
  unfold dot.step
  by_cases hskip : maxLevel ≠ 0 ∧ f.Depth > maxLevel
  · rw [if_pos hskip]
    refine ⟨hk, ?_, ?_, ?_, ?_⟩
    · intro x hx
      rw [hu] at hx
      exact Or.inl hx
    · intro d hd
      have hne : ¬ f.Depth = d := fun h => hd (h ▸ hskip)
      rw [if_neg hne]
      exact hs d
    · intro d _
      exact hs d
    · intro d
      rw [hs d]
  · rw [if_neg hskip]
    dsimp only
    rw [if_neg hnc, if_neg hnc]
    refine ⟨hk, ?_, ?_, ?_, ?_⟩
    · intro x hx
      rw [hu] at hx
      rcases List.mem_append.1 hx with hx | hx
      · exact Or.inl hx
      · exact Or.inr (List.mem_singleton.1 hx)
    · intro d _
      by_cases hc : cov.contains f.Name = true
      · have hc1 : f.Name ∈ cov := by simpa using hc
        rw [if_pos hc]
        by_cases hd : f.Depth = d
        · subst hd
          simp [statsAddCovered, statsAddTotal, hs, hc1]
        · have hd1 : ¬ d = f.Depth := fun h => hd h.symm
          simp [statsAddCovered, statsAddTotal, hs, hd, hd1]
      · have hc1 : f.Name ∉ cov := by simpa using hc
        rw [if_neg hc]
        by_cases hd : f.Depth = d
        · subst hd
          simp [statsAddTotal, hs, hc1]
        · have hd1 : ¬ d = f.Depth := fun h => hd h.symm
          simp [statsAddTotal, hs, hd, hd1]
    · intro d hd
      by_cases hc : cov.contains f.Name = true
      · rw [if_pos hc]
        simp [statsAddCovered, statsAddTotal, hs, hd]
      · rw [if_neg hc]
        simp [statsAddTotal, hs, hd]
    · intro d
      by_cases hc : cov.contains f.Name = true
      · rw [if_pos hc]
        by_cases hd : d = f.Depth
        · simp [statsAddCovered, statsAddTotal, hs, hd]
        · simp [statsAddCovered, statsAddTotal, hs, hd]
      · rw [if_neg hc]
        by_cases hd : d = f.Depth
        · simp [statsAddTotal, hs, hd]
        · simp [statsAddTotal, hs, hd]

/-- The loop of `dot` on functions with pairwise distinct names, none of them seen
before: the keys of `stats` are the old ones and the depths of the functions, and
at a depth that `maxLevel` does not cut off the counters grow by the number of
functions of that depth and by the number of the covered ones among them. -/
theorem dot_loop_stats (maxLevel : Int) (cov : List String) :
    ∀ (fs : List DWARFFunction) (v : dotVars),
      (fs.map (fun f => f.Name)).Nodup → (∀ f ∈ fs, f.Name ∉ v.uniqFunc) →
      v.statKeys.Nodup → (∀ d, d ∉ v.statKeys → v.stats d = ⟨0, 0, d⟩) →
      (dot.loop maxLevel cov fs v).statKeys.Nodup ∧
      (∀ d, d ∈ (dot.loop maxLevel cov fs v).statKeys ↔
        d ∈ v.statKeys ∨ ∃ f ∈ fs, f.Depth = d) ∧
      (∀ d, ¬ (maxLevel ≠ 0 ∧ d > maxLevel) →
        (dot.loop maxLevel cov fs v).stats d =
          ⟨(v.stats d).Covered + coveredAt fs cov d, (v.stats d).Total + countAt fs d,
            (v.stats d).Depth⟩) ∧
      (∀ d, ((dot.loop maxLevel cov fs v).stats d).Depth = (v.stats d).Depth) := by
  intro fs
  induction fs with
  | nil =>
    intro v _ _ hk _
    refine ⟨hk, fun d => by simp [dot.loop], fun d _ => ?_, fun d => rfl⟩
    simp [dot.loop, coveredAt, countAt]
  | cons f rest ih =>
    intro v hnd hnew hk hdef
    rw [List.map_cons, List.nodup_cons] at hnd
    obtain ⟨hk1, hu1, hs1, hs2, hs3⟩ :=
      dot_step_spec maxLevel cov v f (hnew f (List.mem_cons_self _ _)) hdef
    have hnew1 : ∀ g ∈ rest, g.Name ∉ (dot.step maxLevel cov v f).uniqFunc := by
      intro g hg hx
      rcases hu1 _ hx with hx | hx
      · exact hnew g (List.mem_cons_of_mem _ hg) hx
      · exact hnd.1 (List.mem_map.2 ⟨g, hg, hx⟩)
    have hknd : (dot.step maxLevel cov v f).statKeys.Nodup := by
      rw [hk1]
      split
      · exact hk
      · rename_i hn
        rw [List.nodup_append]
        refine ⟨hk, List.nodup_singleton _, ?_⟩
        intro a ha hb
        rw [List.mem_singleton] at hb
        exact hn (hb ▸ ha)
    have hdef1 : ∀ d, d ∉ (dot.step maxLevel cov v f).statKeys →
        (dot.step maxLevel cov v f).stats d = ⟨0, 0, d⟩ := by
      intro d hd
      rw [hk1] at hd
      have hne : d ≠ f.Depth := by
        intro h
        subst h
        split at hd
        · rename_i hin
          exact hd hin
        · exact hd (List.mem_append_right _ (List.mem_singleton_self _))
      have hnot : d ∉ v.statKeys := by
        intro hin
        split at hd
        · exact hd hin
        · exact hd (List.mem_append_left _ hin)
      rw [hs2 d hne]
      exact hdef d hnot
    obtain ⟨h1, h2, h3, h4⟩ := ih (dot.step maxLevel cov v f) hnd.2 hnew1 hknd hdef1
    refine ⟨h1, ?_, ?_, fun d => (h4 d).trans (hs3 d)⟩
    · intro d
      show d ∈ (dot.loop maxLevel cov rest (dot.step maxLevel cov v f)).statKeys ↔ _
      rw [h2, hk1]
      constructor
      · rintro (h | ⟨g, hg, hgd⟩)
        · split at h
          · exact Or.inl h
          · rcases List.mem_append.1 h with h | h
            · exact Or.inl h
            · exact Or.inr ⟨f, List.mem_cons_self _ _, (List.mem_singleton.1 h).symm⟩
        · exact Or.inr ⟨g, List.mem_cons_of_mem _ hg, hgd⟩
      · rintro (h | ⟨g, hg, hgd⟩)
        · left
          split
          · exact h
          · exact List.mem_append_left _ h
        · rcases List.mem_cons.1 hg with hg | hg
          · left
            subst hg
            split
            · rename_i hin
              exact hgd ▸ hin
            · exact List.mem_append_right _ (List.mem_singleton.2 hgd.symm)
          · exact Or.inr ⟨g, hg, hgd⟩
    · intro d hd
      show (dot.loop maxLevel cov rest (dot.step maxLevel cov v f)).stats d = _
      rw [h3 d hd, hs1 d hd, countAt_cons, coveredAt_cons]
      by_cases hfd : f.Depth = d
      · by_cases hc : cov.contains f.Name = true
        · have hc1 : f.Name ∈ cov := by simpa using hc
          simp [hfd, hc1]
          constructor <;> omega
        · have hc1 : f.Name ∉ cov := by simpa using hc
          simp [hfd, hc1]
          omega
      · simp [hfd]

/-- C28.  For every listing with pairwise distinct names, every level limit and
every non-empty covered set, the rows `dot` prints are in ascending order of
depth, there is a row for each depth of the listing that the limit does not cut
off and for no other, and the row of depth `d` holds as `Total` the number of
listed functions at depth `d`, as `Covered` the number of those whose name is in
the covered set, and as the last column `percent` of the two.  For the listing
`[A@1, B@2, C@2, D@3]` and the covered set `{A, C}` the rows are `1,1,1,100%`,
`2,1,2,50%` and `3,0,1,0%`. -/
theorem dot_rows_counts (funcs : List DWARFFunction) (maxLevel : Int) (cov : List String)
    (hnd : (funcs.map (fun f => f.Name)).Nodup) (hcov : cov ≠ []) :
    (dot.rows funcs maxLevel cov true).Pairwise (fun a b => a.1 < b.1) ∧
    (∀ row ∈ dot.rows funcs maxLevel cov true,
      row.2.2.1 = countAt funcs row.1 ∧ row.2.1 = coveredAt funcs cov row.1 ∧
        row.2.2.2 = percent row.2.1 row.2.2.1) ∧
    (∀ d, (∃ row ∈ dot.rows funcs maxLevel cov true, row.1 = d) ↔
      ((∃ f ∈ funcs, f.Depth = d) ∧ ¬ (maxLevel ≠ 0 ∧ d > maxLevel))) ∧
    dot.rows statListing 0 ["A", "C"] true =
      [(1, 1, 1, some 100), (2, 1, 2, some 50), (3, 0, 1, some 0)] := by
  obtain ⟨hk, hmem, hst, hdep⟩ := dot_loop_stats maxLevel cov funcs dotVars.init hnd
    (fun f _ h => absurd h (List.not_mem_nil _)) List.nodup_nil (fun d _ => rfl)
  have hlen : cov.length > 0 := List.length_pos.2 hcov
  have hdep1 : ∀ d, ((dot.loop maxLevel cov funcs dotVars.init).stats d).Depth = d :=
    fun d => hdep d
  -- the values of `stats` that are printed
  have hval : ∀ c, c ∈ (dot.loop maxLevel cov funcs dotVars.init).statKeys.map
        (dot.loop maxLevel cov funcs dotVars.init).stats →
      ¬ (maxLevel ≠ 0 ∧ c.Depth > maxLevel) →
      (∃ f ∈ funcs, f.Depth = c.Depth) ∧
        c = ⟨coveredAt funcs cov c.Depth, countAt funcs c.Depth, c.Depth⟩ := by
    intro c hc hcut
    rw [List.mem_map] at hc
    obtain ⟨d, hd, hdc⟩ := hc
    have hcd : c.Depth = d := by rw [← hdc]; exact hdep1 d
    rw [hcd] at hcut ⊢
    refine ⟨?_, ?_⟩
    · rcases (hmem d).1 hd with h | h
      · exact absurd h (List.not_mem_nil _)
      · exact h
    · rw [← hdc, hst d hcut]
      simp [dotVars.init]
  have hsorted : (sortSlice (fun a b : covStats => decide (a.Depth < b.Depth))
      ((dot.loop maxLevel cov funcs dotVars.init).statKeys.map
        (dot.loop maxLevel cov funcs dotVars.init).stats)).Pairwise
      (fun a b => a.Depth < b.Depth) := by
    have h1 := sortSlice_asc_int (fun c : covStats => c.Depth)
      ((dot.loop maxLevel cov funcs dotVars.init).statKeys.map
        (dot.loop maxLevel cov funcs dotVars.init).stats)
    have hkeys : ((dot.loop maxLevel cov funcs dotVars.init).statKeys.map
        (dot.loop maxLevel cov funcs dotVars.init).stats).map (fun c => c.Depth) =
        (dot.loop maxLevel cov funcs dotVars.init).statKeys := by
      rw [List.map_map]
      conv_rhs => rw [← List.map_id (dot.loop maxLevel cov funcs dotVars.init).statKeys]
      apply List.map_congr_left
      intro d _
      exact hdep1 d
    have h2 : ((sortSlice (fun a b : covStats => decide (a.Depth < b.Depth))
        ((dot.loop maxLevel cov funcs dotVars.init).statKeys.map
          (dot.loop maxLevel cov funcs dotVars.init).stats)).map (fun c => c.Depth)).Nodup := by
      refine ((sortSlice_perm _ _).map _).nodup_iff.2 ?_
      rw [hkeys]
      exact hk
    have h3 := List.pairwise_map.1 h2
    exact (h1.and h3).imp (fun ⟨hle, hne⟩ => lt_of_le_of_ne hle hne)
  have hrows : dot.rows funcs maxLevel cov true =
      ((sortSlice (fun a b : covStats => decide (a.Depth < b.Depth))
        ((dot.loop maxLevel cov funcs dotVars.init).statKeys.map
          (dot.loop maxLevel cov funcs dotVars.init).stats)).filter
        (fun c => !(decide (maxLevel ≠ 0) && decide (c.Depth > maxLevel)))).map
        (fun c => (c.Depth, c.Covered, c.Total, percent c.Covered c.Total)) := by
    unfold dot.rows
    rw [if_pos ⟨rfl, hlen⟩]
  have hrow : ∀ row, row ∈ dot.rows funcs maxLevel cov true ↔
      ∃ c ∈ (dot.loop maxLevel cov funcs dotVars.init).statKeys.map
          (dot.loop maxLevel cov funcs dotVars.init).stats,
        ¬ (maxLevel ≠ 0 ∧ c.Depth > maxLevel) ∧
          row = (c.Depth, c.Covered, c.Total, percent c.Covered c.Total) := by
    intro row
    rw [hrows, List.mem_map]
    constructor
    · rintro ⟨c, hc, rfl⟩
      rw [List.mem_filter, mem_sortSlice] at hc
      refine ⟨c, hc.1, ?_, rfl⟩
      have := hc.2
      simp only [Bool.not_eq_true', Bool.and_eq_false_iff, decide_eq_false_iff_not] at this
      tauto
    · rintro ⟨c, hc, hcut, rfl⟩
      refine ⟨c, ?_, rfl⟩
      rw [List.mem_filter, mem_sortSlice]
      refine ⟨hc, ?_⟩
      simp only [Bool.not_eq_true', Bool.and_eq_false_iff, decide_eq_false_iff_not]
      tauto
  refine ⟨?_, ?_, ?_, by decide⟩
  · rw [hrows]
    exact List.Pairwise.map _ (fun a b h => h) (hsorted.filter _)
  · intro row hr
    obtain ⟨c, hc, hcut, rfl⟩ := (hrow row).1 hr
    obtain ⟨_, hceq⟩ := hval c hc hcut
    refine ⟨?_, ?_, rfl⟩
    · show c.Total = countAt funcs c.Depth
      rw [hceq]
    · show c.Covered = coveredAt funcs cov c.Depth
      rw [hceq]
  · intro d
    constructor
    · rintro ⟨row, hr, rfl⟩
      obtain ⟨c, hc, hcut, rfl⟩ := (hrow row).1 hr
      exact ⟨(hval c hc hcut).1, hcut⟩
    · rintro ⟨⟨f, hf, hfd⟩, hcut⟩
      have hd : d ∈ (dot.loop maxLevel cov funcs dotVars.init).statKeys :=
        (hmem d).2 (Or.inr ⟨f, hf, hfd⟩)
      refine ⟨_, (hrow _).2 ⟨(dot.loop maxLevel cov funcs dotVars.init).stats d,
        List.mem_map.2 ⟨d, hd, rfl⟩, ?_, rfl⟩, hdep1 d⟩
      rw [hdep1 d]
      exact hcut

/-- Witness of C28: the listing `[A@1, B@2, C@2, D@3]` with the covered set
`{A, C}` and no level limit. -/
theorem dot_rows_counts_witness :
    (dot.rows statListing 0 ["A", "C"] true).Pairwise (fun a b => a.1 < b.1) ∧
    (∀ row ∈ dot.rows statListing 0 ["A", "C"] true,
      row.2.2.1 = countAt statListing row.1 ∧ row.2.1 = coveredAt statListing ["A", "C"] row.1 ∧
        row.2.2.2 = percent row.2.1 row.2.2.1) ∧
    (∀ d, (∃ row ∈ dot.rows statListing 0 ["A", "C"] true, row.1 = d) ↔
      ((∃ f ∈ statListing, f.Depth = d) ∧ ¬ ((0 : Int) ≠ 0 ∧ d > 0))) ∧
    dot.rows statListing 0 ["A", "C"] true =
      [(1, 1, 1, some 100), (2, 1, 2, some 50), (3, 0, 1, some 0)] :=
  dot_rows_counts statListing 0 ["A", "C"] (by decide) (by decide)

/-! ## The depth of the listed functions -/

/-- One iteration of the loop of `findAllFuncs` on an entry that is neither a
compile unit nor a null entry: the loop goes on with the rest of the stream at
the depth of the children, having appended at most one record, which carries the
offset of the entry and the depth at which the entry was read. -/
theorem findAllFuncs_loop_step (cu : DWARFCompileUnit) (ent : Entry) (rest : List Entry)
    (first : Bool) (depth : Int) (funcs r : List DWARFFunction) (c c1 : Caches)
    (hcu : ent.Tag ≠ TagCompileUnit) (h0 : ent.Tag ≠ 0)
    (h : findAllFuncs.loop cu (ent :: rest) first depth funcs c = (.ok r, c1)) :
    ∃ funcs1 c2,
      findAllFuncs.loop cu rest first (childDepth ent depth) funcs1 c2 = (.ok r, c1) ∧
      (funcs1 = funcs ∨ ∃ f, funcs1 = funcs ++ [f] ∧ f.Offset = ent.Offset ∧ f.Depth = depth) := by
  unfold findAllFuncs.loop at h
  rw [if_neg hcu] at h
  by_cases hsp : ent.Tag = TagSubprogram
  · rw [if_pos hsp] at h
    obtain ⟨f, c2, hp, h⟩ := M.bind_ok_inv _ _ _ _ _ h
    cases f with
    | none => exact ⟨funcs, c2, h, Or.inl rfl⟩
    | some f =>
      obtain ⟨_, _, ho, hd, _⟩ := (parseSubprogram_ok cu ent depth c c2 (some f) hp).2 f rfl
      exact ⟨funcs ++ [f], c2, h, Or.inr ⟨f, rfl, ho, hd⟩⟩
  · rw [if_neg hsp] at h
    by_cases hin : ent.Tag = TagInlinedSubroutine
    · rw [if_pos hin] at h
      cases ho : ent.Val AttrAbstractOrigin with
      | none =>
        rw [ho] at h
        exact ⟨funcs, c, h, Or.inl rfl⟩
      | some v =>
        rw [ho] at h
        simp only at h
        obtain ⟨f, c2, hp, h⟩ := M.bind_ok_inv _ _ _ _ _ h
        cases f with
        | none => exact ⟨funcs, c2, h, Or.inl rfl⟩
        | some f =>
          obtain ⟨_, _, hoff, hd, _⟩ := (parseSubroutine_ok cu ent depth c c2 (some f) hp).2 f rfl
          exact ⟨funcs ++ [f], c2, h, Or.inr ⟨f, rfl, hoff, hd⟩⟩
    · rw [if_neg hin, if_neg h0] at h
      exact ⟨funcs, c, h, Or.inl rfl⟩

/-- At a null entry the loop of `findAllFuncs` goes one level up. -/
theorem findAllFuncs_loop_null (cu : DWARFCompileUnit) (rest : List Entry) (first : Bool)
    (depth : Int) (funcs : List DWARFFunction) (c : Caches) :
    findAllFuncs.loop cu (nullEntry :: rest) first depth funcs c =
      findAllFuncs.loop cu rest first (depth - 1) funcs c := by
  conv_lhs => unfold findAllFuncs.loop
  simp [nullEntry, TagCompileUnit, TagSubprogram, TagInlinedSubroutine, childDepth]

/-- The loop of `findAllFuncs` on the stream of a well-formed list of siblings read
at depth `depth`: it reaches the entries after the list at the same depth, and
the records it has appended carry, in stream order, offsets and depths of
entries of the list with their numbers of proper ancestors. -/
theorem findAllFuncs_loop_dies (cu : DWARFCompileUnit) :
    ∀ (t : Dies), t.wellFormed = true →
      ∀ (tail : List Entry) (first : Bool) (depth : Int) (funcs r : List DWARFFunction)
        (c c1 : Caches),
        findAllFuncs.loop cu (t.stream ++ tail) first depth funcs c = (.ok r, c1) →
        ∃ new c2, findAllFuncs.loop cu tail first depth (funcs ++ new) c2 = (.ok r, c1) ∧
          List.Sublist (new.map (fun f => (f.Offset, f.Depth)))
            ((t.levels depth).map (fun p => (p.1.Offset, p.2))) := by
  intro t
  induction t with
  | nil =>
    intro _ tail first depth funcs r c c1 h
    refine ⟨[], c, ?_, ?_⟩
    · rw [List.append_nil]
      exact h
    · exact List.Sublist.slnil
  | cons ent kids sibs ihk ihs =>
    intro hwf tail first depth funcs r c c1 h
    simp only [Dies.wellFormed, Bool.and_eq_true, bne_iff_ne, ne_eq, Bool.or_eq_true] at hwf
    obtain ⟨⟨⟨⟨h0, hcu⟩, hkn⟩, hwk⟩, hws⟩ := hwf
    simp only [Dies.stream, List.cons_append] at h
    obtain ⟨funcs1, c2, hstep, hf1⟩ :=
      findAllFuncs_loop_step cu ent _ first depth funcs r c c1 hcu h0 h
    -- the records of the children and of the siblings that follow
    have hrest : ∃ new c3, findAllFuncs.loop cu tail first depth (funcs1 ++ new) c3 = (.ok r, c1) ∧
        List.Sublist (new.map (fun f => (f.Offset, f.Depth)))
          ((kids.levels (depth + 1) ++ sibs.levels depth).map (fun p => (p.1.Offset, p.2))) := by
      by_cases hch : ent.Children = true
      · simp only [hch, if_true, childDepth, List.append_assoc, List.singleton_append] at hstep
        obtain ⟨newk, c3, hk, hsk⟩ := ihk hwk _ first (depth + 1) funcs1 r c2 c1 hstep
        rw [List.cons_append, findAllFuncs_loop_null, Int.add_sub_cancel] at hk
        obtain ⟨news, c4, hs, hss⟩ := ihs hws tail first depth (funcs1 ++ newk) r c3 c1 hk
        refine ⟨newk ++ news, c4, ?_, ?_⟩
        · rw [← List.append_assoc]
          exact hs
        · rw [List.map_append, List.map_append]
          exact List.Sublist.append hsk hss
      · have hch1 : ent.Children = false := by simpa using hch
        simp only [hch1, Bool.false_eq_true, if_false, childDepth, List.nil_append] at hstep
        obtain ⟨news, c4, hs, hss⟩ := ihs hws tail first depth funcs1 r c2 c1 hstep
        refine ⟨news, c4, hs, ?_⟩
        rw [List.map_append]
        exact hss.trans (List.sublist_append_right _ _)
    obtain ⟨new, c3, hloop, hsub⟩ := hrest
    rcases hf1 with hf1 | ⟨f, hf1, hoff, hdep⟩
    · subst hf1
      refine ⟨new, c3, hloop, ?_⟩
      simp only [Dies.levels, List.map_cons]
      exact List.Sublist.cons _ hsub
    · subst hf1
      refine ⟨f :: new, c3, ?_, ?_⟩
      · rw [List.append_assoc] at hloop
        exact hloop
      · simp only [Dies.levels, List.map_cons]
        rw [hoff, hdep]
        exact List.Sublist.cons₂ _ hsub

/-- C30.  Let the stream of a unit be its root entry, then, when the root has the
flag `Children`, the stream of the well-formed list `kids` of its children and
the null entry that closes it, then the entries `rest` of the following units,
if any (a root without the flag has no children).  Then the records
`findAllFuncs` returns carry, in stream order, the
offsets of entries of the unit, each with a `Depth` equal to the number of
proper ancestors of that entry, the root included: 1 for the children of the
root, and one more for each level below, lexical blocks and every other tag
counted. -/
theorem findAllFuncs_depth (cu : DWARFCompileUnit) (c c1 : Caches)
    (funcs : List DWARFFunction) (root : Entry) (kids : Dies) (rest : List Entry)
    (hseek : cu.Dwarf.Seek cu.Entry.Offset =
      some (root :: ((if root.Children then kids.stream ++ [nullEntry] else []) ++ rest)))
    (hroot : root.Tag = TagCompileUnit)
    (hwf : kids.wellFormed = true)
    (hrest : ∀ e, rest.head? = some e → e.Tag = TagCompileUnit)
    (h : findAllFuncs cu c = (.ok funcs, c1)) :
    List.Sublist (funcs.map (fun f => (f.Offset, f.Depth)))
      ((kids.levels 1).map (fun p => (p.1.Offset, p.2))) := by
  unfold findAllFuncs at h
  rw [hseek] at h
  obtain ⟨all, c2, hloop, h⟩ := M.bind_ok_inv _ _ _ _ _ h
  have hfuncs : funcs = dropZeroRange all := ((M.pure_ok_inv _ _ _ _ h).1).symm
  -- the loop on the entries after the unit
  have hafter : ∀ (acc r : List DWARFFunction) (d : Int) (ca cb : Caches),
      findAllFuncs.loop cu rest false d acc ca = (.ok r, cb) → r = acc := by
    intro acc r d ca cb hr
    cases hrs : rest with
    | nil =>
      rw [hrs] at hr
      unfold findAllFuncs.loop at hr
      obtain ⟨_, cx, _, hr⟩ := M.bind_ok_inv _ _ _ _ _ hr
      exact ((M.pure_ok_inv _ _ _ _ hr).1).symm
    | cons e es =>
      rw [hrs] at hr
      have he : e.Tag = TagCompileUnit := hrest e (by rw [hrs]; rfl)
      unfold findAllFuncs.loop at hr
      rw [if_pos he] at hr
      simp only [Bool.false_eq_true, if_false] at hr
      exact ((M.pure_ok_inv _ _ _ _ hr).1).symm
  have hall : List.Sublist (all.map (fun f => (f.Offset, f.Depth)))
      ((kids.levels 1).map (fun p => (p.1.Offset, p.2))) := by
    unfold findAllFuncs.loop at hloop
    rw [if_pos hroot] at hloop
    simp only [if_true] at hloop
    by_cases hch : root.Children = true
    · simp only [hch, if_true, childDepth, List.append_assoc, List.singleton_append] at hloop
      obtain ⟨new, c3, hk, hsub⟩ :=
        findAllFuncs_loop_dies cu kids hwf _ false (0 + 1) [] all c c2 hloop
      rw [findAllFuncs_loop_null] at hk
      have := hafter _ _ _ _ _ hk
      rw [this, List.nil_append]
      exact hsub
    · have hch1 : root.Children = false := by simpa using hch
      simp only [hch1, Bool.false_eq_true, if_false, childDepth, List.nil_append] at hloop
      have := hafter _ _ _ _ _ hloop
      rw [this]
      exact List.nil_sublist _
  rw [hfuncs]
  exact ((List.filter_sublist _).map _).trans hall

set_option maxRecDepth 100000 in
/-- Witness of C30: the unit in which `a` inlines `b` (which inlines `c`) and `d`,
whose lexical block holds `e`; the records have the depths 1, 2, 3, 2 and 4. -/
theorem findAllFuncs_depth_witness :
    List.Sublist (graphListing.map (fun f => (f.Offset, f.Depth)))
      ((graphDies.levels 1).map (fun p => (p.1.Offset, p.2))) :=
  findAllFuncs_depth graphUnit Caches.empty _ graphListing chainCU graphDies [] rfl rfl
    rfl (fun e he => by simp at he) rfl

/-! ## The by-address traversals against the listing -/

set_option maxRecDepth 100000 in
/-- C31 (failing input).  In the unit whose subprogram `outer` has the children
`helper`, a nested subprogram, and `inner`, an inlined subroutine with an
abstract origin, the name `inner` and the range `[0x1010, 0x1020)`, the loop of
`GetSubroutinesBySubprogram` ends at `helper`: the call returns the empty list,
and `FindAllFramesByAddr` at `pc = 0x1014`, inside `inner`, returns the frame of
`outer` alone. -/
theorem GetSubroutinesBySubprogram_stops_at_nested_subprogram :
    nestedData.entries = chainCU :: (nestedDies.stream ++ [nullEntry]) ∧
    nestedDies.wellFormed = true ∧
    (∃ sp, (GetSubprogramByAddr nestedUnit 0x1014 Caches.empty).1 = .ok (some sp) ∧
      sp.Offset = chainOuter.Offset ∧
      (∃ f, (parseSubroutine nestedUnit blockInner (sp.Depth + 1) Caches.empty).1 = .ok (some f) ∧
        f.Name = "inner" ∧ f.Ranges = [(0x1010, 0x1020)]) ∧
      (GetSubroutinesBySubprogram sp Caches.empty).1 = .ok []) ∧
    (FindAllFramesByAddr nestedWorld "a.o" 0x1014 Caches.empty).1 =
      .ok [⟨0x1014, "outer", "b.c", 3, false⟩] :=
  ⟨by rfl, by rfl, ⟨_, rfl, rfl, ⟨_, rfl, rfl, rfl⟩, rfl⟩, by rfl⟩

set_option maxRecDepth 100000 in
/-- C32 (failing input).  An entry whose abstract origin leads to a target without
`DW_AT_decl_file` makes the parsers panic on the assertion `.(int64)`: for a
target with neither name nor file, where no name is found on either entry, and
for a target with a name; `findAllFuncs` panics with them.  When the target has
a file, the parsers do as stated: no record and no error when no name is found,
the name of the target ahead of the entry's own, and no second step along the
origin of the target. -/
theorem parseSubroutine_target_without_file_panics :
    (parseSubroutine (originUnit targetBare blockInner) blockInner 2 Caches.empty).1 =
      .panic .typeAssertion ∧
    (parseSubprogram (originUnit targetBare concreteOrigin) concreteOrigin 2 Caches.empty).1 =
      .panic .typeAssertion ∧
    (parseSubroutine (originUnit targetNamed blockInner) blockInner 2 Caches.empty).1 =
      .panic .typeAssertion ∧
    (findAllFuncs (originUnit targetBare blockInner) Caches.empty).1 = .panic .typeAssertion ∧
    (parseSubroutine (originUnit targetFileOnly blockInner) blockInner 2 Caches.empty).1 =
      .ok none ∧
    (parseSubprogram (originUnit targetFileOnly concreteOrigin) concreteOrigin 2
      Caches.empty).1 = .ok none ∧
    (∃ f, (parseSubroutine (originUnit chainAbstractInner inlinedOwnName) inlinedOwnName 2
      Caches.empty).1 = .ok (some f) ∧ f.Name = "inner") ∧
    (parseSubroutine (originUnit targetChained blockInner) blockInner 2 Caches.empty).1 =
      .ok none :=
  ⟨by rfl, by rfl, by rfl, by rfl, by rfl, by rfl, ⟨_, rfl, rfl⟩, by rfl⟩

set_option maxRecDepth 100000 in
/-- C33 (failing input).  In the inline chain `findAllFuncs` gives `outer`,
`middle`, `inner` the depths 1, 2, 3, and `GetSubroutinesBySubprogram` gives
`middle` and `inner` the depths 1 and 2.  In the unit whose first child is an
abstract instance with a parameter, `findAllFuncs` gives `outer` the depth 1 and
`GetSubprogramByAddr` the depth 0. -/
theorem by_address_records_differ_in_depth :
    (∃ l, (findAllFuncs chainUnit Caches.empty).1 = .ok l ∧
      l.map (fun f => (f.Offset, f.Depth)) = [(0x40, 1), (0x50, 2), (0x60, 3)]) ∧
    (∃ sp l, (GetSubprogramByAddr chainUnit 0x1058 Caches.empty).1 = .ok (some sp) ∧
      (sp.Offset, sp.Depth) = (0x40, 1) ∧
      (GetSubroutinesBySubprogram sp Caches.empty).1 = .ok l ∧
      l.map (fun f => (f.Offset, f.Depth)) = [(0x50, 1), (0x60, 2)]) ∧
    (∃ l, (findAllFuncs paramUnit Caches.empty).1 = .ok l ∧
      l.map (fun f => (f.Offset, f.Depth)) = [(0x40, 1)]) ∧
    (∃ sp, (GetSubprogramByAddr paramUnit 0x1010 Caches.empty).1 = .ok (some sp) ∧
      (sp.Offset, sp.Depth) = (0x40, 0)) :=
  ⟨⟨_, rfl, rfl⟩, ⟨_, _, rfl, rfl, rfl, rfl⟩, ⟨_, rfl, rfl⟩, ⟨_, rfl, rfl⟩⟩

set_option maxRecDepth 100000 in
/-- C35 (failing input).  The key of `FindAllFuncsInCUByAddr` for the file `a.o` and
the unit at offset 11 is the string `a.o-11`, the key of `FindAllFuncs` for the
file `a.o-11`; likewise the key of `FindAllFramesByAddr` for `("a", 1, 2)` is the
key of `FindAllFuncsInCUByAddr` for `("a-1", 2)`.  After
`FindAllFuncsInCUByAddr("a.o", 0x1000)` has stored `[fa]`, `FindAllFuncs("a.o-11")`
returns `[fa]`, where from empty tables it returns the functions `outer`,
`middle`, `inner` of that file. -/
theorem allSubroutinesCMap_keys_collide :
    cuKey "a.o" 11 = "a.o-11" ∧
    spKey "a" 1 2 = cuKey "a-1" 2 ∧
    (∃ l, (FindAllFuncs twoPathWorld "a.o-11" [0] Caches.empty).1 = .ok l ∧
      l.map (fun f => f.Name) = ["outer", "middle", "inner"]) ∧
    (∃ l, (FindAllFuncsInCUByAddr twoPathWorld "a.o" 0x1000 Caches.empty).1 = .ok l ∧
      l.map (fun f => f.Name) = ["fa"]) ∧
    (∃ l, (FindAllFuncs twoPathWorld "a.o-11" [0]
        (FindAllFuncsInCUByAddr twoPathWorld "a.o" 0x1000 Caches.empty).2).1 = .ok l ∧
      l.map (fun f => f.Name) = ["fa"]) :=
  ⟨by decide, by decide, ⟨_, rfl, rfl⟩, ⟨_, rfl, rfl⟩, ⟨_, rfl, rfl⟩⟩

/-- C36 (failing input).  For the listing `[A@1, B@2, B@2]` with the covered set
`{B}` the statistics of depth 2 are `Covered = 2`, `Total = 1`, and the row
reads 200%.  For `[A@1, A@2]` with the covered set `{A}` they are `Covered = 1`,
`Total = 0`, and the quotient converted by `percent` is not a finite number. -/
theorem dot_covered_exceeds_total :
    dot.rows repeatListing 0 ["B"] true = [(1, 0, 1, some 0), (2, 2, 1, some 200)] ∧
    dot.rows [listed "A" 1, listed "A" 2] 0 ["A"] true =
      [(1, 1, 1, some 100), (2, 1, 0, none)] :=
  ⟨by decide, by decide⟩

/-! ## The AArch64 decoder against the encoding of `BL` -/

/-- C34.  For every little-endian word whose most significant byte is `0x94` or
`0x97`, that byte being the opcode argument, the AArch64 decoder returns the
target of `BL`: `pc + 4 * sign_extend_26(word & 0x3FFFFFF)` modulo `2^64`.  For
the most significant bytes `0x95` and `0x96`, which are `BL` too and which the
scan does not take, the value of the decoder is another one. -/
theorem aarch64Target_bl (b0 b1 b2 : Byte) (pc : Nat) :
    archAArch64.callTarget [b0, b1, b2, 0x94] pc 0x94 =
      .ok (blTarget (b0.val + b1.val * 2 ^ 8 + b2.val * 2 ^ 16 + 0x94 * 2 ^ 24) pc) ∧
    archAArch64.callTarget [b0, b1, b2, 0x97] pc 0x97 =
      .ok (blTarget (b0.val + b1.val * 2 ^ 8 + b2.val * 2 ^ 16 + 0x97 * 2 ^ 24) pc) ∧
    archAArch64.callTarget [b0, b1, b2, 0x95] pc 0x95 ≠
      .ok (blTarget (b0.val + b1.val * 2 ^ 8 + b2.val * 2 ^ 16 + 0x95 * 2 ^ 24) pc) ∧
    archAArch64.callTarget [b0, b1, b2, 0x96] pc 0x96 ≠
      .ok (blTarget (b0.val + b1.val * 2 ^ 8 + b2.val * 2 ^ 16 + 0x96 * 2 ^ 24) pc) := by
  have h0 := b0.isLt
  have h1 := b1.isLt
  have h2 := b2.isLt
  generalize hw : b0.val + b1.val * 2 ^ 8 + b2.val * 2 ^ 16 = w
  have hwlt : w < 2 ^ 24 := by
    rw [← hw]
    norm_num
    omega
  have hne94 : ¬ ((0x94 : Byte) = (0x97 : Byte)) := by decide
  have hne95 : ¬ ((0x95 : Byte) = (0x97 : Byte)) := by decide
  have hne96 : ¬ ((0x96 : Byte) = (0x97 : Byte)) := by decide
  have hv94 : ((0x94 : Byte) : Fin 256).val = 0x94 := rfl
  have hv95 : ((0x95 : Byte) : Fin 256).val = 0x95 := rfl
  have hv96 : ((0x96 : Byte) : Fin 256).val = 0x96 := rfl
  have hv97 : ((0x97 : Byte) : Fin 256).val = 0x97 := rfl
  have hlow : ∀ k : Nat, (w + k * 2 ^ 24) % 2 ^ 24 = w := by
    intro k
    rw [Nat.add_mul_mod_self_right, Nat.mod_eq_of_lt hwlt]
  refine ⟨?_, ?_, ?_, ?_⟩
  · simp only [Arch.callTarget, archAArch64, aarch64Target, uint32LE, hv94, hw, low24_mask,
      hlow, hne94, if_false, Res.ok.injEq, blTarget, signExtend26]
    have hm : (w + 0x94 * 2 ^ 24) % 2 ^ 26 = w := by
      norm_num at hwlt ⊢
      omega
    rw [hm, if_pos (by omega)]
    norm_num at hwlt ⊢
    omega
  · simp only [Arch.callTarget, archAArch64, aarch64Target, uint32LE, hv97, hw, low24_mask,
      hlow, if_true, Res.ok.injEq, blTarget, signExtend26, high40_fill _ hwlt]
    have hm : (w + 0x97 * 2 ^ 24) % 2 ^ 26 = w + 3 * 2 ^ 24 := by
      norm_num at hwlt ⊢
      omega
    rw [hm, if_neg (by omega)]
    norm_num at hwlt ⊢
    omega
  · simp only [Arch.callTarget, archAArch64, aarch64Target, uint32LE, hv95, hw, low24_mask,
      hlow, hne95, if_false, ne_eq, Res.ok.injEq, blTarget, signExtend26]
    have hm : (w + 0x95 * 2 ^ 24) % 2 ^ 26 = w + 2 ^ 24 := by
      norm_num at hwlt ⊢
      omega
    rw [hm, if_pos (by omega)]
    norm_num at hwlt ⊢
    omega
  · simp only [Arch.callTarget, archAArch64, aarch64Target, uint32LE, hv96, hw, low24_mask,
      hlow, hne96, if_false, ne_eq, Res.ok.injEq, blTarget, signExtend26]
    have hm : (w + 0x96 * 2 ^ 24) % 2 ^ 26 = w + 2 * 2 ^ 24 := by
      norm_num at hwlt ⊢
      omega
    rw [hm, if_neg (by omega)]
    norm_num at hwlt ⊢
    omega

end Dwarfparser
